import Mathlib

/-!
# Open-addressing hash set with quadratic probing (`HashSet.c`, `Node.c`)

A shallow embedding of the C sources.

Modelling conventions

* `Value` is `void *`.  A pointer is modelled as `Option α`: `none` is `NULL`, `some x` is a
  non-null pointer to the datum `x`.
* The caller-supplied function pointers are collected in `Funcs`.  They are written once by
  `hash_set_alloc` / `node_alloc` and never change, and a table returned by `hash_set_alloc`
  has all of them non-null, so they are passed as a context instead of being stored in every
  node; the `!hash_set->hash_func`-style guards are therefore always false and are omitted.
* `value_free` is called as `elem_free_func (&(node->data))`; it is taken to release the datum
  and to store `NULL` through the pointer it receives (this is what `clear_node` relies on).
* `int` and `size_t` arithmetic is modelled without overflow (`Int`, `Nat`).
  `(int) hash_func (value)` is the `Int` returned by `Funcs.hash_func`.
  In particular the conversion `(int) capacity` in `clamp` is taken as exact, which it is on
  a 32-bit `int` for `capacity < 2 ^ 31`.  The functions `clamp_int32` and
  `get_index_hash_function_int32` are `clamp` and `get_index_hash_function` on a 32-bit
  `int`, with the conversion and with signed overflow as the absence of a result; below
  that capacity, and when nothing overflows, they have the results of `clamp` and
  `get_index_hash_function` (`clamp_int32_eq`, `get_index_int32_of_fits`).
  The statement `hash_set->size--` is `size - 1` on `Nat`; it is only executed after a node
  holding a datum has been found, and on reachable tables `size` counts those nodes
  (`reachable_wellFormed`), so it is never executed with `size = 0`.
* `malloc` always succeeds.
* Where a statement needs the caller's contract on its functions, the contract is a
  hypothesis of the statement (`HashConsistent`, `CopyPreservesHash`).
* `hash_set->NodesList` is a `List (Node α)`.  Reading an index outside the list yields a
  fresh empty node and writing outside is a no-op; `clamp` keeps every index inside the list
  when the capacity is a power of two and the list has `capacity` nodes
  (`get_index_toNat_lt`), which holds on every reachable table (`reachable_wellFormed`).
* The loops of `hash_set_contains_value` and `hash_set_erase` have a bound (`hash_count`) that
  the body itself may increase, so they are modelled with an explicit iteration budget
  (`fuel`); `none` means that the budget ran out before the loop finished.
* The header constants of `HashSet.h` are not part of the sources; they are fixed to
  initial capacity 16, growth factor 2, maximal load factor 0.75, minimal load factor 0.25.
  With a power-of-two capacity the `double` quotient `size / capacity` is exact, so the load
  factor is modelled as an exact rational.
-/

namespace HashSetC

/-! ## Constants -/

abbrev SUBTRACT_FACTOR : Int := 1
abbrev HASH_FUNC_FACTOR : Int := 2
abbrev INITIAL_IND : Nat := 0
abbrev SUCCESS : Int := 1
abbrev FAIL : Int := 0
abbrev ERROR : Int := -1
abbrev INITIAL_HASH_COUNT : Int := 0
abbrev INITIAL_SIZE : Nat := 0
abbrev MIN_CAPACITY : Nat := 1
abbrev ONE_NODE : Int := 1

/-- Modelled from the spec: the constant `HASH_SET_INITIAL_CAP` of the header `HashSet.h`,
which is not among the sources; the initial capacity is 16. -/
abbrev HASH_SET_INITIAL_CAP : Nat := 16
/-- Modelled from the spec: the constant `HASH_SET_GROWTH_FACTOR` of the header `HashSet.h`,
which is not among the sources; the growth factor is 2. -/
abbrev HASH_SET_GROWTH_FACTOR : Nat := 2
/-- Modelled from the spec: the constant `HASH_SET_MAX_LOAD_FACTOR` of the header
`HashSet.h`, which is not among the sources; the maximal load factor is 0.75. -/
def HASH_SET_MAX_LOAD_FACTOR : ℚ := mkRat 3 4
/-- Modelled from the spec: the constant `HASH_SET_MIN_LOAD_FACTOR` of the header
`HashSet.h`, which is not among the sources; the minimal load factor is 0.25. -/
def HASH_SET_MIN_LOAD_FACTOR : ℚ := mkRat 1 4

/-! ## Data model -/

/-- The caller-supplied operations: `hash_func` (already cast to `int`), `value_cpy`,
`value_cmp` (an `int`, compared with `SUCCESS`). -/
structure Funcs (α : Type) where
  hash_func : α → Int
  value_cpy : α → α
  value_cmp : α → α → Int

/-- Struct `Node`: the stored datum (`NULL` when empty) and the anchor counter. -/
structure Node (α : Type) where
  data : Option α
  hashCount : Int
deriving DecidableEq

/-- Struct `HashSet`: the node array, `size` and `capacity`. -/
structure HashSet (α : Type) where
  NodesList : List (Node α)
  size : Nat
  capacity : Nat
deriving DecidableEq

/-! ## Node.c -/

/-- The node built by `node_alloc`: no data, `hashCount = INITIAL_HASH_COUNT`. -/
def node_alloc {α : Type} : Node α :=
  { data := none, hashCount := INITIAL_HASH_COUNT }

/-- Function `check_node`: `ERROR` on a null value, `FAIL` on an empty node, otherwise
`SUCCESS` exactly when `elem_cmp_func (node->data, value) == SUCCESS`. -/
def check_node {α : Type} (cmp : α → α → Int) (node : Node α) (value : Option α) : Int :=
  match value with
  | none => ERROR
  | some v =>
    match node.data with
    | none => FAIL
    | some d => if cmp d v = SUCCESS then SUCCESS else FAIL

/-- Function `clear_node`: on a non-empty node it calls `elem_free_func (&(node->data))`; the
caller-supplied function is taken to release the datum and to store `NULL` in `node->data`,
so the node is left empty.  An empty node is left as it is. -/
def clear_node {α : Type} (node : Node α) : Node α :=
  match node.data with
  | none => node
  | some _ => { node with data := none }

/-- Function `set_node_data`: fails on a null value; otherwise stores a copy of the value
(after clearing a datum that was there) and reports `SUCCESS`. -/
def set_node_data {α : Type} (cpy : α → α) (node : Node α) (value : Option α) :
    Node α × Int :=
  match value with
  | none => (node, FAIL)
  | some v => ({ clear_node node with data := some (cpy v) }, SUCCESS)

/-- Function `get_hash_count` on a non-null node. -/
def get_hash_count {α : Type} (node : Node α) : Int :=
  node.hashCount

/-! ## HashSet.c -/

/-- Read `NodesList[index]`. -/
def nodeAt {α : Type} (nodes : List (Node α)) (index : Nat) : Node α :=
  nodes.getD index node_alloc

/-- The statement `first_node_hash->hashCount++` (`d = 1`) or `--` (`d = -1`), where
`first_node_hash` points to `nodes[first]`. -/
def bumpHashCount {α : Type} (nodes : List (Node α)) (first : Nat) (d : Int) :
    List (Node α) :=
  nodes.set first { nodeAt nodes first with hashCount := (nodeAt nodes first).hashCount + d }

/-- Function `clamp`: `index & ((int) capacity - SUBTRACT_FACTOR)`, with the conversion
`(int) capacity` taken as exact (arithmetic without overflow); on a 32-bit `int` this is its
value for `capacity < 2 ^ 31`, and `clamp_int32` is the function with the conversion. -/
def clamp (capacity : Nat) (index : Int) : Int :=
  Int.land index ((capacity : Int) - SUBTRACT_FACTOR)

/-- Function `get_index_hash_function`:
`clamp (capacity, (int) hash_func (value) + (i + (i * i)) / HASH_FUNC_FACTOR)`. -/
def get_index_hash_function {α : Type} (capacity : Nat) (hash_func : α → Int) (value : α)
    (i : Int) : Int :=
  clamp capacity (hash_func value + Int.tdiv (i + (i * i)) HASH_FUNC_FACTOR)

/-- Function `get_new_nodes_list`: `new_capacity` freshly allocated nodes. -/
def get_new_nodes_list {α : Type} (new_capacity : Nat) : List (Node α) :=
  List.replicate new_capacity node_alloc

/-- Function `get_new_hashset`. -/
def get_new_hashset {α : Type} (capacity : Nat) : HashSet α :=
  { NodesList := get_new_nodes_list capacity, size := INITIAL_SIZE, capacity := capacity }

/-- Function `hash_set_alloc`: `NULL` when one of the four function pointers is null,
otherwise the operations together with a fresh table of capacity `HASH_SET_INITIAL_CAP`.
The argument `value_free` only records whether the pointer is non-null. -/
def hash_set_alloc {α : Type} (hash_func : Option (α → Int)) (value_cpy : Option (α → α))
    (value_cmp : Option (α → α → Int)) (value_free : Option Unit) :
    Option (Funcs α × HashSet α) :=
  match hash_func, value_cpy, value_cmp, value_free with
  | some h, some c, some m, some _ =>
    some ({ hash_func := h, value_cpy := c, value_cmp := m },
      get_new_hashset HASH_SET_INITIAL_CAP)
  | _, _, _, _ => none

/-- Function `hash_set_get_load_factor`: `size / capacity`. -/
def hash_set_get_load_factor {α : Type} (hs : HashSet α) : ℚ :=
  mkRat hs.size hs.capacity

/-- The inner loop of `resize` (`for (j = 0; j < new_capacity; j++)`) for one old datum;
the first argument is the number of iterations left.  `none` is the early `return` taken
when `set_node_data` fails. -/
def resize_place {α : Type} (F : Funcs α) (new_capacity : Nat) (old_data : α) :
    Nat → Nat → Nat → List (Node α) → Option (List (Node α))
  | 0, _, _, new_nodes => some new_nodes
  | n + 1, j, first, new_nodes =>
    let index := (get_index_hash_function new_capacity F.hash_func old_data (j : Int)).toNat
    let first := if j = INITIAL_IND then index else first
    match (nodeAt new_nodes index).data with
    | none =>
      let r := set_node_data F.value_cpy (nodeAt new_nodes index) (some old_data)
      if r.2 = FAIL then none
      else some (bumpHashCount (new_nodes.set index r.1) first 1)
    | some _ => resize_place F new_capacity old_data n (j + 1) first new_nodes

/-- The outer loop of `resize` (`for (i = 0; i < hash_set->capacity; i++)`); the first
argument is the number of iterations left. -/
def resize_loop {α : Type} (F : Funcs α) (old_nodes : List (Node α)) (new_capacity : Nat) :
    Nat → Nat → List (Node α) → Option (List (Node α))
  | 0, _, new_nodes => some new_nodes
  | n + 1, i, new_nodes =>
    match (nodeAt old_nodes i).data with
    | none => resize_loop F old_nodes new_capacity n (i + 1) new_nodes
    | some old_data =>
      match resize_place F new_capacity old_data new_capacity INITIAL_IND 0 new_nodes with
      | none => none
      | some new_nodes1 => resize_loop F old_nodes new_capacity n (i + 1) new_nodes1

/-- Function `resize`: every datum of the old array is hashed into a fresh array of
`new_capacity` nodes, which then replaces the old one. -/
def resize {α : Type} (F : Funcs α) (hs : HashSet α) (new_capacity : Nat) : HashSet α :=
  match resize_loop F hs.NodesList new_capacity hs.capacity INITIAL_IND
      (get_new_nodes_list new_capacity) with
  | none => hs
  | some new_nodes => { NodesList := new_nodes, size := hs.size, capacity := new_capacity }

/-- One pass of the loop of `hash_set_contains_value` (`for (i = 0; i <= hash_count; i++)`)
from the state `(i, hash_count, first_node_hash)`, starting at the loop test: either the
function returns (`Sum.inl`), or the loop goes on with the next state (`Sum.inr`). -/
def hash_set_contains_step {α : Type} (F : Funcs α) (hs : HashSet α) (value : α)
    (i : Nat) (hash_count : Int) (first : Nat) : Sum Int (Nat × Int × Nat) :=
  if (i : Int) ≤ hash_count then
    let index := (get_index_hash_function hs.capacity F.hash_func value (i : Int)).toNat
    let first := if i = INITIAL_IND then index else first
    let hash_count :=
      if i = INITIAL_IND then (nodeAt hs.NodesList first).hashCount else hash_count
    if i = INITIAL_IND ∧ hash_count = INITIAL_HASH_COUNT then Sum.inl FAIL
    else
      match (nodeAt hs.NodesList index).data with
      | none =>
        if (nodeAt hs.NodesList first).hashCount ≠ ONE_NODE then
          Sum.inr (i + 1, hash_count + 1, first)
        else Sum.inr (i + 1, hash_count, first)
      | some _ =>
        if check_node F.value_cmp (nodeAt hs.NodesList index) (some value) = SUCCESS then
          Sum.inl SUCCESS
        else Sum.inr (i + 1, hash_count, first)
  else Sum.inl FAIL

/-- The loop of `hash_set_contains_value`, run for at most `fuel` passes. -/
def hash_set_contains_loop {α : Type} (F : Funcs α) (hs : HashSet α) (value : α) :
    Nat → Nat → Int → Nat → Option Int
  | 0, _, _, _ => none
  | fuel + 1, i, hash_count, first =>
    match hash_set_contains_step F hs value i hash_count first with
    | Sum.inl r => some r
    | Sum.inr (i1, hash_count1, first1) =>
      hash_set_contains_loop F hs value fuel i1 hash_count1 first1

/-- Function `hash_set_contains_value`. -/
def hash_set_contains_value {α : Type} (F : Funcs α) (fuel : Nat) (hs : HashSet α)
    (value : Option α) : Option Int :=
  match value with
  | none => some FAIL
  | some v => hash_set_contains_loop F hs v fuel INITIAL_IND ONE_NODE 0

/-- The loop of `hash_set_insert` (`for (i = 0; i < hash_set->capacity; i++)`); the first
argument is the number of iterations left. -/
def hash_set_insert_loop {α : Type} (F : Funcs α) (hs : HashSet α) (value : α) :
    Nat → Nat → Nat → HashSet α × Int
  | 0, _, _ => (hs, FAIL)
  | n + 1, i, first =>
    let index := (get_index_hash_function hs.capacity F.hash_func value (i : Int)).toNat
    let first := if i = INITIAL_IND then index else first
    match (nodeAt hs.NodesList index).data with
    | none =>
      let r := set_node_data F.value_cpy (nodeAt hs.NodesList index) (some value)
      if r.2 = FAIL then (hs, FAIL)
      else
        let hs1 : HashSet α :=
          { NodesList := bumpHashCount (hs.NodesList.set index r.1) first 1
            size := hs.size + 1
            capacity := hs.capacity }
        if hash_set_get_load_factor hs1 ≥ HASH_SET_MAX_LOAD_FACTOR then
          (resize F hs1 (hs1.capacity * HASH_SET_GROWTH_FACTOR), SUCCESS)
        else (hs1, SUCCESS)
    | some _ => hash_set_insert_loop F hs value n (i + 1) first

/-- Function `hash_set_insert`. -/
def hash_set_insert {α : Type} (F : Funcs α) (fuel : Nat) (hs : HashSet α)
    (value : Option α) : Option (HashSet α × Int) :=
  match value with
  | none => some (hs, FAIL)
  | some v =>
    match hash_set_contains_value F fuel hs (some v) with
    | none => none
    | some r =>
      if r = SUCCESS then some (hs, FAIL)
      else some (hash_set_insert_loop F hs v hs.capacity INITIAL_IND 0)

/-- One pass of the loop of `hash_set_erase` (`for (i = 0; i <= hash_count; i++)`) from the
state `(i, hash_count, first_node_hash)`, starting at the loop test: either the function
returns the updated table and its result (`Sum.inl`), or the loop goes on (`Sum.inr`). -/
def hash_set_erase_step {α : Type} (F : Funcs α) (hs : HashSet α) (value : α)
    (i : Nat) (hash_count : Int) (first : Nat) : Sum (HashSet α × Int) (Nat × Int × Nat) :=
  if (i : Int) ≤ hash_count then
    let index := (get_index_hash_function hs.capacity F.hash_func value (i : Int)).toNat
    let first := if i = INITIAL_IND then index else first
    let hash_count :=
      if i = INITIAL_IND then (nodeAt hs.NodesList first).hashCount else hash_count
    if check_node F.value_cmp (nodeAt hs.NodesList index) (some value) = SUCCESS then
      let hs1 : HashSet α :=
        { NodesList :=
            bumpHashCount
              (hs.NodesList.set index (clear_node (nodeAt hs.NodesList index))) first (-1)
          size := hs.size - 1
          capacity := hs.capacity }
      if hash_set_get_load_factor hs1 ≤ HASH_SET_MIN_LOAD_FACTOR
          ∧ hs1.capacity ≠ MIN_CAPACITY then
        Sum.inl (resize F hs1 (hs1.capacity / HASH_SET_GROWTH_FACTOR), SUCCESS)
      else Sum.inl (hs1, SUCCESS)
    else
      match (nodeAt hs.NodesList index).data with
      | none =>
        if (nodeAt hs.NodesList first).hashCount ≠ ONE_NODE then
          Sum.inr (i + 1, hash_count + 1, first)
        else Sum.inr (i + 1, hash_count, first)
      | some _ => Sum.inr (i + 1, hash_count, first)
  else Sum.inl (hs, FAIL)

/-- The loop of `hash_set_erase`, run for at most `fuel` passes. -/
def hash_set_erase_loop {α : Type} (F : Funcs α) (hs : HashSet α) (value : α) :
    Nat → Nat → Int → Nat → Option (HashSet α × Int)
  | 0, _, _, _ => none
  | fuel + 1, i, hash_count, first =>
    match hash_set_erase_step F hs value i hash_count first with
    | Sum.inl r => some r
    | Sum.inr (i1, hash_count1, first1) =>
      hash_set_erase_loop F hs value fuel i1 hash_count1 first1

/-- Function `hash_set_erase`. -/
def hash_set_erase {α : Type} (F : Funcs α) (fuel : Nat) (hs : HashSet α)
    (value : Option α) : Option (HashSet α × Int) :=
  match value with
  | none => some (hs, FAIL)
  | some v => hash_set_erase_loop F hs v fuel INITIAL_IND ONE_NODE 0

/-- The loop of `hash_set_clear` (`for (i = 0; i < hash_set->capacity; i++)`); the first
argument is the number of iterations left. -/
def hash_set_clear_loop {α : Type} : Nat → Nat → List (Node α) → List (Node α)
  | 0, _, nodes => nodes
  | n + 1, i, nodes =>
    hash_set_clear_loop n (i + 1)
      (nodes.set i { clear_node (nodeAt nodes i) with hashCount := INITIAL_HASH_COUNT })

/-- Function `hash_set_clear`. -/
def hash_set_clear {α : Type} (hs : HashSet α) : HashSet α :=
  { NodesList := hash_set_clear_loop hs.capacity INITIAL_IND hs.NodesList
    size := INITIAL_SIZE
    capacity := hs.capacity }

/-- Function `hash_set_at` with `check_inputs_hash_set_at`: `NULL` for a negative index, an
index `≥ capacity` or an empty node, otherwise the stored datum. -/
def hash_set_at {α : Type} (hs : HashSet α) (value : Int) : Option α :=
  if value < (INITIAL_IND : Int) ∨ hs.capacity ≤ value.toNat then none
  else (nodeAt hs.NodesList value.toNat).data

/-! ## Notions used in the statements -/

/-- The number of nodes of the array whose `data` is not `NULL`. -/
def countOccupied {α : Type} (nodes : List (Node α)) : Nat :=
  nodes.countP (fun node => node.data.isSome)

/-- The slot index probed at attempt `i` for `value` in a table of the given capacity
(the `index` computed at the top of every probe loop). -/
def probeIndex {α : Type} (F : Funcs α) (capacity : Nat) (value : α) (i : Nat) : Nat :=
  (get_index_hash_function capacity F.hash_func value (i : Int)).toNat

/-- The table `hash_set_insert` has built once it has stored the value in the empty slot
`index` and has counted it at the anchor slot `first`, before the load-factor test. -/
def insertedAt {α : Type} (F : Funcs α) (hs : HashSet α) (value : α) (index first : Nat) :
    HashSet α :=
  { NodesList :=
      bumpHashCount
        (hs.NodesList.set index
          (set_node_data F.value_cpy (nodeAt hs.NodesList index) (some value)).1) first 1
    size := hs.size + 1
    capacity := hs.capacity }

/-- The table `hash_set_erase` has built once it has cleared the slot `index` and has
discounted it at the anchor slot `first`, before the load-factor test. -/
def erasedAt {α : Type} (hs : HashSet α) (index first : Nat) : HashSet α :=
  { NodesList :=
      bumpHashCount
        (hs.NodesList.set index (clear_node (nodeAt hs.NodesList index))) first (-1)
    size := hs.size - 1
    capacity := hs.capacity }

/-- Structural invariant of a table: the capacity is a power of two, the node array has
`capacity` nodes, `size` counts the occupied nodes, and the load factor is below 0.75. -/
def WellFormed {α : Type} (hs : HashSet α) : Prop :=
  (∃ k : Nat, hs.capacity = 2 ^ k) ∧ hs.NodesList.length = hs.capacity ∧
    hs.size = countOccupied hs.NodesList ∧ 4 * hs.size < 3 * hs.capacity

/-! ## Reachable tables -/

/-- Tables obtained from the table of `hash_set_alloc` by calls of `hash_set_insert`,
`hash_set_erase` and `hash_set_clear` that return. -/
inductive Reachable {α : Type} (F : Funcs α) : HashSet α → Prop
  | alloc : Reachable F (get_new_hashset HASH_SET_INITIAL_CAP)
  | insert {hs hs1 : HashSet α} {fuel : Nat} {value : Option α} {r : Int} :
      Reachable F hs → hash_set_insert F fuel hs value = some (hs1, r) → Reachable F hs1
  | erase {hs hs1 : HashSet α} {fuel : Nat} {value : Option α} {r : Int} :
      Reachable F hs → hash_set_erase F fuel hs value = some (hs1, r) → Reachable F hs1
  | clear {hs : HashSet α} : Reachable F hs → Reachable F (hash_set_clear hs)

/-- Integer keys with the identity hash, the identity copy and equality as comparison. -/
def intFuncs : Funcs Int :=
  { hash_func := fun x => x, value_cpy := fun x => x,
    value_cmp := fun a b => if a = b then 1 else 0 }

/-- An empty node of an `Int` table (as built by `node_alloc`). -/
def emp : Node Int := node_alloc

/-- A node of an `Int` table holding `v`, with anchor counter `c`. -/
def occ (v : Int) (c : Int) : Node Int := { data := some v, hashCount := c }

/-- A call of the public interface that changes the table. -/
inductive Op (α : Type) where
  | insert : α → Op α
  | erase : α → Op α
  | clear : Op α
deriving DecidableEq

/-- Run a list of calls, each with iteration budget `fuel`, threading the table; `none` if
one of the calls does not return within its budget. -/
def runOps {α : Type} (F : Funcs α) (fuel : Nat) : HashSet α → List (Op α) → Option (HashSet α)
  | hs, [] => some hs
  | hs, Op.insert v :: ops =>
    match hash_set_insert F fuel hs (some v) with
    | none => none
    | some (hs1, _) => runOps F fuel hs1 ops
  | hs, Op.erase v :: ops =>
    match hash_set_erase F fuel hs (some v) with
    | none => none
    | some (hs1, _) => runOps F fuel hs1 ops
  | hs, Op.clear :: ops => runOps F fuel (hash_set_clear hs) ops

/-! ## Concrete tables over `Int` keys (identity hash) used in the examples -/

/-- After inserting 3, 19, 5 into a fresh table: 19 collides with 3 and lands in slot 4. -/
def table_3_19_5 : HashSet Int :=
  { NodesList := [emp, emp, emp, occ 3 2, occ 19 0, occ 5 1, emp, emp,
      emp, emp, emp, emp, emp, emp, emp, emp]
    size := 3, capacity := 16 }

/-- After also inserting 4: slots 4 and 5 are taken, so 4 lands at probe step 2 (slot 7);
its anchor, slot 4, has `hashCount = 1`. -/
def table_3_19_5_4 : HashSet Int :=
  { NodesList := [emp, emp, emp, occ 3 2, occ 19 1, occ 5 1, emp, occ 4 0,
      emp, emp, emp, emp, emp, emp, emp, emp]
    size := 4, capacity := 16 }

/-- After inserting 4 a second time: a second copy of 4 sits at probe step 3 (slot 10). -/
def table_3_19_5_4_4 : HashSet Int :=
  { NodesList := [emp, emp, emp, occ 3 2, occ 19 2, occ 5 1, emp, occ 4 0,
      emp, emp, occ 4 0, emp, emp, emp, emp, emp]
    size := 5, capacity := 16 }

/-- After also inserting 20 (anchor 4, probe step 4, slot 14). -/
def table_3_19_5_4_4_20 : HashSet Int :=
  { NodesList := [emp, emp, emp, occ 3 2, occ 19 3, occ 5 1, emp, occ 4 0,
      emp, emp, occ 4 0, emp, emp, emp, occ 20 0, emp]
    size := 6, capacity := 16 }

/-- After then erasing 4: the copy in slot 7 is gone, the copy in slot 10 remains. -/
def table_3_19_5_4_4_20_erased_4 : HashSet Int :=
  { NodesList := [emp, emp, emp, occ 3 2, occ 19 2, occ 5 1, emp, emp,
      emp, emp, occ 4 0, emp, emp, emp, occ 20 0, emp]
    size := 5, capacity := 16 }

/-- After inserting 4, 5, 20, 8, 9, 11 into a fresh table: 20 has anchor 4 and sits at probe
step 2 (slot 7). -/
def table_4_5_20_8_9_11 : HashSet Int :=
  { NodesList := [emp, emp, emp, emp, occ 4 2, occ 5 1, emp, occ 20 0,
      occ 8 1, occ 9 1, emp, occ 11 1, emp, emp, emp, emp]
    size := 6, capacity := 16 }

/-- After then erasing 4: 20 is still stored in slot 7, its anchor has `hashCount = 1`. -/
def table_4_5_20_8_9_11_erased_4 : HashSet Int :=
  { NodesList := [emp, emp, emp, emp, { data := none, hashCount := 1 }, occ 5 1, emp,
      occ 20 0, occ 8 1, occ 9 1, emp, occ 11 1, emp, emp, emp, emp]
    size := 5, capacity := 16 }

/-- After inserting 3, 19, 5, 12 into a fresh table (slots 3, 4, 5, 12). -/
def table_3_19_5_12 : HashSet Int :=
  { NodesList := [emp, emp, emp, occ 3 2, occ 19 0, occ 5 1, emp, emp,
      emp, emp, emp, emp, occ 12 1, emp, emp, emp]
    size := 4, capacity := 16 }

/-- After also inserting 1. -/
def table_3_19_5_12_1 : HashSet Int :=
  { NodesList := [emp, occ 1 1, emp, occ 3 2, occ 19 0, occ 5 1, emp, emp,
      emp, emp, emp, emp, occ 12 1, emp, emp, emp]
    size := 5, capacity := 16 }

/-- The table holding 3, 19, 5, 12 after `resize` to capacity 8: 12 has anchor 4 and sits at
probe step 2 (slot 7), while slot 4 has `hashCount = 1`. -/
def table_3_19_5_12_resized : HashSet Int :=
  { NodesList := [emp, emp, emp, occ 3 2, occ 19 1, occ 5 1, emp, occ 12 0]
    size := 4, capacity := 8 }

/-- After inserting 7 into a fresh table. -/
def table_7 : HashSet Int :=
  { NodesList := [emp, emp, emp, emp, emp, emp, emp, occ 7 1,
      emp, emp, emp, emp, emp, emp, emp, emp]
    size := 1, capacity := 16 }

/-- After inserting 0, 1, ..., 10 into a fresh table. -/
def table_0_to_10 : HashSet Int :=
  { NodesList := [occ 0 1, occ 1 1, occ 2 1, occ 3 1, occ 4 1, occ 5 1, occ 6 1, occ 7 1,
      occ 8 1, occ 9 1, occ 10 1, emp, emp, emp, emp, emp]
    size := 11, capacity := 16 }

/-- After also inserting 11: the table has grown to capacity 32. -/
def table_0_to_11 : HashSet Int :=
  { NodesList := [occ 0 1, occ 1 1, occ 2 1, occ 3 1, occ 4 1, occ 5 1, occ 6 1, occ 7 1,
      occ 8 1, occ 9 1, occ 10 1, occ 11 1, emp, emp, emp, emp,
      emp, emp, emp, emp, emp, emp, emp, emp, emp, emp, emp, emp, emp, emp, emp, emp]
    size := 12, capacity := 32 }

/-- Whether a node holds a datum whose probe step 0 at the given capacity is slot `s`. -/
def anchoredAt {α : Type} (F : Funcs α) (capacity : Nat) (s : Nat) (node : Node α) : Bool :=
  match node.data with
  | none => false
  | some x => decide (probeIndex F capacity x 0 = s)

/-- The number of stored values (counted per occupied node) whose step-0 probe index at the
given capacity is slot `s`. -/
def anchorCount {α : Type} (F : Funcs α) (capacity : Nat) (nodes : List (Node α))
    (s : Nat) : Nat :=
  nodes.countP (anchoredAt F capacity s)

/-- Anchor-count invariant of a node array: at every slot `s < capacity`, `hashCount` is the
number of stored values anchored at `s`. -/
def AnchorsOK {α : Type} (F : Funcs α) (capacity : Nat) (nodes : List (Node α)) : Prop :=
  ∀ s, s < capacity → (nodeAt nodes s).hashCount = (anchorCount F capacity nodes s : Int)

/-- Contract of the caller: values that compare equal have the same hash. -/
def HashConsistent {α : Type} (F : Funcs α) : Prop :=
  ∀ a b, F.value_cmp a b = SUCCESS → F.hash_func a = F.hash_func b

/-- Contract of the caller: a copy has the hash of its original. -/
def CopyPreservesHash {α : Type} (F : Funcs α) : Prop :=
  ∀ a, F.hash_func (F.value_cpy a) = F.hash_func a

/-- The number of probe steps `j < i` of `value` that land on an empty slot. -/
def emptyBefore {α : Type} (F : Funcs α) (hs : HashSet α) (value : α) (i : Nat) : Nat :=
  (List.range i).countP
    (fun j => (nodeAt hs.NodesList (probeIndex F hs.capacity value j)).data.isNone)

/-- The value of the loop bound `hash_count` of `hash_set_contains_value` at the test of
pass `i ≥ 1`: the anchor's `hashCount` when that is `ONE_NODE`, and otherwise the anchor's
`hashCount` plus one for every empty slot probed so far. -/
def probeBound {α : Type} (F : Funcs α) (hs : HashSet α) (value : α) (i : Nat) : Int :=
  if (nodeAt hs.NodesList (probeIndex F hs.capacity value 0)).hashCount = ONE_NODE then
    (nodeAt hs.NodesList (probeIndex F hs.capacity value 0)).hashCount
  else
    (nodeAt hs.NodesList (probeIndex F hs.capacity value 0)).hashCount
      + (emptyBefore F hs value i : Int)

/-- The number of loop bodies that the loop of `hash_set_contains_value` executes from the
state `(i, hash_count, first_node_hash)` on, within at most `fuel` passes: a pass whose loop
test fails executes no body, a pass that returns from the body is the last one. -/
def hash_set_contains_passes {α : Type} (F : Funcs α) (hs : HashSet α) (value : α) :
    Nat → Nat → Int → Nat → Option Nat
  | 0, _, _, _ => none
  | fuel + 1, i, hash_count, first =>
    if (i : Int) ≤ hash_count then
      match hash_set_contains_step F hs value i hash_count first with
      | Sum.inl _ => some 1
      | Sum.inr (i1, hash_count1, first1) =>
        (hash_set_contains_passes F hs value fuel i1 hash_count1 first1).map (fun n => n + 1)
    else some 0

/-- After inserting 0 and 16 into a fresh table: 16 collides with 0 and lands in slot 1;
the anchor slot 0 has `hashCount = 2`. -/
def table_0_16 : HashSet Int :=
  { NodesList := [occ 0 2, occ 16 0, emp, emp, emp, emp, emp, emp,
      emp, emp, emp, emp, emp, emp, emp, emp]
    size := 2, capacity := 16 }

/-- Integer keys with the identity hash and the identity copy, compared by their block of 16:
two keys compare equal when their quotients by 16 agree.  Keys of one block that differ have
different hashes, so this caller does not keep `HashConsistent`. -/
def blockFuncs : Funcs Int :=
  { hash_func := fun x => x, value_cpy := fun x => x,
    value_cmp := fun a b => if a / 16 = b / 16 then 1 else 0 }

/-- With `blockFuncs`: after inserting 16, 32, ..., 176 (all anchored at slot 0) into a fresh
table and erasing 33, 51, 70, 90, 111, 117, which compare equal to 32, 48, 64, 80, 96, 112
and have the slots of these values as their anchors.  Five values remain, the anchor slot 0
still has `hashCount = 11`, and six other slots have `hashCount = -1`. -/
def table_blocks : HashSet Int :=
  { NodesList := [occ 16 11, { data := none, hashCount := -1 }, emp,
      { data := none, hashCount := -1 }, occ 144 0, { data := none, hashCount := -1 },
      { data := none, hashCount := -1 }, occ 176 0, emp, emp,
      { data := none, hashCount := -1 }, emp, occ 128 0, occ 160 0, emp,
      { data := none, hashCount := -1 }]
    size := 5, capacity := 16 }

/-! ## `clamp` and `get_index_hash_function` on a 32-bit `int` -/

/-- The least value of a 32-bit two's-complement `int`. -/
abbrev INT_MIN : Int := -2147483648
/-- The greatest value of a 32-bit two's-complement `int`. -/
abbrev INT_MAX : Int := 2147483647

/-- The result of an `int` operation whose exact value is `x`: `x` itself when it is
representable in a 32-bit `int`, and no result otherwise (signed overflow is undefined). -/
def int_result (x : Int) : Option Int :=
  if INT_MIN ≤ x ∧ x ≤ INT_MAX then some x else none

/-- The conversion `(int) capacity` of a `size_t` to a 32-bit two's-complement `int`: the
value congruent to `capacity` modulo `2 ^ 32` in `INT_MIN .. INT_MAX`.  It is `capacity`
itself exactly when `capacity ≤ INT_MAX`. -/
def int_of_size_t (capacity : Nat) : Int :=
  ((capacity : Int) + 2147483648) % 4294967296 - 2147483648

/-- Function `clamp` on a 32-bit `int`: `index & ((int) capacity - SUBTRACT_FACTOR)`, with
the conversion of `capacity` and the subtraction carried out in `int`. -/
def clamp_int32 (capacity : Nat) (index : Int) : Option Int :=
  (int_result (int_of_size_t capacity - SUBTRACT_FACTOR)).map (fun mask => Int.land index mask)

/-- Function `get_index_hash_function` on a 32-bit `int`:
`clamp (capacity, (int) hash_func (value) + (i + (i * i)) / HASH_FUNC_FACTOR)`, where
`(int) hash_func (value)` is an `int` and each of `i * i`, `i + (i * i)` and the sum with the
hash is computed in `int`. -/
def get_index_hash_function_int32 {α : Type} (capacity : Nat) (hash_func : α → Int)
    (value : α) (i : Int) : Option Int :=
  (int_result (hash_func value)).bind fun h =>
    (int_result (i * i)).bind fun sq =>
      (int_result (i + sq)).bind fun s =>
        (int_result (h + Int.tdiv s HASH_FUNC_FACTOR)).bind fun index =>
          clamp_int32 capacity index

/-! ## Iteration budget and reachability -/

theorem contains_loop_succ {α : Type} (F : Funcs α) (hs : HashSet α) (v : α) :
    ∀ (fuel i : Nat) (hc : Int) (first : Nat) (r : Int),
      hash_set_contains_loop F hs v fuel i hc first = some r →
      hash_set_contains_loop F hs v (fuel + 1) i hc first = some r := by
  intro fuel
  induction fuel with
  | zero => intro i hc first r h; simp [hash_set_contains_loop] at h
  | succ n ih =>
    intro i hc first r h
    rw [hash_set_contains_loop] at h ⊢
    cases hstep : hash_set_contains_step F hs v i hc first with
    | inl res => rw [hstep] at h; exact h
    | inr st =>
      rw [hstep] at h
      exact ih _ _ _ _ h

theorem contains_loop_mono {α : Type} (F : Funcs α) (hs : HashSet α) (v : α)
    (fuel fuel1 i : Nat) (hc : Int) (first : Nat) (r : Int) (hle : fuel ≤ fuel1)
    (h : hash_set_contains_loop F hs v fuel i hc first = some r) :
    hash_set_contains_loop F hs v fuel1 i hc first = some r := by
  induction hle with
  | refl => exact h
  | step _ ih => exact contains_loop_succ F hs v _ i hc first r ih

theorem contains_value_mono {α : Type} (F : Funcs α) (hs : HashSet α) (v : Option α)
    (fuel fuel1 : Nat) (r : Int) (hle : fuel ≤ fuel1)
    (h : hash_set_contains_value F fuel hs v = some r) :
    hash_set_contains_value F fuel1 hs v = some r := by
  cases v with
  | none => simpa [hash_set_contains_value] using h
  | some x =>
    simp only [hash_set_contains_value] at h ⊢
    exact contains_loop_mono F hs x fuel fuel1 _ _ _ r hle h

/-- The result of `hash_set_contains_value` does not depend on the iteration budget. -/
theorem contains_value_unique {α : Type} (F : Funcs α) (hs : HashSet α) (v : Option α)
    (fuel fuel1 : Nat) (r r1 : Int)
    (h : hash_set_contains_value F fuel hs v = some r)
    (h1 : hash_set_contains_value F fuel1 hs v = some r1) : r = r1 := by
  rcases Nat.le_total fuel fuel1 with hle | hle
  · have := contains_value_mono F hs v fuel fuel1 r hle h
    rw [this] at h1
    exact Option.some.inj h1
  · have := contains_value_mono F hs v fuel1 fuel r1 hle h1
    rw [this] at h
    exact (Option.some.inj h).symm

theorem erase_loop_succ {α : Type} (F : Funcs α) (hs : HashSet α) (v : α) :
    ∀ (fuel i : Nat) (hc : Int) (first : Nat) (p : HashSet α × Int),
      hash_set_erase_loop F hs v fuel i hc first = some p →
      hash_set_erase_loop F hs v (fuel + 1) i hc first = some p := by
  intro fuel
  induction fuel with
  | zero => intro i hc first p h; simp [hash_set_erase_loop] at h
  | succ n ih =>
    intro i hc first p h
    rw [hash_set_erase_loop] at h ⊢
    cases hstep : hash_set_erase_step F hs v i hc first with
    | inl res => rw [hstep] at h; exact h
    | inr st =>
      rw [hstep] at h
      exact ih _ _ _ _ h

theorem erase_loop_mono {α : Type} (F : Funcs α) (hs : HashSet α) (v : α)
    (fuel fuel1 i : Nat) (hc : Int) (first : Nat) (p : HashSet α × Int) (hle : fuel ≤ fuel1)
    (h : hash_set_erase_loop F hs v fuel i hc first = some p) :
    hash_set_erase_loop F hs v fuel1 i hc first = some p := by
  induction hle with
  | refl => exact h
  | step _ ih => exact erase_loop_succ F hs v _ i hc first p ih

/-- The result of `hash_set_erase` does not depend on the iteration budget. -/
theorem erase_unique {α : Type} (F : Funcs α) (hs : HashSet α) (v : Option α)
    (fuel fuel1 : Nat) (p p1 : HashSet α × Int)
    (h : hash_set_erase F fuel hs v = some p)
    (h1 : hash_set_erase F fuel1 hs v = some p1) : p = p1 := by
  cases v with
  | none =>
    simp only [hash_set_erase, Option.some.injEq] at h h1
    rw [← h, ← h1]
  | some x =>
    simp only [hash_set_erase] at h h1
    rcases Nat.le_total fuel fuel1 with hle | hle
    · have := erase_loop_mono F hs x fuel fuel1 _ _ _ p hle h
      rw [this] at h1
      exact Option.some.inj h1
    · have := erase_loop_mono F hs x fuel1 fuel _ _ _ p1 hle h1
      rw [this] at h
      exact (Option.some.inj h).symm

/-- The result of `hash_set_insert` does not depend on the iteration budget. -/
theorem insert_unique {α : Type} (F : Funcs α) (hs : HashSet α) (v : Option α)
    (fuel fuel1 : Nat) (p p1 : HashSet α × Int)
    (h : hash_set_insert F fuel hs v = some p)
    (h1 : hash_set_insert F fuel1 hs v = some p1) : p = p1 := by
  cases v with
  | none =>
    simp only [hash_set_insert, Option.some.injEq] at h h1
    rw [← h, ← h1]
  | some x =>
    simp only [hash_set_insert] at h h1
    cases hc : hash_set_contains_value F fuel hs (some x) with
    | none => rw [hc] at h; simp at h
    | some r =>
      cases hc1 : hash_set_contains_value F fuel1 hs (some x) with
      | none => rw [hc1] at h1; simp at h1
      | some r1 =>
        have hr := contains_value_unique F hs (some x) fuel fuel1 r r1 hc hc1
        subst hr
        rw [hc] at h
        rw [hc1] at h1
        simp only at h h1
        exact Option.some.inj (h.symm.trans h1)

theorem runOps_reachable {α : Type} (F : Funcs α) (fuel : Nat) :
    ∀ (ops : List (Op α)) (hs hs1 : HashSet α), Reachable F hs →
      runOps F fuel hs ops = some hs1 → Reachable F hs1 := by
  intro ops
  induction ops with
  | nil =>
    intro hs hs1 hr h
    simp only [runOps, Option.some.injEq] at h
    exact h ▸ hr
  | cons op ops ih =>
    intro hs hs1 hr h
    cases op with
    | insert v =>
      simp only [runOps] at h
      split at h
      · exact absurd h (by simp)
      · rename_i hs2 r heq
        exact ih hs2 hs1 (Reachable.insert hr heq) h
    | erase v =>
      simp only [runOps] at h
      split at h
      · exact absurd h (by simp)
      · rename_i hs2 r heq
        exact ih hs2 hs1 (Reachable.erase hr heq) h
    | clear =>
      simp only [runOps] at h
      exact ih _ hs1 (Reachable.clear hr) h

theorem ldiff_mask (k m : Nat) : Nat.ldiff (2 ^ k - 1) m = 2 ^ k - 1 - m % 2 ^ k := by
  apply Nat.eq_of_testBit_eq
  intro i
  have hlt : m % 2 ^ k < 2 ^ k := Nat.mod_lt _ (Nat.two_pow_pos k)
  have h2 : 2 ^ k - 1 - m % 2 ^ k = 2 ^ k - (m % 2 ^ k + 1) := by omega
  rw [Nat.testBit_ldiff, Nat.testBit_two_pow_sub_one, h2, Nat.testBit_two_pow_sub_succ hlt,
    Nat.testBit_mod_two_pow]
  by_cases hi : i < k <;> simp [hi]

theorem clamp_two_pow (k : Nat) (x : Int) :
    clamp (2 ^ k) x = x % ((2 ^ k : Nat) : Int) := by
  have hpos : 0 < 2 ^ k := Nat.two_pow_pos k
  have hmask : (((2 ^ k : Nat) : Int) - SUBTRACT_FACTOR) = ((2 ^ k - 1 : Nat) : Int) := by
    simp only [SUBTRACT_FACTOR]; omega
  unfold clamp
  rw [hmask]
  cases x with
  | ofNat m =>
    show ((m &&& (2 ^ k - 1) : Nat) : Int) = _
    rw [Nat.and_pow_two_sub_one_eq_mod]
    rfl
  | negSucc m =>
    show ((Nat.ldiff (2 ^ k - 1) m : Nat) : Int) = _
    rw [ldiff_mask, Int.negSucc_emod m (by exact_mod_cast hpos)]
    have hlt : m % 2 ^ k < 2 ^ k := Nat.mod_lt _ hpos
    have hcast : ((m % 2 ^ k : Nat) : Int) = (m : Int) % ((2 ^ k : Nat) : Int) :=
      Int.natCast_mod m (2 ^ k)
    rw [← hcast]
    generalize m % 2 ^ k = r at hlt ⊢
    generalize 2 ^ k = P at hlt hpos ⊢
    omega

theorem clamp_two_pow_nonneg (k : Nat) (x : Int) : 0 ≤ clamp (2 ^ k) x := by
  rw [clamp_two_pow]
  exact Int.emod_nonneg _ (by exact_mod_cast (Nat.two_pow_pos k).ne')

theorem clamp_two_pow_toNat_lt (k : Nat) (x : Int) : (clamp (2 ^ k) x).toNat < 2 ^ k := by
  rw [Int.toNat_lt (clamp_two_pow_nonneg k x), clamp_two_pow]
  exact Int.emod_lt_of_pos _ (by exact_mod_cast Nat.two_pow_pos k)

/-- The triangular number `i (i + 1) / 2`. -/
theorem tri_tdiv (i : Nat) :
    Int.tdiv ((i : Int) + (i : Int) * (i : Int)) HASH_FUNC_FACTOR = ((i * (i + 1) / 2 : Nat) : Int) := by
  rw [Int.tdiv_eq_ediv (by positivity) (by decide)]
  have : ((i : Int) + (i : Int) * (i : Int)) = ((i * (i + 1) : Nat) : Int) := by push_cast; ring
  rw [this]
  simp only [HASH_FUNC_FACTOR]
  norm_cast


theorem tri_two_mul (i : Nat) : 2 * (i * (i + 1) / 2) = i * (i + 1) := by
  have h : 2 ∣ i * (i + 1) := (Nat.even_mul_succ_self i).two_dvd
  exact Nat.mul_div_cancel' h

theorem tri_mono {i j : Nat} (h : i ≤ j) : i * (i + 1) / 2 ≤ j * (j + 1) / 2 :=
  Nat.div_le_div_right (Nat.mul_le_mul h (by omega))

theorem tri_not_dvd (k i j : Nat) (hij : i < j) (hj : j < 2 ^ k) :
    ¬ (2 ^ k ∣ j * (j + 1) / 2 - i * (i + 1) / 2) := by
  intro hdvd
  have hle := tri_mono (Nat.le_of_lt hij)
  have h2 : 2 * (j * (j + 1) / 2 - i * (i + 1) / 2) = (j - i) * (i + j + 1) := by
    rw [Nat.mul_sub, tri_two_mul, tri_two_mul]
    obtain ⟨d, rfl⟩ : ∃ d, j = i + d := ⟨j - i, by omega⟩
    have : i + d - i = d := by omega
    rw [this]
    apply Nat.sub_eq_of_eq_add
    ring
  have hdvd2 : 2 ^ (k + 1) ∣ (j - i) * (i + j + 1) := by
    rw [← h2, pow_succ, mul_comm]
    exact Nat.mul_dvd_mul_left 2 hdvd
  have hpow : (2 : Nat) ^ (k + 1) = 2 * 2 ^ k := by rw [pow_succ, mul_comm]
  rcases Nat.even_or_odd (j - i) with he | ho
  · -- then i + j + 1 is odd
    have hodd : Odd (i + j + 1) := by
      rcases he with ⟨c, hc⟩
      exact ⟨i + c, by omega⟩
    have hcop : Nat.Coprime (2 ^ (k + 1)) (i + j + 1) :=
      Nat.Coprime.pow_left _ (Nat.coprime_two_left.mpr hodd)
    have := Nat.le_of_dvd (by omega) (hcop.dvd_of_dvd_mul_right hdvd2)
    omega
  · have hcop : Nat.Coprime (2 ^ (k + 1)) (j - i) :=
      Nat.Coprime.pow_left _ (Nat.coprime_two_left.mpr ho)
    have := Nat.le_of_dvd (by omega) (hcop.dvd_of_dvd_mul_left hdvd2)
    omega

theorem get_index_two_pow {α : Type} (k : Nat) (hash_func : α → Int) (v : α) (i : Nat) :
    get_index_hash_function (2 ^ k) hash_func v (i : Int)
      = (hash_func v + ((i * (i + 1) / 2 : Nat) : Int)) % ((2 ^ k : Nat) : Int) := by
  unfold get_index_hash_function
  rw [clamp_two_pow, tri_tdiv]

theorem get_index_toNat_lt {α : Type} (k : Nat) (hash_func : α → Int) (v : α) (i : Int) :
    (get_index_hash_function (2 ^ k) hash_func v i).toNat < 2 ^ k :=
  clamp_two_pow_toNat_lt k _

theorem get_index_inj_lt {α : Type} (k : Nat) (hash_func : α → Int) (v : α) (i j : Nat)
    (hij : i < j) (hj : j < 2 ^ k) :
    (get_index_hash_function (2 ^ k) hash_func v (i : Int)).toNat
      ≠ (get_index_hash_function (2 ^ k) hash_func v (j : Int)).toNat := by
  intro heq
  have hi0 := clamp_two_pow_nonneg k
    (hash_func v + Int.tdiv ((i : Int) + (i : Int) * (i : Int)) HASH_FUNC_FACTOR)
  have hj0 := clamp_two_pow_nonneg k
    (hash_func v + Int.tdiv ((j : Int) + (j : Int) * (j : Int)) HASH_FUNC_FACTOR)
  have heq2 : get_index_hash_function (2 ^ k) hash_func v (i : Int)
      = get_index_hash_function (2 ^ k) hash_func v (j : Int) := by
    have h1 := Int.toNat_of_nonneg hi0
    have h2 := Int.toNat_of_nonneg hj0
    unfold get_index_hash_function at heq ⊢
    rw [← h1, ← h2, heq]
  rw [get_index_two_pow, get_index_two_pow] at heq2
  have hd : ((2 ^ k : Nat) : Int) ∣
      (hash_func v + ((j * (j + 1) / 2 : Nat) : Int))
        - (hash_func v + ((i * (i + 1) / 2 : Nat) : Int)) :=
    Int.dvd_of_emod_eq_zero (Int.emod_eq_emod_iff_emod_sub_eq_zero.mp heq2.symm)
  have hle := tri_mono (Nat.le_of_lt hij)
  have hd2 : ((2 ^ k : Nat) : Int) ∣ ((j * (j + 1) / 2 - i * (i + 1) / 2 : Nat) : Int) := by
    rw [Nat.cast_sub hle]
    have : (hash_func v + ((j * (j + 1) / 2 : Nat) : Int))
        - (hash_func v + ((i * (i + 1) / 2 : Nat) : Int))
        = ((j * (j + 1) / 2 : Nat) : Int) - ((i * (i + 1) / 2 : Nat) : Int) := by ring
    rw [this] at hd
    exact hd
  exact tri_not_dvd k i j hij hj (Int.natCast_dvd_natCast.mp hd2)

theorem get_index_inj {α : Type} (k : Nat) (hash_func : α → Int) (v : α) (i j : Nat)
    (hi : i < 2 ^ k) (hj : j < 2 ^ k)
    (heq : (get_index_hash_function (2 ^ k) hash_func v (i : Int)).toNat
      = (get_index_hash_function (2 ^ k) hash_func v (j : Int)).toNat) : i = j := by
  rcases Nat.lt_trichotomy i j with h | h | h
  · exact absurd heq (get_index_inj_lt k hash_func v i j h hj)
  · exact h
  · exact absurd heq.symm (get_index_inj_lt k hash_func v j i h hi)

theorem get_index_surj {α : Type} (k : Nat) (hash_func : α → Int) (v : α) (e : Nat)
    (he : e < 2 ^ k) :
    ∃ j : Nat, j < 2 ^ k ∧
      (get_index_hash_function (2 ^ k) hash_func v (j : Int)).toNat = e := by
  let f : Fin (2 ^ k) → Fin (2 ^ k) := fun j =>
    ⟨(get_index_hash_function (2 ^ k) hash_func v ((j : Nat) : Int)).toNat,
      get_index_toNat_lt k hash_func v _⟩
  have hinj : Function.Injective f := by
    intro a b hab
    have := congrArg Fin.val hab
    exact Fin.ext (get_index_inj k hash_func v a b a.isLt b.isLt this)
  obtain ⟨j, hj⟩ := Finite.surjective_of_injective hinj ⟨e, he⟩
  exact ⟨j, j.isLt, congrArg Fin.val hj⟩


/-! ### Lists of nodes -/

theorem nodeAt_of_lt {α : Type} (nodes : List (Node α)) (i : Nat) (h : i < nodes.length) :
    nodeAt nodes i = nodes[i] :=
  List.getD_eq_getElem nodes node_alloc h

theorem nodeAt_of_le {α : Type} (nodes : List (Node α)) (i : Nat) (h : nodes.length ≤ i) :
    nodeAt nodes i = node_alloc :=
  List.getD_eq_default nodes node_alloc h

theorem nodeAt_set {α : Type} (nodes : List (Node α)) (i j : Nat) (x : Node α)
    (h : i < nodes.length) :
    nodeAt (nodes.set i x) j = if i = j then x else nodeAt nodes j := by
  by_cases hj : j < nodes.length
  · rw [nodeAt_of_lt _ _ (by simpa using hj), List.getElem_set, nodeAt_of_lt _ _ hj]
  · have hne : i ≠ j := by omega
    rw [nodeAt_of_le _ _ (by simpa using hj), if_neg hne, nodeAt_of_le _ _ (by omega)]

theorem length_bumpHashCount {α : Type} (nodes : List (Node α)) (first : Nat) (d : Int) :
    (bumpHashCount nodes first d).length = nodes.length := by
  simp [bumpHashCount]

theorem countOccupied_set {α : Type} (nodes : List (Node α)) (i : Nat) (x : Node α)
    (h : i < nodes.length) :
    countOccupied (nodes.set i x)
      = countOccupied nodes - (if (nodeAt nodes i).data.isSome then 1 else 0)
        + (if x.data.isSome then 1 else 0) := by
  unfold countOccupied
  rw [List.countP_set _ _ _ _ h, nodeAt_of_lt _ _ h]

theorem countOccupied_pos_of_some {α : Type} (nodes : List (Node α)) (i : Nat)
    (h : (nodeAt nodes i).data.isSome) : 0 < countOccupied nodes := by
  have hi : i < nodes.length := by
    by_contra hge
    rw [nodeAt_of_le _ _ (by omega)] at h
    simp [node_alloc] at h
  unfold countOccupied
  rw [List.countP_pos_iff]
  refine ⟨nodes[i], List.getElem_mem hi, ?_⟩
  rw [nodeAt_of_lt _ _ hi] at h
  exact h

theorem countOccupied_set_same {α : Type} (nodes : List (Node α)) (i : Nat) (x : Node α)
    (h : x.data.isSome = (nodeAt nodes i).data.isSome) :
    countOccupied (nodes.set i x) = countOccupied nodes := by
  by_cases hi : i < nodes.length
  · rw [countOccupied_set _ _ _ hi, h]
    by_cases hs : (nodeAt nodes i).data.isSome
    · have := countOccupied_pos_of_some nodes i hs
      simp only [hs, if_true]
      omega
    · simp [hs]
  · rw [List.set_eq_of_length_le (by omega)]

theorem countOccupied_bumpHashCount {α : Type} (nodes : List (Node α)) (first : Nat)
    (d : Int) : countOccupied (bumpHashCount nodes first d) = countOccupied nodes := by
  unfold bumpHashCount
  exact countOccupied_set_same _ _ _ rfl

theorem countOccupied_set_fill {α : Type} (nodes : List (Node α)) (i : Nat) (x : Node α)
    (h : i < nodes.length) (hempty : (nodeAt nodes i).data = none)
    (hx : x.data.isSome) : countOccupied (nodes.set i x) = countOccupied nodes + 1 := by
  rw [countOccupied_set _ _ _ h, hempty]
  simp [hx]

theorem countOccupied_set_clear {α : Type} (nodes : List (Node α)) (i : Nat) (x : Node α)
    (hfull : (nodeAt nodes i).data.isSome) (hx : x.data = none) :
    countOccupied (nodes.set i x) + 1 = countOccupied nodes := by
  have hi : i < nodes.length := by
    by_contra hge
    rw [nodeAt_of_le _ _ (by omega)] at hfull
    simp [node_alloc] at hfull
  have hpos := countOccupied_pos_of_some nodes i hfull
  rw [countOccupied_set _ _ _ hi, hx]
  simp only [hfull, if_true, Option.isSome_none]
  simp
  omega

theorem countOccupied_le_length {α : Type} (nodes : List (Node α)) :
    countOccupied nodes ≤ nodes.length :=
  List.countP_le_length _

theorem exists_empty_of_count_lt {α : Type} (nodes : List (Node α))
    (h : countOccupied nodes < nodes.length) :
    ∃ e, e < nodes.length ∧ (nodeAt nodes e).data = none := by
  by_contra hno
  have hall : ∀ a ∈ nodes, (fun node : Node α => node.data.isSome) a = true := by
    intro a ha
    obtain ⟨n, hn, rfl⟩ := List.mem_iff_getElem.mp ha
    by_contra hnone
    apply hno
    refine ⟨n, hn, ?_⟩
    rw [nodeAt_of_lt _ _ hn]
    simpa using hnone
  have := List.countP_eq_length.mpr hall
  unfold countOccupied at h
  omega

theorem countOccupied_new_nodes {α : Type} (c : Nat) :
    countOccupied (get_new_nodes_list c : List (Node α)) = 0 := by
  simp [countOccupied, get_new_nodes_list, List.countP_replicate, node_alloc]

theorem length_new_nodes {α : Type} (c : Nat) :
    (get_new_nodes_list c : List (Node α)).length = c := by
  simp [get_new_nodes_list]

theorem nodeAt_new_nodes {α : Type} (c i : Nat) :
    nodeAt (get_new_nodes_list c : List (Node α)) i = node_alloc := by
  by_cases h : i < c
  · rw [nodeAt_of_lt _ _ (by simpa [get_new_nodes_list] using h)]
    simp [get_new_nodes_list]
  · exact nodeAt_of_le _ _ (by simpa [get_new_nodes_list] using h)

theorem set_node_data_some {α : Type} (cpy : α → α) (node : Node α) (v : α) :
    set_node_data cpy node (some v)
      = ({ data := some (cpy v), hashCount := node.hashCount }, SUCCESS) := by
  unfold set_node_data clear_node
  cases hd : node.data <;> simp

/-! ### `resize` -/

theorem resize_place_isSome {α : Type} (F : Funcs α) (c : Nat) (d : α) :
    ∀ (n j first : Nat) (nodes : List (Node α)),
      ∃ nodes1, resize_place F c d n j first nodes = some nodes1 := by
  intro n
  induction n with
  | zero => intro j first nodes; exact ⟨nodes, rfl⟩
  | succ n ih =>
    intro j first nodes
    rw [resize_place]
    simp only [set_node_data_some, show ¬ (SUCCESS = FAIL) by decide, if_false]
    split
    · exact ⟨_, rfl⟩
    · exact ih _ _ _

theorem resize_loop_isSome {α : Type} (F : Funcs α) (old : List (Node α)) (c : Nat) :
    ∀ (n i : Nat) (nodes : List (Node α)),
      ∃ nodes1, resize_loop F old c n i nodes = some nodes1 := by
  intro n
  induction n with
  | zero => intro i nodes; exact ⟨nodes, rfl⟩
  | succ n ih =>
    intro i nodes
    rw [resize_loop]
    split
    · exact ih _ _
    · rename_i d _
      obtain ⟨nodes1, h1⟩ := resize_place_isSome F c d c INITIAL_IND 0 nodes
      rw [h1]
      exact ih _ _

theorem resize_capacity {α : Type} (F : Funcs α) (hs : HashSet α) (c : Nat) :
    (resize F hs c).capacity = c := by
  unfold resize
  obtain ⟨nodes1, h1⟩ := resize_loop_isSome F hs.NodesList c hs.capacity INITIAL_IND
    (get_new_nodes_list c)
  rw [h1]

theorem resize_size {α : Type} (F : Funcs α) (hs : HashSet α) (c : Nat) :
    (resize F hs c).size = hs.size := by
  unfold resize
  split <;> rfl

/-- On an array of `2 ^ k` nodes with a free slot among the positions probed from attempt
`j` on, the inner loop of `resize` stores the datum: one more node is occupied. -/
theorem resize_place_spec {α : Type} (F : Funcs α) (k : Nat) (d : α) :
    ∀ (n j first : Nat) (nodes : List (Node α)), nodes.length = 2 ^ k → n + j = 2 ^ k →
      (∃ j1, j ≤ j1 ∧ j1 < 2 ^ k ∧ (nodeAt nodes (probeIndex F (2 ^ k) d j1)).data = none) →
      ∃ nodes1, resize_place F (2 ^ k) d n j first nodes = some nodes1 ∧
        nodes1.length = 2 ^ k ∧ countOccupied nodes1 = countOccupied nodes + 1 := by
  intro n
  induction n with
  | zero =>
    intro j first nodes _ hnj ⟨j1, h1, h2, _⟩
    omega
  | succ n ih =>
    intro j first nodes hlen hnj ⟨j1, h1, h2, h3⟩
    rw [resize_place]
    simp only [set_node_data_some, show ¬ (SUCCESS = FAIL) by decide, if_false]
    have hidx : (get_index_hash_function (2 ^ k) F.hash_func d (j : Int)).toNat < nodes.length := by
      rw [hlen]; exact get_index_toNat_lt k _ _ _
    split
    · rename_i hnone
      refine ⟨_, rfl, ?_, ?_⟩
      · rw [length_bumpHashCount, List.length_set, hlen]
      · rw [countOccupied_bumpHashCount]
        exact countOccupied_set_fill _ _ _ hidx hnone rfl
    · rename_i x hsome
      have hne : j1 ≠ j := by
        intro heq
        rw [heq] at h3
        unfold probeIndex at h3
        rw [h3] at hsome
        exact absurd hsome (by simp)
      exact ih (j + 1) _ nodes hlen (by omega) ⟨j1, by omega, h2, h3⟩

theorem resize_place_of_count_lt {α : Type} (F : Funcs α) (k : Nat) (d : α)
    (nodes : List (Node α)) (hlen : nodes.length = 2 ^ k)
    (hcount : countOccupied nodes < 2 ^ k) :
    ∃ nodes1, resize_place F (2 ^ k) d (2 ^ k) INITIAL_IND 0 nodes = some nodes1 ∧
      nodes1.length = 2 ^ k ∧ countOccupied nodes1 = countOccupied nodes + 1 := by
  obtain ⟨e, he, hnone⟩ := exists_empty_of_count_lt nodes (by omega)
  obtain ⟨j1, hj1, hje⟩ := get_index_surj k F.hash_func d e (by omega)
  refine resize_place_spec F k d (2 ^ k) INITIAL_IND 0 nodes hlen (by simp) ⟨j1, by simp, hj1, ?_⟩
  unfold probeIndex
  rw [hje]
  exact hnone

theorem resize_loop_spec {α : Type} (F : Funcs α) (k : Nat) (old : List (Node α)) :
    ∀ (n i : Nat) (nodes : List (Node α)), nodes.length = 2 ^ k → n + i = old.length →
      countOccupied nodes + countOccupied (old.drop i) ≤ 2 ^ k →
      ∃ nodes1, resize_loop F old (2 ^ k) n i nodes = some nodes1 ∧
        nodes1.length = 2 ^ k ∧
        countOccupied nodes1 = countOccupied nodes + countOccupied (old.drop i) := by
  intro n
  induction n with
  | zero =>
    intro i nodes hlen hni _
    refine ⟨nodes, rfl, hlen, ?_⟩
    rw [List.drop_of_length_le (by omega)]
    simp [countOccupied]
  | succ n ih =>
    intro i nodes hlen hni hcount
    have hi : i < old.length := by omega
    have hdrop : countOccupied (old.drop i)
        = countOccupied (old.drop (i + 1)) + (if (nodeAt old i).data.isSome then 1 else 0) := by
      rw [List.drop_eq_getElem_cons hi, nodeAt_of_lt _ _ hi]
      unfold countOccupied
      rw [List.countP_cons]
    rw [resize_loop]
    split
    · rename_i hnone
      rw [hnone] at hdrop
      simp only [Option.isSome_none, Bool.false_eq_true, if_false, Nat.add_zero] at hdrop
      rw [hdrop] at hcount ⊢
      exact ih (i + 1) nodes hlen (by omega) hcount
    · rename_i d hsome
      rw [hsome] at hdrop
      simp only [Option.isSome_some, if_true] at hdrop
      rw [hdrop] at hcount ⊢
      obtain ⟨nodes1, h1, hlen1, hc1⟩ :=
        resize_place_of_count_lt F k d nodes hlen (by omega)
      rw [h1]
      simp only
      obtain ⟨nodes2, h2, hlen2, hc2⟩ := ih (i + 1) nodes1 hlen1 (by omega) (by omega)
      exact ⟨nodes2, h2, hlen2, by omega⟩

/-- Resizing a table whose array has `capacity` nodes, at most `2 ^ k` of them occupied, to
the capacity `2 ^ k`: the new array has `2 ^ k` nodes and as many occupied nodes as the old
one. -/
theorem resize_spec {α : Type} (F : Funcs α) (k : Nat) (hs : HashSet α)
    (hlen : hs.NodesList.length = hs.capacity)
    (hcount : countOccupied hs.NodesList ≤ 2 ^ k) :
    (resize F hs (2 ^ k)).NodesList.length = 2 ^ k ∧
      countOccupied (resize F hs (2 ^ k)).NodesList = countOccupied hs.NodesList := by
  obtain ⟨nodes1, h1, hlen1, hc1⟩ :=
    resize_loop_spec F k hs.NodesList hs.capacity INITIAL_IND (get_new_nodes_list (2 ^ k))
      (length_new_nodes _) (by simp [hlen])
      (by rw [countOccupied_new_nodes]; simpa using hcount)
  unfold resize
  rw [h1]
  refine ⟨hlen1, ?_⟩
  rw [hc1, countOccupied_new_nodes]
  simp

/-! ### Load factor -/

theorem max_le_load_iff {α : Type} (hs : HashSet α) (hc : 0 < hs.capacity) :
    HASH_SET_MAX_LOAD_FACTOR ≤ hash_set_get_load_factor hs ↔ 3 * hs.capacity ≤ 4 * hs.size := by
  unfold HASH_SET_MAX_LOAD_FACTOR hash_set_get_load_factor
  rw [Rat.mkRat_eq_divInt, Rat.mkRat_eq_divInt,
    Rat.divInt_le_divInt (by decide) (by exact_mod_cast hc)]
  constructor <;> intro h <;> omega

theorem load_le_min_iff {α : Type} (hs : HashSet α) (hc : 0 < hs.capacity) :
    hash_set_get_load_factor hs ≤ HASH_SET_MIN_LOAD_FACTOR ↔ 4 * hs.size ≤ hs.capacity := by
  unfold HASH_SET_MIN_LOAD_FACTOR hash_set_get_load_factor
  rw [Rat.mkRat_eq_divInt, Rat.mkRat_eq_divInt,
    Rat.divInt_le_divInt (by exact_mod_cast hc) (by decide)]
  constructor <;> intro h <;> omega

theorem load_eq_div {α : Type} (hs : HashSet α) :
    hash_set_get_load_factor hs = (hs.size : ℚ) / (hs.capacity : ℚ) := by
  unfold hash_set_get_load_factor
  rw [Rat.mkRat_eq_div]
  simp

/-! ### The loop of `hash_set_insert` -/

/-- The loop of `hash_set_insert` either finds every probed slot occupied and fails with the
table unchanged, or stores the value in the first free probed slot `j`, counts it at the
anchor, and grows the table when the load factor has reached the maximum. -/
theorem insert_loop_cases {α : Type} (F : Funcs α) (hs : HashSet α) (v : α) :
    ∀ (n i first : Nat),
      (hash_set_insert_loop F hs v n i first = (hs, FAIL) ∧
        ∀ j, i ≤ j → j < i + n →
          (nodeAt hs.NodesList (probeIndex F hs.capacity v j)).data ≠ none) ∨
      ∃ j, i ≤ j ∧ j < i + n ∧
        (nodeAt hs.NodesList (probeIndex F hs.capacity v j)).data = none ∧
        (∀ j1, i ≤ j1 → j1 < j →
          (nodeAt hs.NodesList (probeIndex F hs.capacity v j1)).data ≠ none) ∧
        hash_set_insert_loop F hs v n i first =
          (if HASH_SET_MAX_LOAD_FACTOR ≤ hash_set_get_load_factor
              (insertedAt F hs v (probeIndex F hs.capacity v j)
                (if i = 0 then probeIndex F hs.capacity v 0 else first)) then
            (resize F (insertedAt F hs v (probeIndex F hs.capacity v j)
                (if i = 0 then probeIndex F hs.capacity v 0 else first))
              (hs.capacity * HASH_SET_GROWTH_FACTOR), SUCCESS)
          else
            (insertedAt F hs v (probeIndex F hs.capacity v j)
              (if i = 0 then probeIndex F hs.capacity v 0 else first), SUCCESS)) := by
  intro n
  induction n with
  | zero =>
    intro i first
    left
    exact ⟨rfl, fun j h1 h2 => by omega⟩
  | succ n ih =>
    intro i first
    rw [hash_set_insert_loop]
    simp only [set_node_data_some, show ¬ (SUCCESS = FAIL) by decide, if_false]
    cases hd : (nodeAt hs.NodesList
        (get_index_hash_function hs.capacity F.hash_func v (i : Int)).toNat).data with
    | none =>
      right
      refine ⟨i, le_refl _, by omega, hd, fun j1 h1 h2 => by omega, ?_⟩
      simp only [insertedAt, probeIndex, set_node_data_some, INITIAL_IND, ge_iff_le]
      by_cases hi : i = 0
      · subst hi; simp
      · simp [hi]
    | some x =>
      simp only
      rcases ih (i + 1) (if i = INITIAL_IND then
          (get_index_hash_function hs.capacity F.hash_func v (i : Int)).toNat else first) with
        ⟨h1, h2⟩ | ⟨j, h1, h2, h3, h4, h5⟩
      · left
        refine ⟨h1, fun j hj1 hj2 => ?_⟩
        rcases Nat.eq_or_lt_of_le hj1 with heq | hlt
        · subst heq
          unfold probeIndex
          rw [hd]
          simp
        · exact h2 j hlt (by omega)
      · right
        refine ⟨j, by omega, by omega, h3, fun j1 hj1 hj2 => ?_, ?_⟩
        · rcases Nat.eq_or_lt_of_le hj1 with heq | hlt
          · subst heq
            unfold probeIndex
            rw [hd]
            simp
          · exact h4 j1 hlt hj2
        · rw [h5]
          simp only [Nat.add_one_ne_zero, if_false, INITIAL_IND, probeIndex]
          by_cases hi : i = 0
          · subst hi; simp
          · simp [hi]

/-! ### The loop of `hash_set_erase` -/

/-- The three outcomes of one pass of the loop of `hash_set_erase`. -/
theorem erase_step_cases {α : Type} (F : Funcs α) (hs : HashSet α) (v : α) (i : Nat)
    (hc : Int) (first : Nat) :
    hash_set_erase_step F hs v i hc first = Sum.inl (hs, FAIL) ∨
    (check_node F.value_cmp (nodeAt hs.NodesList (probeIndex F hs.capacity v i)) (some v)
        = SUCCESS ∧
      hash_set_erase_step F hs v i hc first = Sum.inl
        (if hash_set_get_load_factor (erasedAt hs (probeIndex F hs.capacity v i)
              (if i = 0 then probeIndex F hs.capacity v 0 else first))
              ≤ HASH_SET_MIN_LOAD_FACTOR
            ∧ hs.capacity ≠ MIN_CAPACITY then
          (resize F (erasedAt hs (probeIndex F hs.capacity v i)
              (if i = 0 then probeIndex F hs.capacity v 0 else first))
            (hs.capacity / HASH_SET_GROWTH_FACTOR), SUCCESS)
        else
          (erasedAt hs (probeIndex F hs.capacity v i)
            (if i = 0 then probeIndex F hs.capacity v 0 else first), SUCCESS))) ∨
    ∃ hc1, hash_set_erase_step F hs v i hc first
      = Sum.inr (i + 1, hc1, if i = 0 then probeIndex F hs.capacity v 0 else first) := by
  unfold hash_set_erase_step
  by_cases hle : (i : Int) ≤ hc
  · rw [if_pos hle]
    simp only []
    by_cases hcheck : check_node F.value_cmp (nodeAt hs.NodesList
        (get_index_hash_function hs.capacity F.hash_func v (i : Int)).toNat) (some v) = SUCCESS
    · right; left
      refine ⟨hcheck, ?_⟩
      rw [if_pos hcheck, apply_ite Sum.inl]
      simp only [erasedAt, probeIndex, INITIAL_IND]
      by_cases hi : i = 0
      · subst hi; simp
      · simp [hi]
    · right; right
      rw [if_neg hcheck]
      have hfirst : (if i = INITIAL_IND then
          (get_index_hash_function hs.capacity F.hash_func v (i : Int)).toNat else first)
          = (if i = 0 then probeIndex F hs.capacity v 0 else first) := by
        by_cases hi : i = 0
        · subst hi; simp [probeIndex]
        · simp [hi]
      rw [hfirst]
      generalize (nodeAt hs.NodesList
        (get_index_hash_function hs.capacity F.hash_func v (i : Int)).toNat).data = dd
      cases dd with
      | none =>
        simp only
        split_ifs <;> exact ⟨_, rfl⟩
      | some x => exact ⟨_, rfl⟩
  · left
    rw [if_neg hle]

/-- A call of the loop of `hash_set_erase` that returns either fails with the table
unchanged, or has found a node holding the value at some attempt `j`, has cleared it,
discounted it at the anchor, and has shrunk the table when the load factor has reached the
minimum and the capacity is not `MIN_CAPACITY`. -/
theorem erase_loop_cases {α : Type} (F : Funcs α) (hs : HashSet α) (v : α) :
    ∀ (fuel i : Nat) (hc : Int) (first : Nat) (p : HashSet α × Int),
      hash_set_erase_loop F hs v fuel i hc first = some p →
      p = (hs, FAIL) ∨
      ∃ j, i ≤ j ∧
        check_node F.value_cmp (nodeAt hs.NodesList (probeIndex F hs.capacity v j)) (some v)
          = SUCCESS ∧
        p = (if hash_set_get_load_factor (erasedAt hs (probeIndex F hs.capacity v j)
                (if i = 0 then probeIndex F hs.capacity v 0 else first))
                ≤ HASH_SET_MIN_LOAD_FACTOR
              ∧ hs.capacity ≠ MIN_CAPACITY then
            (resize F (erasedAt hs (probeIndex F hs.capacity v j)
                (if i = 0 then probeIndex F hs.capacity v 0 else first))
              (hs.capacity / HASH_SET_GROWTH_FACTOR), SUCCESS)
          else
            (erasedAt hs (probeIndex F hs.capacity v j)
              (if i = 0 then probeIndex F hs.capacity v 0 else first), SUCCESS)) := by
  intro fuel
  induction fuel with
  | zero => intro i hc first p h; simp [hash_set_erase_loop] at h
  | succ n ih =>
    intro i hc first p h
    rw [hash_set_erase_loop] at h
    rcases erase_step_cases F hs v i hc first with hs1 | ⟨hchk, hs1⟩ | ⟨hc1, hs1⟩
    · rw [hs1] at h
      left
      exact (Option.some.inj h).symm
    · rw [hs1] at h
      right
      exact ⟨i, le_refl _, hchk, (Option.some.inj h).symm⟩
    · rw [hs1] at h
      simp only at h
      rcases ih _ _ _ p h with h1 | ⟨j, hj, hchk, hp⟩
      · left; exact h1
      · right
        refine ⟨j, by omega, hchk, ?_⟩
        rw [hp]
        simp only [Nat.add_one_ne_zero, if_false]

theorem check_node_success_isSome {α : Type} (cmp : α → α → Int) (node : Node α) (v : α)
    (h : check_node cmp node (some v) = SUCCESS) : node.data.isSome := by
  unfold check_node at h
  cases hd : node.data with
  | none => rw [hd] at h; simp at h
  | some d => rfl

/-! ### `hash_set_clear` -/

theorem clear_loop_length {α : Type} :
    ∀ (n i : Nat) (nodes : List (Node α)),
      (hash_set_clear_loop n i nodes).length = nodes.length := by
  intro n
  induction n with
  | zero => intro i nodes; rfl
  | succ n ih =>
    intro i nodes
    rw [hash_set_clear_loop, ih, List.length_set]

theorem clear_loop_nodeAt {α : Type} :
    ∀ (n i : Nat) (nodes : List (Node α)) (m : Nat),
      nodeAt (hash_set_clear_loop n i nodes) m
        = if i ≤ m ∧ m < i + n then node_alloc else nodeAt nodes m := by
  intro n
  induction n with
  | zero =>
    intro i nodes m
    rw [hash_set_clear_loop, if_neg (by omega)]
  | succ n ih =>
    intro i nodes m
    rw [hash_set_clear_loop, ih]
    by_cases h1 : i + 1 ≤ m ∧ m < i + 1 + n
    · rw [if_pos h1, if_pos (by omega)]
    · rw [if_neg h1]
      by_cases hm : i = m
      · subst hm
        rw [if_pos (by omega)]
        by_cases hi : i < nodes.length
        · rw [nodeAt_set _ _ _ _ hi, if_pos rfl]
          cases hd : (nodeAt nodes i).data <;> simp [clear_node, node_alloc, hd]
        · rw [List.set_eq_of_length_le (by omega), nodeAt_of_le _ _ (by omega)]
      · rw [if_neg (by omega)]
        by_cases hi : i < nodes.length
        · rw [nodeAt_set _ _ _ _ hi, if_neg hm]
        · rw [List.set_eq_of_length_le (by omega)]

theorem clear_nodeAt {α : Type} (hs : HashSet α) (hlen : hs.NodesList.length = hs.capacity)
    (m : Nat) : nodeAt (hash_set_clear hs).NodesList m = node_alloc := by
  unfold hash_set_clear
  simp only
  rw [clear_loop_nodeAt]
  by_cases hm : m < hs.capacity
  · rw [if_pos (by simp only [INITIAL_IND]; omega)]
  · rw [if_neg (by simp only [INITIAL_IND]; omega), nodeAt_of_le _ _ (by omega)]

theorem clear_countOccupied {α : Type} (hs : HashSet α)
    (hlen : hs.NodesList.length = hs.capacity) :
    countOccupied (hash_set_clear hs).NodesList = 0 := by
  unfold countOccupied
  rw [List.countP_eq_zero]
  intro a ha
  obtain ⟨n, hn, rfl⟩ := List.mem_iff_getElem.mp ha
  have := clear_nodeAt hs hlen n
  rw [nodeAt_of_lt _ _ hn] at this
  rw [this]
  simp [node_alloc]

/-! ### Outcomes of `hash_set_insert` and `hash_set_erase` -/

/-- A call of `hash_set_insert` that returns either fails with the table unchanged, or has
stored the value in a free slot `probeIndex j` with `j < capacity`, counted it at the anchor
`probeIndex 0`, and has doubled the capacity when the load factor reached the maximum. -/
theorem insert_cases {α : Type} (F : Funcs α) (fuel : Nat) (hs hs1 : HashSet α)
    (value : Option α) (r : Int) (h : hash_set_insert F fuel hs value = some (hs1, r)) :
    (hs1 = hs ∧ r = FAIL) ∨
    ∃ v j, value = some v ∧ r = SUCCESS ∧ j < hs.capacity ∧
      (nodeAt hs.NodesList (probeIndex F hs.capacity v j)).data = none ∧
      hs1 = (if HASH_SET_MAX_LOAD_FACTOR ≤ hash_set_get_load_factor
            (insertedAt F hs v (probeIndex F hs.capacity v j) (probeIndex F hs.capacity v 0))
          then resize F
            (insertedAt F hs v (probeIndex F hs.capacity v j) (probeIndex F hs.capacity v 0))
            (hs.capacity * HASH_SET_GROWTH_FACTOR)
          else insertedAt F hs v (probeIndex F hs.capacity v j)
            (probeIndex F hs.capacity v 0)) := by
  unfold hash_set_insert at h
  cases value with
  | none =>
    left
    simp only [Option.some.injEq, Prod.mk.injEq] at h
    exact ⟨h.1.symm, h.2.symm⟩
  | some v =>
    simp only at h
    cases hc : hash_set_contains_value F fuel hs (some v) with
    | none => rw [hc] at h; simp at h
    | some r0 =>
      rw [hc] at h
      simp only at h
      by_cases hr0 : r0 = SUCCESS
      · left
        rw [if_pos hr0] at h
        simp only [Option.some.injEq, Prod.mk.injEq] at h
        exact ⟨h.1.symm, h.2.symm⟩
      · rw [if_neg hr0] at h
        have h := Option.some.inj h
        rcases insert_loop_cases F hs v hs.capacity INITIAL_IND 0 with
          ⟨h1, _⟩ | ⟨j, _, hj, hnone, _, h1⟩
        · left
          rw [h1] at h
          simp only [Prod.mk.injEq] at h
          exact ⟨h.1.symm, h.2.symm⟩
        · right
          simp only [INITIAL_IND, ↓reduceIte] at h1
          rw [h1] at h
          by_cases hc1 : HASH_SET_MAX_LOAD_FACTOR ≤ hash_set_get_load_factor
              (insertedAt F hs v (probeIndex F hs.capacity v j) (probeIndex F hs.capacity v 0))
          · rw [if_pos hc1] at h
            simp only [Prod.mk.injEq] at h
            exact ⟨v, j, rfl, h.2.symm, by simpa using hj, hnone,
              by rw [if_pos hc1]; exact h.1.symm⟩
          · rw [if_neg hc1] at h
            simp only [Prod.mk.injEq] at h
            exact ⟨v, j, rfl, h.2.symm, by simpa using hj, hnone,
              by rw [if_neg hc1]; exact h.1.symm⟩

/-- A call of `hash_set_erase` that returns either fails with the table unchanged, or has
found the value in the slot `probeIndex j`, cleared it, discounted it at the anchor
`probeIndex 0`, and has halved the capacity when the load factor reached the minimum and the
capacity is not `MIN_CAPACITY`. -/
theorem erase_cases {α : Type} (F : Funcs α) (fuel : Nat) (hs hs1 : HashSet α)
    (value : Option α) (r : Int) (h : hash_set_erase F fuel hs value = some (hs1, r)) :
    (hs1 = hs ∧ r = FAIL) ∨
    ∃ v j, value = some v ∧ r = SUCCESS ∧
      check_node F.value_cmp (nodeAt hs.NodesList (probeIndex F hs.capacity v j)) (some v)
        = SUCCESS ∧
      hs1 = (if hash_set_get_load_factor
              (erasedAt hs (probeIndex F hs.capacity v j) (probeIndex F hs.capacity v 0))
              ≤ HASH_SET_MIN_LOAD_FACTOR ∧ hs.capacity ≠ MIN_CAPACITY
          then resize F
            (erasedAt hs (probeIndex F hs.capacity v j) (probeIndex F hs.capacity v 0))
            (hs.capacity / HASH_SET_GROWTH_FACTOR)
          else erasedAt hs (probeIndex F hs.capacity v j) (probeIndex F hs.capacity v 0)) := by
  unfold hash_set_erase at h
  cases value with
  | none =>
    left
    simp only [Option.some.injEq, Prod.mk.injEq] at h
    exact ⟨h.1.symm, h.2.symm⟩
  | some v =>
    simp only at h
    rcases erase_loop_cases F hs v fuel INITIAL_IND ONE_NODE 0 (hs1, r) h with
      h1 | ⟨j, _, hchk, h1⟩
    · left
      simp only [Prod.mk.injEq] at h1
      exact h1
    · right
      simp only [INITIAL_IND, ↓reduceIte] at h1
      by_cases hc1 : hash_set_get_load_factor
          (erasedAt hs (probeIndex F hs.capacity v j) (probeIndex F hs.capacity v 0))
          ≤ HASH_SET_MIN_LOAD_FACTOR ∧ hs.capacity ≠ MIN_CAPACITY
      · rw [if_pos hc1] at h1
        simp only [Prod.mk.injEq] at h1
        exact ⟨v, j, rfl, h1.2, hchk, by rw [if_pos hc1]; exact h1.1⟩
      · rw [if_neg hc1] at h1
        simp only [Prod.mk.injEq] at h1
        exact ⟨v, j, rfl, h1.2, hchk, by rw [if_neg hc1]; exact h1.1⟩

/-! ### The structural invariant -/

theorem wellFormed_capacity_pos {α : Type} {hs : HashSet α} (h : WellFormed hs) :
    0 < hs.capacity := by
  obtain ⟨⟨k, hk⟩, _⟩ := h
  rw [hk]
  exact Nat.two_pow_pos k

theorem wellFormed_new {α : Type} :
    WellFormed (get_new_hashset HASH_SET_INITIAL_CAP : HashSet α) := by
  refine ⟨⟨4, rfl⟩, ?_, ?_, ?_⟩
  · exact length_new_nodes _
  · show 0 = countOccupied (get_new_nodes_list HASH_SET_INITIAL_CAP)
    rw [countOccupied_new_nodes]
  · show 4 * 0 < 3 * 16
    decide

theorem insertedAt_length {α : Type} (F : Funcs α) (hs : HashSet α) (v : α)
    (index first : Nat) :
    (insertedAt F hs v index first).NodesList.length = hs.NodesList.length := by
  simp [insertedAt, length_bumpHashCount]

theorem insertedAt_count {α : Type} (F : Funcs α) (hs : HashSet α) (v : α)
    (index first : Nat) (hidx : index < hs.NodesList.length)
    (hnone : (nodeAt hs.NodesList index).data = none) :
    countOccupied (insertedAt F hs v index first).NodesList
      = countOccupied hs.NodesList + 1 := by
  simp only [insertedAt, countOccupied_bumpHashCount, set_node_data_some]
  exact countOccupied_set_fill _ _ _ hidx hnone rfl

theorem erasedAt_length {α : Type} (hs : HashSet α) (index first : Nat) :
    (erasedAt hs index first).NodesList.length = hs.NodesList.length := by
  simp [erasedAt, length_bumpHashCount]

theorem erasedAt_count {α : Type} (hs : HashSet α) (index first : Nat)
    (hsome : (nodeAt hs.NodesList index).data.isSome) :
    countOccupied (erasedAt hs index first).NodesList + 1 = countOccupied hs.NodesList := by
  simp only [erasedAt, countOccupied_bumpHashCount]
  apply countOccupied_set_clear _ _ _ hsome
  unfold clear_node
  cases hd : (nodeAt hs.NodesList index).data <;> simp [hd]

theorem probeIndex_lt {α : Type} (F : Funcs α) (k : Nat) (v : α) (j : Nat) :
    probeIndex F (2 ^ k) v j < 2 ^ k :=
  get_index_toNat_lt k F.hash_func v _

theorem insert_wellFormed {α : Type} (F : Funcs α) (fuel : Nat) (hs hs1 : HashSet α)
    (value : Option α) (r : Int) (hwf : WellFormed hs)
    (h : hash_set_insert F fuel hs value = some (hs1, r)) : WellFormed hs1 := by
  rcases insert_cases F fuel hs hs1 value r h with ⟨h1, _⟩ | ⟨v, j, _, _, _, hnone, h1⟩
  · rw [h1]; exact hwf
  · obtain ⟨⟨k, hk⟩, hlen, hsize, hload⟩ := hwf
    have hidx : probeIndex F hs.capacity v j < hs.NodesList.length := by
      rw [hlen, hk]; exact probeIndex_lt F k v j
    have hcnt := insertedAt_count F hs v _ (probeIndex F hs.capacity v 0) hidx hnone
    have hlen1 := insertedAt_length F hs v (probeIndex F hs.capacity v j)
      (probeIndex F hs.capacity v 0)
    have hle := countOccupied_le_length
      (insertedAt F hs v (probeIndex F hs.capacity v j) (probeIndex F hs.capacity v 0)).NodesList
    have hpos : 0 < hs.capacity := by rw [hk]; exact Nat.two_pow_pos k
    have hpos1 : 0 < (insertedAt F hs v (probeIndex F hs.capacity v j)
        (probeIndex F hs.capacity v 0)).capacity := hpos
    by_cases hc : HASH_SET_MAX_LOAD_FACTOR ≤ hash_set_get_load_factor
        (insertedAt F hs v (probeIndex F hs.capacity v j) (probeIndex F hs.capacity v 0))
    · rw [if_pos hc] at h1
      rw [max_le_load_iff _ hpos1] at hc
      have hc2 : 3 * hs.capacity ≤ 4 * (hs.size + 1) := hc
      have hcap : hs.capacity * HASH_SET_GROWTH_FACTOR = 2 ^ (k + 1) := by
        rw [hk, pow_succ]
      rw [hcap] at h1
      have hpow : 2 ^ (k + 1) = 2 * hs.capacity := by rw [hk, pow_succ, mul_comm]
      obtain ⟨hl, hcn⟩ := resize_spec F (k + 1)
        (insertedAt F hs v (probeIndex F hs.capacity v j) (probeIndex F hs.capacity v 0))
        (by rw [hlen1, hlen]; rfl) (by omega)
      rw [h1]
      refine ⟨⟨k + 1, resize_capacity _ _ _⟩, ?_, ?_, ?_⟩
      · rw [hl, resize_capacity]
      · rw [resize_size, hcn, hcnt, ← hsize]; rfl
      · rw [resize_size, resize_capacity, hpow]
        show 4 * (hs.size + 1) < 3 * (2 * hs.capacity)
        omega
    · rw [if_neg hc] at h1
      rw [max_le_load_iff _ hpos1] at hc
      have hc2 : ¬ 3 * hs.capacity ≤ 4 * (hs.size + 1) := hc
      rw [h1]
      refine ⟨⟨k, hk⟩, ?_, ?_, ?_⟩
      · rw [hlen1, hlen]; rfl
      · rw [hcnt, ← hsize]; rfl
      · show 4 * (hs.size + 1) < 3 * hs.capacity
        omega

theorem erase_wellFormed {α : Type} (F : Funcs α) (fuel : Nat) (hs hs1 : HashSet α)
    (value : Option α) (r : Int) (hwf : WellFormed hs)
    (h : hash_set_erase F fuel hs value = some (hs1, r)) : WellFormed hs1 := by
  rcases erase_cases F fuel hs hs1 value r h with ⟨h1, _⟩ | ⟨v, j, _, _, hchk, h1⟩
  · rw [h1]; exact hwf
  · obtain ⟨⟨k, hk⟩, hlen, hsize, hload⟩ := hwf
    have hsome := check_node_success_isSome _ _ _ hchk
    have hcnt := erasedAt_count hs (probeIndex F hs.capacity v j)
      (probeIndex F hs.capacity v 0) hsome
    have hlen1 := erasedAt_length hs (probeIndex F hs.capacity v j)
      (probeIndex F hs.capacity v 0)
    have hpos : 0 < hs.capacity := by rw [hk]; exact Nat.two_pow_pos k
    have hpos1 : 0 < (erasedAt hs (probeIndex F hs.capacity v j)
        (probeIndex F hs.capacity v 0)).capacity := hpos
    by_cases hc : hash_set_get_load_factor
        (erasedAt hs (probeIndex F hs.capacity v j) (probeIndex F hs.capacity v 0))
        ≤ HASH_SET_MIN_LOAD_FACTOR ∧ hs.capacity ≠ MIN_CAPACITY
    · rw [if_pos hc] at h1
      obtain ⟨hc1, hc2⟩ := hc
      rw [load_le_min_iff _ hpos1] at hc1
      have hc3 : 4 * (hs.size - 1) ≤ hs.capacity := hc1
      have hk0 : k ≠ 0 := by
        intro hk0
        rw [hk0] at hk
        exact hc2 hk
      obtain ⟨k1, rfl⟩ : ∃ k1, k = k1 + 1 := ⟨k - 1, by omega⟩
      have hcap : hs.capacity / HASH_SET_GROWTH_FACTOR = 2 ^ k1 := by
        rw [hk, pow_succ]
        simp
      have hpow : hs.capacity = 2 * 2 ^ k1 := by rw [hk, pow_succ, mul_comm]
      have hp1 : 0 < 2 ^ k1 := Nat.two_pow_pos k1
      rw [hcap] at h1
      obtain ⟨hl, hcn⟩ := resize_spec F k1
        (erasedAt hs (probeIndex F hs.capacity v j) (probeIndex F hs.capacity v 0))
        (by rw [hlen1, hlen]; rfl) (by omega)
      rw [h1]
      refine ⟨⟨k1, resize_capacity _ _ _⟩, ?_, ?_, ?_⟩
      · rw [hl, resize_capacity]
      · rw [resize_size, hcn]
        show hs.size - 1 = _
        omega
      · rw [resize_size, resize_capacity]
        show 4 * (hs.size - 1) < 3 * 2 ^ k1
        omega
    · rw [if_neg hc] at h1
      rw [h1]
      refine ⟨⟨k, hk⟩, ?_, ?_, ?_⟩
      · rw [hlen1, hlen]; rfl
      · show hs.size - 1 = _
        omega
      · show 4 * (hs.size - 1) < 3 * hs.capacity
        omega

theorem clear_wellFormed {α : Type} (hs : HashSet α) (hwf : WellFormed hs) :
    WellFormed (hash_set_clear hs) := by
  obtain ⟨⟨k, hk⟩, hlen, hsize, hload⟩ := hwf
  have hpos : 0 < hs.capacity := by rw [hk]; exact Nat.two_pow_pos k
  refine ⟨⟨k, hk⟩, ?_, ?_, ?_⟩
  · show (hash_set_clear_loop hs.capacity INITIAL_IND hs.NodesList).length = hs.capacity
    rw [clear_loop_length, hlen]
  · rw [clear_countOccupied hs hlen]; rfl
  · show 4 * 0 < 3 * hs.capacity
    omega

/-- Every reachable table satisfies the structural invariant. -/
theorem reachable_wellFormed {α : Type} (F : Funcs α) (hs : HashSet α)
    (h : Reachable F hs) : WellFormed hs := by
  induction h with
  | alloc => exact wellFormed_new
  | insert _ hstep ih => exact insert_wellFormed F _ _ _ _ _ ih hstep
  | erase _ hstep ih => exact erase_wellFormed F _ _ _ _ _ ih hstep
  | clear _ ih => exact clear_wellFormed _ ih

/-! ### More on the load factor -/

theorem load_lt_max_iff {α : Type} (hs : HashSet α) (hc : 0 < hs.capacity) :
    hash_set_get_load_factor hs < HASH_SET_MAX_LOAD_FACTOR ↔ 4 * hs.size < 3 * hs.capacity := by
  rw [← not_le, max_le_load_iff hs hc]
  omega

theorem min_lt_load_iff {α : Type} (hs : HashSet α) (hc : 0 < hs.capacity) :
    HASH_SET_MIN_LOAD_FACTOR < hash_set_get_load_factor hs ↔ hs.capacity < 4 * hs.size := by
  rw [← not_le, load_le_min_iff hs hc]
  omega

theorem load_le_half_iff {α : Type} (hs : HashSet α) (hc : 0 < hs.capacity) :
    hash_set_get_load_factor hs ≤ mkRat 1 2 ↔ 2 * hs.size ≤ hs.capacity := by
  unfold hash_set_get_load_factor
  rw [Rat.mkRat_eq_divInt, Rat.mkRat_eq_divInt,
    Rat.divInt_le_divInt (by exact_mod_cast hc) (by decide)]
  constructor <;> intro h <;> omega

/-! ### Erasing from an empty table -/

theorem erase_step_fresh {α : Type} (F : Funcs α) (c : Nat) (v : α) (i : Nat) (first : Nat)
    (hi : 1 ≤ i) :
    hash_set_erase_step F (get_new_hashset c) v i (i : Int) first
      = Sum.inr (i + 1, ((i + 1 : Nat) : Int), first) := by
  unfold hash_set_erase_step
  have hi0 : i ≠ 0 := by omega
  simp only [get_new_hashset, nodeAt_new_nodes, le_refl, if_true, INITIAL_IND, hi0, if_false,
    check_node, node_alloc]
  simp

theorem erase_loop_fresh {α : Type} (F : Funcs α) (c : Nat) (v : α) :
    ∀ (fuel i first : Nat), 1 ≤ i →
      hash_set_erase_loop F (get_new_hashset c) v fuel i (i : Int) first = none := by
  intro fuel
  induction fuel with
  | zero => intro i first _; rfl
  | succ n ih =>
    intro i first hi
    rw [hash_set_erase_loop, erase_step_fresh F c v i first hi]
    exact ih (i + 1) first (by omega)

theorem erase_fresh {α : Type} (F : Funcs α) (c : Nat) (v : α) (fuel : Nat) :
    hash_set_erase F fuel (get_new_hashset c) (some v) = none := by
  unfold hash_set_erase
  cases fuel with
  | zero => rfl
  | succ n =>
    simp only
    rw [hash_set_erase_loop]
    have hstep : hash_set_erase_step F (get_new_hashset c) v INITIAL_IND ONE_NODE 0
        = Sum.inr (1, ((1 : Nat) : Int),
            (get_index_hash_function c F.hash_func v ((0 : Nat) : Int)).toNat) := by
      unfold hash_set_erase_step
      simp only [get_new_hashset, nodeAt_new_nodes, INITIAL_IND, check_node, node_alloc]
      simp
    rw [hstep]
    exact erase_loop_fresh F c v n 1 _ (le_refl 1)

theorem contains_fresh {α : Type} (F : Funcs α) (c : Nat) (v : α) (fuel : Nat) :
    hash_set_contains_value F (fuel + 1) (get_new_hashset c) (some v) = some FAIL := by
  unfold hash_set_contains_value
  simp only
  rw [hash_set_contains_loop]
  have hstep : hash_set_contains_step F (get_new_hashset c) v INITIAL_IND ONE_NODE 0
      = Sum.inl FAIL := by
    unfold hash_set_contains_step
    simp only [get_new_hashset, nodeAt_new_nodes, INITIAL_IND, node_alloc]
    simp
  rw [hstep]

/-! ### Erasing at the minimal capacity -/

theorem reachable_table_3_19_5 : Reachable intFuncs table_3_19_5 :=
  runOps_reachable intFuncs 8 [Op.insert 3, Op.insert 19, Op.insert 5] _ _ Reachable.alloc
    (by decide)

theorem reachable_table_3_19_5_4 : Reachable intFuncs table_3_19_5_4 :=
  runOps_reachable intFuncs 8 [Op.insert 3, Op.insert 19, Op.insert 5, Op.insert 4] _ _
    Reachable.alloc (by decide)

theorem reachable_table_3_19_5_4_4_20 : Reachable intFuncs table_3_19_5_4_4_20 :=
  runOps_reachable intFuncs 8
    [Op.insert 3, Op.insert 19, Op.insert 5, Op.insert 4, Op.insert 4, Op.insert 20] _ _
    Reachable.alloc (by decide)

theorem reachable_table_4_5_20_8_9_11 : Reachable intFuncs table_4_5_20_8_9_11 :=
  runOps_reachable intFuncs 8
    [Op.insert 4, Op.insert 5, Op.insert 20, Op.insert 8, Op.insert 9, Op.insert 11] _ _
    Reachable.alloc (by decide)

theorem reachable_table_3_19_5_12 : Reachable intFuncs table_3_19_5_12 :=
  runOps_reachable intFuncs 8 [Op.insert 3, Op.insert 19, Op.insert 5, Op.insert 12] _ _
    Reachable.alloc (by decide)

theorem reachable_table_7 : Reachable intFuncs table_7 :=
  runOps_reachable intFuncs 8 [Op.insert 7] _ _ Reachable.alloc (by decide)

theorem reachable_table_0_to_10 : Reachable intFuncs table_0_to_10 :=
  runOps_reachable intFuncs 8
    [Op.insert 0, Op.insert 1, Op.insert 2, Op.insert 3, Op.insert 4, Op.insert 5,
      Op.insert 6, Op.insert 7, Op.insert 8, Op.insert 9, Op.insert 10] _ _
    Reachable.alloc (by decide)

theorem reachable_table_0_to_11 : Reachable intFuncs table_0_to_11 :=
  Reachable.insert reachable_table_0_to_10
    (show hash_set_insert intFuncs 8 table_0_to_10 (some 11) = some (table_0_to_11, SUCCESS)
      by decide)

/-- C1 (fails on the code): round trip insert → contains.  On the reachable table holding
3, 19, 5 the call `hash_set_insert (t, 4)` returns 1 and stores 4 in slot 7 (probe step 2 of
anchor 4, whose `hashCount` becomes 1), yet `hash_set_contains_value (t, 4)` called right
afterwards returns 0, whatever the iteration budget: with `hashCount = 1` at the anchor the
lookup probes steps 0 and 1 only. -/
theorem C1_insert_then_contains_returns_fail :
    runOps intFuncs 8 (get_new_hashset HASH_SET_INITIAL_CAP)
        [Op.insert 3, Op.insert 19, Op.insert 5] = some table_3_19_5 ∧
      Reachable intFuncs table_3_19_5 ∧
      hash_set_insert intFuncs 8 table_3_19_5 (some 4) = some (table_3_19_5_4, SUCCESS) ∧
      (nodeAt table_3_19_5_4.NodesList 7).data = some 4 ∧
      hash_set_contains_value intFuncs 8 table_3_19_5_4 (some 4) = some FAIL ∧
      ∀ fuel, hash_set_contains_value intFuncs fuel table_3_19_5_4 (some 4) ≠ some SUCCESS := by
  refine ⟨by decide, reachable_table_3_19_5, by decide, by decide, by decide, ?_⟩
  intro fuel h
  have h8 : hash_set_contains_value intFuncs 8 table_3_19_5_4 (some 4) = some FAIL := by
    decide
  exact absurd (contains_value_unique _ _ _ _ _ _ _ h h8) (by decide)

/-- C2 (fails on the code): erase disturbs another member.  On the reachable table holding
4, 5, 20, 8, 9, 11 the lookup of 20 returns 1; `hash_set_erase (t, 4)` returns 1 without a
shrink; afterwards 20 is still stored in slot 7 but `hash_set_contains_value (t, 20)` returns
0, whatever the iteration budget: the anchor counter of slot 4 has dropped to 1, so the
lookup stops after probe steps 0 and 1 while 20 sits at step 2. -/
theorem C2_erase_hides_other_member :
    runOps intFuncs 8 (get_new_hashset HASH_SET_INITIAL_CAP)
        [Op.insert 4, Op.insert 5, Op.insert 20, Op.insert 8, Op.insert 9, Op.insert 11]
        = some table_4_5_20_8_9_11 ∧
      Reachable intFuncs table_4_5_20_8_9_11 ∧
      hash_set_contains_value intFuncs 8 table_4_5_20_8_9_11 (some 20) = some SUCCESS ∧
      hash_set_erase intFuncs 8 table_4_5_20_8_9_11 (some 4)
        = some (table_4_5_20_8_9_11_erased_4, SUCCESS) ∧
      (nodeAt table_4_5_20_8_9_11_erased_4.NodesList 7).data = some 20 ∧
      hash_set_contains_value intFuncs 8 table_4_5_20_8_9_11_erased_4 (some 20) = some FAIL ∧
      ∀ fuel, hash_set_contains_value intFuncs fuel table_4_5_20_8_9_11_erased_4 (some 20)
        ≠ some SUCCESS := by
  refine ⟨by decide, reachable_table_4_5_20_8_9_11, by decide, by decide, by decide,
    by decide, ?_⟩
  intro fuel h
  have h8 : hash_set_contains_value intFuncs 8 table_4_5_20_8_9_11_erased_4 (some 20)
      = some FAIL := by decide
  exact absurd (contains_value_unique _ _ _ _ _ _ _ h h8) (by decide)

/-- C3 (fails on the code): no duplicates.  After `hash_set_insert (t, 4)` has returned 1 on
the reachable table holding 3, 19, 5, a second `hash_set_insert (t, 4)` returns 1 again,
whatever the iteration budget, stores a second copy of 4 (slot 10) and raises `size` from 4
to 5: the duplicate pre-check `hash_set_contains_value` does not find the first copy. -/
theorem C3_second_insert_succeeds :
    Reachable intFuncs table_3_19_5 ∧
      hash_set_insert intFuncs 8 table_3_19_5 (some 4) = some (table_3_19_5_4, SUCCESS) ∧
      hash_set_insert intFuncs 8 table_3_19_5_4 (some 4)
        = some (table_3_19_5_4_4, SUCCESS) ∧
      table_3_19_5_4.size = 4 ∧ table_3_19_5_4_4.size = 5 ∧
      (nodeAt table_3_19_5_4_4.NodesList 7).data = some 4 ∧
      (nodeAt table_3_19_5_4_4.NodesList 10).data = some 4 ∧
      ∀ fuel p, hash_set_insert intFuncs fuel table_3_19_5_4 (some 4) = some p →
        p = (table_3_19_5_4_4, SUCCESS) := by
  refine ⟨reachable_table_3_19_5, by decide, by decide, by decide, by decide, by decide,
    by decide, ?_⟩
  intro fuel p h
  have h8 : hash_set_insert intFuncs 8 table_3_19_5_4 (some 4)
      = some (table_3_19_5_4_4, SUCCESS) := by decide
  exact insert_unique _ _ _ _ _ _ _ h h8

/-- C4 (fails on the code): round trip erase → not contained.  After the calls insert 3, 19,
5, 4, 4, 20 on a fresh table (the second insert of 4 stores a duplicate), the call
`hash_set_erase (t, 4)` returns 1 and `hash_set_contains_value (t, 4)` called right
afterwards returns 1, whatever the iteration budget: the second copy of 4 is still stored. -/
theorem C4_erase_then_contains_returns_success :
    runOps intFuncs 8 (get_new_hashset HASH_SET_INITIAL_CAP)
        [Op.insert 3, Op.insert 19, Op.insert 5, Op.insert 4, Op.insert 4, Op.insert 20]
        = some table_3_19_5_4_4_20 ∧
      Reachable intFuncs table_3_19_5_4_4_20 ∧
      hash_set_erase intFuncs 8 table_3_19_5_4_4_20 (some 4)
        = some (table_3_19_5_4_4_20_erased_4, SUCCESS) ∧
      hash_set_contains_value intFuncs 8 table_3_19_5_4_4_20_erased_4 (some 4)
        = some SUCCESS ∧
      ∀ fuel, hash_set_contains_value intFuncs fuel table_3_19_5_4_4_20_erased_4 (some 4)
        ≠ some FAIL := by
  refine ⟨by decide, reachable_table_3_19_5_4_4_20, by decide, by decide, ?_⟩
  intro fuel h
  have h8 : hash_set_contains_value intFuncs 8 table_3_19_5_4_4_20_erased_4 (some 4)
      = some SUCCESS := by decide
  exact absurd (contains_value_unique _ _ _ _ _ _ _ h h8) (by decide)

/-- C5 (fails on the code): erase of an absent value.  On the freshly created table every
value is reported absent by `hash_set_contains_value`, but `hash_set_erase` never returns:
for every iteration budget the probe loop is still running, because on an all-empty table
the bound `hash_count` is raised in every pass (the anchor's `hashCount` is 0, not 1), so
every pass `i ≥ 1` starts with `hash_count = i` and goes on with `i + 1`, `hash_count = i + 1`
(in C the counters run into `int` overflow, e.g. `i * i` at `i = 46341`). -/
theorem C5_erase_on_fresh_table_never_returns {α : Type} (F : Funcs α) (v : α)
    (fuel : Nat) :
    Reachable F (get_new_hashset HASH_SET_INITIAL_CAP) ∧
      hash_set_contains_value F (fuel + 1) (get_new_hashset HASH_SET_INITIAL_CAP) (some v)
        = some FAIL ∧
      hash_set_erase F fuel (get_new_hashset HASH_SET_INITIAL_CAP) (some v) = none ∧
      ∀ i first : Nat, 1 ≤ i →
        hash_set_erase_step F (get_new_hashset HASH_SET_INITIAL_CAP) v i (i : Int) first
          = Sum.inr (i + 1, ((i + 1 : Nat) : Int), first) :=
  ⟨Reachable.alloc, contains_fresh F _ v fuel, erase_fresh F _ v fuel,
    fun i first hi => erase_step_fresh F _ v i first hi⟩

/-- C6 (fails on the code): resize correctness.  The reachable table of capacity 16 holding
3, 19, 5, 12 reports 12 as contained; after `resize` to capacity 8 the size is still 4 and
12 is stored in slot 7, but `hash_set_contains_value (t, 12)` returns 0, whatever the
iteration budget.  The same table is produced through the public interface by inserting 1
as well and erasing it, which triggers the shrink. -/
theorem C6_resize_hides_member :
    Reachable intFuncs table_3_19_5_12 ∧
      hash_set_contains_value intFuncs 8 table_3_19_5_12 (some 12) = some SUCCESS ∧
      resize intFuncs table_3_19_5_12 8 = table_3_19_5_12_resized ∧
      table_3_19_5_12_resized.size = table_3_19_5_12.size ∧
      (nodeAt table_3_19_5_12_resized.NodesList 7).data = some 12 ∧
      hash_set_contains_value intFuncs 8 table_3_19_5_12_resized (some 12) = some FAIL ∧
      (∀ fuel, hash_set_contains_value intFuncs fuel table_3_19_5_12_resized (some 12)
        ≠ some SUCCESS) ∧
      runOps intFuncs 8 (get_new_hashset HASH_SET_INITIAL_CAP)
        [Op.insert 3, Op.insert 19, Op.insert 5, Op.insert 12, Op.insert 1, Op.erase 1]
        = some table_3_19_5_12_resized := by
  refine ⟨reachable_table_3_19_5_12, by decide, by decide, by decide, by decide, by decide,
    ?_, by decide⟩
  intro fuel h
  have h8 : hash_set_contains_value intFuncs 8 table_3_19_5_12_resized (some 12)
      = some FAIL := by decide
  exact absurd (contains_value_unique _ _ _ _ _ _ _ h h8) (by decide)

/-- C8: load factor after insert.  After any call of `hash_set_insert` on a reachable table
the load factor `size / capacity` is at most `0.75 + 1 / capacity`. -/
theorem C8_load_factor_after_insert {α : Type} (F : Funcs α) (hs hs1 : HashSet α)
    (fuel : Nat) (value : Option α) (r : Int) (h : Reachable F hs)
    (hins : hash_set_insert F fuel hs value = some (hs1, r)) :
    hash_set_get_load_factor hs1 ≤ HASH_SET_MAX_LOAD_FACTOR + 1 / (hs1.capacity : ℚ) := by
  have hwf := reachable_wellFormed F hs1 (Reachable.insert h hins)
  have hpos := wellFormed_capacity_pos hwf
  have hlt := (load_lt_max_iff hs1 hpos).mpr hwf.2.2.2
  have hinv : (0 : ℚ) ≤ 1 / (hs1.capacity : ℚ) := by positivity
  linarith

/-- C8 at the insert of 11 into the table holding 0, …, 10, which grows the table to
capacity 32. -/
theorem C8_load_factor_after_insert_witness :
    Reachable intFuncs table_0_to_10 ∧
      hash_set_insert intFuncs 8 table_0_to_10 (some 11) = some (table_0_to_11, SUCCESS) ∧
      hash_set_get_load_factor table_0_to_11
        ≤ HASH_SET_MAX_LOAD_FACTOR + 1 / (table_0_to_11.capacity : ℚ) :=
  ⟨reachable_table_0_to_10, by decide,
    C8_load_factor_after_insert intFuncs table_0_to_10 table_0_to_11 8 (some 11) SUCCESS
      reachable_table_0_to_10 (by decide)⟩

/-- C9 as stated fails: erasing the only value 7 of the reachable table `table_7` succeeds
and leaves the capacity 8 > 1 with load factor 0 < 0.25. -/
theorem C9_counterexample :
    Reachable intFuncs table_7 ∧
      hash_set_erase intFuncs 8 table_7 (some 7) = some (get_new_hashset 8, SUCCESS) ∧
      1 < (get_new_hashset 8 : HashSet Int).capacity ∧
      hash_set_get_load_factor (get_new_hashset 8 : HashSet Int)
        < HASH_SET_MIN_LOAD_FACTOR :=
  ⟨reachable_table_7, by decide, by decide, by decide⟩

/-- C9 (amended): load factor after erase.  After a successful `hash_set_erase` on a
reachable table either the capacity is unchanged and, unless it is 1, the load factor is
above 0.25; or the capacity was not 1 and has been halved, and the load factor is at most
0.5. -/
theorem C9_load_factor_after_erase {α : Type} (F : Funcs α) (hs hs1 : HashSet α)
    (fuel : Nat) (value : Option α) (h : Reachable F hs)
    (hers : hash_set_erase F fuel hs value = some (hs1, SUCCESS)) :
    (hs1.capacity = hs.capacity ∧
        (hs.capacity ≠ MIN_CAPACITY →
          HASH_SET_MIN_LOAD_FACTOR < hash_set_get_load_factor hs1)) ∨
      (hs.capacity ≠ MIN_CAPACITY ∧ hs1.capacity * HASH_SET_GROWTH_FACTOR = hs.capacity ∧
        hash_set_get_load_factor hs1 ≤ mkRat 1 2) := by
  obtain ⟨⟨k, hk⟩, hlen, hsize, hload⟩ := reachable_wellFormed F hs h
  have hpos : 0 < hs.capacity := by rw [hk]; exact Nat.two_pow_pos k
  rcases erase_cases F fuel hs hs1 value SUCCESS hers with ⟨_, h1⟩ | ⟨v, j, _, _, hchk, h1⟩
  · exact absurd h1 (by decide)
  · have hpos1 : 0 < (erasedAt hs (probeIndex F hs.capacity v j)
        (probeIndex F hs.capacity v 0)).capacity := hpos
    by_cases hc : hash_set_get_load_factor
        (erasedAt hs (probeIndex F hs.capacity v j) (probeIndex F hs.capacity v 0))
        ≤ HASH_SET_MIN_LOAD_FACTOR ∧ hs.capacity ≠ MIN_CAPACITY
    · right
      rw [if_pos hc] at h1
      obtain ⟨hc1, hc2⟩ := hc
      rw [load_le_min_iff _ hpos1] at hc1
      have hc3 : 4 * (hs.size - 1) ≤ hs.capacity := hc1
      have hk0 : k ≠ 0 := by
        intro hk0
        rw [hk0] at hk
        exact hc2 hk
      obtain ⟨k1, rfl⟩ : ∃ k1, k = k1 + 1 := ⟨k - 1, by omega⟩
      have hpow : hs.capacity = 2 * 2 ^ k1 := by rw [hk, pow_succ, mul_comm]
      have hcap : hs.capacity / HASH_SET_GROWTH_FACTOR = 2 ^ k1 := by
        rw [hpow]; simp
      have hp1 : 0 < 2 ^ k1 := Nat.two_pow_pos k1
      have hcap1 : hs1.capacity = 2 ^ k1 := by rw [h1, resize_capacity, hcap]
      have hsize1 : hs1.size = hs.size - 1 := by rw [h1, resize_size]; rfl
      refine ⟨hc2, ?_, ?_⟩
      · rw [hcap1, hpow]; ring
      · rw [load_le_half_iff hs1 (by rw [hcap1]; exact hp1), hcap1, hsize1]
        omega
    · left
      rw [if_neg hc] at h1
      rw [h1]
      refine ⟨rfl, fun hne => ?_⟩
      rw [← not_le]
      exact fun hle => hc ⟨hle, hne⟩

/-- C9 (amended) at the erase of 7 from `table_7`, which halves the capacity to 8. -/
theorem C9_load_factor_after_erase_witness :
    Reachable intFuncs table_7 ∧
      hash_set_erase intFuncs 8 table_7 (some 7) = some (get_new_hashset 8, SUCCESS) ∧
      (((get_new_hashset 8 : HashSet Int).capacity = table_7.capacity ∧
          (table_7.capacity ≠ MIN_CAPACITY →
            HASH_SET_MIN_LOAD_FACTOR
              < hash_set_get_load_factor (get_new_hashset 8 : HashSet Int))) ∨
        (table_7.capacity ≠ MIN_CAPACITY ∧
          (get_new_hashset 8 : HashSet Int).capacity * HASH_SET_GROWTH_FACTOR
            = table_7.capacity ∧
          hash_set_get_load_factor (get_new_hashset 8 : HashSet Int) ≤ mkRat 1 2)) :=
  ⟨reachable_table_7, by decide,
    C9_load_factor_after_erase intFuncs table_7 (get_new_hashset 8) 8 (some 7)
      reachable_table_7 (by decide)⟩

/-- C10: size bookkeeping invariant.  In every table reachable from `hash_set_alloc` by calls
of `hash_set_insert`, `hash_set_erase` and `hash_set_clear`, `size` equals the number of
nodes of `NodesList` whose data is non-empty, `NodesList` has `capacity` nodes, and
`0 ≤ size ≤ capacity`. -/
theorem C10_size_counts_occupied_nodes {α : Type} (F : Funcs α) (hs : HashSet α)
    (h : Reachable F hs) :
    hs.size = countOccupied hs.NodesList ∧ hs.NodesList.length = hs.capacity ∧
      0 ≤ hs.size ∧ hs.size ≤ hs.capacity := by
  obtain ⟨_, hlen, hsize, _⟩ := reachable_wellFormed F hs h
  refine ⟨hsize, hlen, Nat.zero_le _, ?_⟩
  rw [hsize, ← hlen]
  exact countOccupied_le_length _

/-- C10 at the table holding 0, …, 11, which has been through a grow to capacity 32. -/
theorem C10_size_counts_occupied_nodes_witness :
    Reachable intFuncs table_0_to_11 ∧
      (table_0_to_11.size = countOccupied table_0_to_11.NodesList ∧
        table_0_to_11.NodesList.length = table_0_to_11.capacity ∧
        0 ≤ table_0_to_11.size ∧ table_0_to_11.size ≤ table_0_to_11.capacity) :=
  ⟨reachable_table_0_to_11,
    C10_size_counts_occupied_nodes intFuncs table_0_to_11 reachable_table_0_to_11⟩

/-! ### `hash_set_clear` and the fresh table -/

theorem nodes_ext_nodeAt {α : Type} (l1 l2 : List (Node α)) (hlen : l1.length = l2.length)
    (h : ∀ k, nodeAt l1 k = nodeAt l2 k) : l1 = l2 := by
  apply List.ext_getElem hlen
  intro n h1 h2
  have := h n
  rwa [nodeAt_of_lt _ _ h1, nodeAt_of_lt _ _ h2] at this

theorem clear_eq_new {α : Type} (hs : HashSet α) (hlen : hs.NodesList.length = hs.capacity) :
    hash_set_clear hs = get_new_hashset hs.capacity := by
  have hnodes : (hash_set_clear hs).NodesList = get_new_nodes_list hs.capacity := by
    apply nodes_ext_nodeAt
    · show (hash_set_clear_loop hs.capacity INITIAL_IND hs.NodesList).length = _
      rw [clear_loop_length, length_new_nodes, hlen]
    · intro k
      rw [clear_nodeAt hs hlen, nodeAt_new_nodes]
  have hstruct : hash_set_clear hs = HashSet.mk (hash_set_clear hs).NodesList INITIAL_SIZE
      hs.capacity := rfl
  rw [hstruct, hnodes]
  rfl

theorem contains_new {α : Type} (F : Funcs α) (c : Nat) (value : Option α) (fuel : Nat) :
    hash_set_contains_value F (fuel + 1) (get_new_hashset c) value = some FAIL := by
  cases value with
  | none => rfl
  | some v => exact contains_fresh F c v fuel

theorem load_new {α : Type} (c : Nat) :
    hash_set_get_load_factor (get_new_hashset c : HashSet α) = 0 := by
  simp [hash_set_get_load_factor, get_new_hashset]

/-- C11: clear postcondition and idempotence.  For every reachable table,
`hash_set_clear` yields a table with the same capacity, size 0, load factor 0, `capacity`
nodes that are all empty with `hashCount = 0`, on which `hash_set_contains_value` returns 0
for every value (null included); a second `hash_set_clear` leaves that table unchanged. -/
theorem C11_clear_postcondition {α : Type} (F : Funcs α) (hs : HashSet α)
    (h : Reachable F hs) :
    (hash_set_clear hs).capacity = hs.capacity ∧ (hash_set_clear hs).size = 0 ∧
      hash_set_get_load_factor (hash_set_clear hs) = 0 ∧
      (hash_set_clear hs).NodesList.length = hs.capacity ∧
      (∀ k, (nodeAt (hash_set_clear hs).NodesList k).data = none ∧
        (nodeAt (hash_set_clear hs).NodesList k).hashCount = 0) ∧
      (∀ (fuel : Nat) (value : Option α),
        hash_set_contains_value F (fuel + 1) (hash_set_clear hs) value = some FAIL) ∧
      hash_set_clear (hash_set_clear hs) = hash_set_clear hs := by
  obtain ⟨_, hlen, _, _⟩ := reachable_wellFormed F hs h
  have heq := clear_eq_new hs hlen
  refine ⟨rfl, rfl, ?_, ?_, ?_, ?_, ?_⟩
  · rw [heq]; exact load_new _
  · rw [heq]; exact length_new_nodes _
  · intro k
    rw [clear_nodeAt hs hlen]
    exact ⟨rfl, rfl⟩
  · intro fuel value
    rw [heq]
    exact contains_new F _ value fuel
  · rw [heq]
    exact clear_eq_new _ (length_new_nodes _)

/-- C11 at the reachable table holding 0, …, 11 (capacity 32). -/
theorem C11_clear_postcondition_witness :
    Reachable intFuncs table_0_to_11 ∧
      ((hash_set_clear table_0_to_11).capacity = table_0_to_11.capacity ∧
        (hash_set_clear table_0_to_11).size = 0 ∧
        hash_set_get_load_factor (hash_set_clear table_0_to_11) = 0 ∧
        (hash_set_clear table_0_to_11).NodesList.length = table_0_to_11.capacity ∧
        (∀ k, (nodeAt (hash_set_clear table_0_to_11).NodesList k).data = none ∧
          (nodeAt (hash_set_clear table_0_to_11).NodesList k).hashCount = 0) ∧
        (∀ (fuel : Nat) (value : Option Int),
          hash_set_contains_value intFuncs (fuel + 1) (hash_set_clear table_0_to_11) value
            = some FAIL) ∧
        hash_set_clear (hash_set_clear table_0_to_11) = hash_set_clear table_0_to_11) :=
  ⟨reachable_table_0_to_11,
    C11_clear_postcondition intFuncs table_0_to_11 reachable_table_0_to_11⟩

/-- C13: construction.  `hash_set_alloc` returns null exactly when one of its four function
pointers is null; otherwise it returns the given operations with a table of capacity
`HASH_SET_INITIAL_CAP = 16`, size 0 and 16 nodes, all empty with `hashCount = 0`; on that
table `hash_set_contains_value` returns 0 for every value and the load factor is 0. -/
theorem C13_alloc {α : Type} (hash_func : Option (α → Int)) (value_cpy : Option (α → α))
    (value_cmp : Option (α → α → Int)) (value_free : Option Unit) :
    (hash_set_alloc hash_func value_cpy value_cmp value_free = none ↔
        (hash_func = none ∨ value_cpy = none ∨ value_cmp = none ∨ value_free = none)) ∧
      (∀ (h : α → Int) (c : α → α) (m : α → α → Int) (f : Unit),
        hash_set_alloc (some h) (some c) (some m) (some f)
          = some ({ hash_func := h, value_cpy := c, value_cmp := m },
              get_new_hashset HASH_SET_INITIAL_CAP)) ∧
      (get_new_hashset HASH_SET_INITIAL_CAP : HashSet α).capacity = 16 ∧
      (get_new_hashset HASH_SET_INITIAL_CAP : HashSet α).size = 0 ∧
      (get_new_hashset HASH_SET_INITIAL_CAP : HashSet α).NodesList.length = 16 ∧
      (∀ k, (nodeAt (get_new_hashset HASH_SET_INITIAL_CAP : HashSet α).NodesList k).data = none ∧
        (nodeAt (get_new_hashset HASH_SET_INITIAL_CAP : HashSet α).NodesList k).hashCount = 0) ∧
      (∀ (F : Funcs α) (fuel : Nat) (value : Option α),
        hash_set_contains_value F (fuel + 1) (get_new_hashset HASH_SET_INITIAL_CAP) value
          = some FAIL) ∧
      hash_set_get_load_factor (get_new_hashset HASH_SET_INITIAL_CAP : HashSet α) = 0 := by
  refine ⟨?_, fun h c m f => rfl, rfl, rfl, length_new_nodes _, ?_, ?_, load_new _⟩
  · cases hash_func <;> cases value_cpy <;> cases value_cmp <;> cases value_free <;>
      simp [hash_set_alloc]
  · intro k
    have hk : nodeAt (get_new_hashset HASH_SET_INITIAL_CAP : HashSet α).NodesList k
        = node_alloc := nodeAt_new_nodes _ k
    rw [hk]
    exact ⟨rfl, rfl⟩
  · intro F fuel value
    exact contains_new F _ value fuel

/-! ### The probe index on a 32-bit `int` -/

theorem int_result_eq_some (x y : Int) :
    int_result x = some y ↔ INT_MIN ≤ x ∧ x ≤ INT_MAX ∧ y = x := by
  unfold int_result
  by_cases h : INT_MIN ≤ x ∧ x ≤ INT_MAX
  · rw [if_pos h]
    constructor
    · intro he
      exact ⟨h.1, h.2, (Option.some.inj he).symm⟩
    · rintro ⟨_, _, rfl⟩
      rfl
  · rw [if_neg h]
    constructor
    · intro he
      exact absurd he (by simp)
    · rintro ⟨h1, h2, _⟩
      exact absurd ⟨h1, h2⟩ h

theorem int_result_of_fits (x : Int) (h1 : INT_MIN ≤ x) (h2 : x ≤ INT_MAX) :
    int_result x = some x :=
  (int_result_eq_some x x).2 ⟨h1, h2, rfl⟩

/-- The conversion `(int) capacity` is exact below `2 ^ 31`. -/
theorem int_of_size_t_eq (capacity : Nat) (h : capacity < 2147483648) :
    int_of_size_t capacity = (capacity : Int) := by
  unfold int_of_size_t
  omega

/-- Below `2 ^ 31` the function `clamp` on a 32-bit `int` is `clamp`. -/
theorem clamp_int32_eq (capacity : Nat) (h : capacity < 2147483648) (index : Int) :
    clamp_int32 capacity index = some (clamp capacity index) := by
  unfold clamp_int32 clamp
  rw [int_of_size_t_eq capacity h, int_result_of_fits]
  · rfl
  · simp only [INT_MIN, SUBTRACT_FACTOR]; omega
  · simp only [INT_MAX, SUBTRACT_FACTOR]; omega

/-- A result of `get_index_hash_function` on a 32-bit `int`, at a capacity below `2 ^ 31`, is
the result of `get_index_hash_function`. -/
theorem get_index_int32_of_some {α : Type} (capacity : Nat) (h : capacity < 2147483648)
    (hash_func : α → Int) (v : α) (i index : Int)
    (he : get_index_hash_function_int32 capacity hash_func v i = some index) :
    index = get_index_hash_function capacity hash_func v i := by
  unfold get_index_hash_function_int32 at he
  simp only [Option.bind_eq_some, int_result_eq_some] at he
  obtain ⟨a, ⟨_, _, rfl⟩, b, ⟨_, _, rfl⟩, c, ⟨_, _, rfl⟩, d, ⟨_, _, rfl⟩, he⟩ :=
    he
  rw [clamp_int32_eq capacity h] at he
  exact (Option.some.inj he).symm

/-- When nothing overflows, `get_index_hash_function` on a 32-bit `int`, at a capacity below
`2 ^ 31`, has the result of `get_index_hash_function`. -/
theorem get_index_int32_of_fits {α : Type} (capacity : Nat) (h : capacity < 2147483648)
    (hash_func : α → Int) (v : α) (i : Nat)
    (h1 : INT_MIN ≤ hash_func v) (h2 : hash_func v ≤ INT_MAX)
    (h3 : (i : Int) + (i : Int) * (i : Int) ≤ INT_MAX)
    (h4 : hash_func v + ((i : Int) + (i : Int) * (i : Int)) / 2 ≤ INT_MAX) :
    get_index_hash_function_int32 capacity hash_func v (i : Int)
      = some (get_index_hash_function capacity hash_func v (i : Int)) := by
  have hsq : (0 : Int) ≤ (i : Int) * (i : Int) := by positivity
  have hi : (0 : Int) ≤ (i : Int) := by positivity
  have htd : Int.tdiv ((i : Int) + (i : Int) * (i : Int)) HASH_FUNC_FACTOR
      = ((i : Int) + (i : Int) * (i : Int)) / 2 :=
    Int.tdiv_eq_ediv (by positivity) (by decide)
  have hq : (0 : Int) ≤ ((i : Int) + (i : Int) * (i : Int)) / 2 :=
    Int.ediv_nonneg (by positivity) (by decide)
  unfold get_index_hash_function_int32 get_index_hash_function
  rw [int_result_of_fits _ h1 h2, Option.some_bind,
    int_result_of_fits _ (by simp only [INT_MIN]; omega) (by simp only [INT_MAX] at h3 ⊢; omega),
    Option.some_bind,
    int_result_of_fits _ (by simp only [INT_MIN]; omega) h3, Option.some_bind,
    int_result_of_fits _ (by rw [htd]; simp only [INT_MIN] at h1 ⊢; omega)
      (by rw [htd]; exact h4),
    Option.some_bind, clamp_int32_eq capacity h]

theorem two_pow_le_30 (k : Nat) (hk : k ≤ 30) : 2 ^ k < 2147483648 :=
  lt_of_le_of_lt (Nat.pow_le_pow_right (by decide) hk) (by decide)

theorem tri_ediv (i : Nat) :
    ((i : Int) + (i : Int) * (i : Int)) / 2 = ((i * (i + 1) / 2 : Nat) : Int) := by
  rw [← tri_tdiv, Int.tdiv_eq_ediv (by positivity) (by decide)]

/-- At a capacity `2 ^ k` with `k ≤ 15`, no attempt below the capacity overflows when the
hash is an `int` and its sum with the triangular number of the last attempt does not exceed
`INT_MAX`. -/
theorem get_index_int32_isSome {α : Type} (k : Nat) (hk : k ≤ 15) (hash_func : α → Int)
    (v : α) (h1 : INT_MIN ≤ hash_func v)
    (h2 : hash_func v + (((2 ^ k - 1) * 2 ^ k / 2 : Nat) : Int) ≤ INT_MAX)
    (i : Nat) (hi : i < 2 ^ k) :
    (get_index_hash_function_int32 (2 ^ k) hash_func v (i : Int)).isSome := by
  have hcap : 2 ^ k ≤ 32768 := (Nat.pow_le_pow_right (by decide) hk).trans (by decide)
  have hpos : 0 < 2 ^ k := Nat.two_pow_pos k
  have hi1 : i ≤ 32767 := by omega
  have hsq : i * i ≤ 32767 * 32767 := Nat.mul_le_mul hi1 hi1
  have hsqz : (i : Int) * (i : Int) ≤ 32767 * 32767 := by exact_mod_cast hsq
  have htri : i * (i + 1) / 2 ≤ (2 ^ k - 1) * 2 ^ k / 2 := by
    have := tri_mono (show i ≤ 2 ^ k - 1 by omega)
    rwa [Nat.sub_add_cancel hpos] at this
  have htriz : ((i * (i + 1) / 2 : Nat) : Int) ≤ (((2 ^ k - 1) * 2 ^ k / 2 : Nat) : Int) := by
    exact_mod_cast htri
  have h0 : (0 : Int) ≤ (((2 ^ k - 1) * 2 ^ k / 2 : Nat) : Int) := Int.natCast_nonneg _
  rw [get_index_int32_of_fits (2 ^ k) (by omega) hash_func v i h1
    (by simp only [INT_MAX] at h2 ⊢; omega) (by simp only [INT_MAX]; omega)
    (by rw [tri_ediv]; omega)]
  rfl

/-- C18 as stated fails.  (a) At capacity `2 ^ 32` the conversion `(int) capacity` is 0, the
mask `(int) capacity - 1` is `-1`, and with hash `-5` the attempts 0 and 2 yield the indices
`-5` and `-2`, which are not in `0 ≤ index < C`.  (b) At capacity `2 ^ 31` the mask
`(int) capacity - 1` overflows.  (c) At capacity `2 ^ 17` the attempt `46341 < C` overflows in
`i * i`. -/
theorem C18_counterexample :
    int_of_size_t (2 ^ 32) - SUBTRACT_FACTOR = -1 ∧
      clamp_int32 (2 ^ 32) (-5) = some (-5) ∧
      get_index_hash_function_int32 (2 ^ 32) (fun x : Int => x) (-5) 0 = some (-5) ∧
      get_index_hash_function_int32 (2 ^ 32) (fun x : Int => x) (-5) 2 = some (-2) ∧
      ¬ (0 ≤ (-5 : Int)) ∧ ¬ (0 ≤ (-2 : Int)) ∧
      get_index_hash_function_int32 (2 ^ 31) (fun x : Int => x) 0 0 = none ∧
      (46341 : Int) < 2 ^ 17 ∧
      get_index_hash_function_int32 (2 ^ 17) (fun x : Int => x) 0 46341 = none := by
  refine ⟨by decide, by decide, by decide, by decide, by decide, by decide, by decide,
    by decide, by decide⟩

/-- C18 (amended): the probe sequence is a permutation.  On a 32-bit `int`, for every
capacity `C = 2 ^ k` with `k ≤ 30`, every hash value `h` (negative ones included) and every
attempt `i ≥ 0`: (1) when `h` is an `int` and neither `i + i * i` nor `h + (i + i * i) / 2`
exceeds `INT_MAX`, `get_index_hash_function` yields the index `(h + i (i + 1) / 2) mod C`;
(2) an index that it yields is `clamp (C, h + (i + i * i) / 2)`, is
`(h + i (i + 1) / 2) mod C` and lies in `0 ≤ index < C`; (3) two attempts below `C` that
yield the same index are equal; (4) when every attempt below `C` yields an index, every slot
is the index of exactly one of them; (5) every attempt below `C` yields an index when
`k ≤ 15`, `h` is an `int` and `h + (C - 1) C / 2` does not exceed `INT_MAX`. -/
theorem C18_probe_permutation {α : Type} (k : Nat) (hash_func : α → Int) (v : α)
    (hk : k ≤ 30) :
    (∀ i : Nat, INT_MIN ≤ hash_func v → hash_func v ≤ INT_MAX →
        (i : Int) + (i : Int) * (i : Int) ≤ INT_MAX →
        hash_func v + ((i : Int) + (i : Int) * (i : Int)) / 2 ≤ INT_MAX →
        get_index_hash_function_int32 (2 ^ k) hash_func v (i : Int)
          = some ((hash_func v + ((i * (i + 1) / 2 : Nat) : Int)) % ((2 ^ k : Nat) : Int))) ∧
      (∀ (i : Nat) (index : Int),
        get_index_hash_function_int32 (2 ^ k) hash_func v (i : Int) = some index →
        clamp_int32 (2 ^ k) (hash_func v + ((i : Int) + (i : Int) * (i : Int)) / 2)
            = some index ∧
          index = (hash_func v + ((i * (i + 1) / 2 : Nat) : Int)) % ((2 ^ k : Nat) : Int) ∧
          0 ≤ index ∧ index < ((2 ^ k : Nat) : Int)) ∧
      (∀ (i j : Nat) (index : Int), i < 2 ^ k → j < 2 ^ k →
        get_index_hash_function_int32 (2 ^ k) hash_func v (i : Int) = some index →
        get_index_hash_function_int32 (2 ^ k) hash_func v (j : Int) = some index → i = j) ∧
      ((∀ i : Nat, i < 2 ^ k →
          (get_index_hash_function_int32 (2 ^ k) hash_func v (i : Int)).isSome) →
        ∀ s : Int, 0 ≤ s → s < ((2 ^ k : Nat) : Int) →
          ∃! i : Nat, i < 2 ^ k ∧
            get_index_hash_function_int32 (2 ^ k) hash_func v (i : Int) = some s) ∧
      (k ≤ 15 → INT_MIN ≤ hash_func v →
        hash_func v + (((2 ^ k - 1) * 2 ^ k / 2 : Nat) : Int) ≤ INT_MAX →
        ∀ i : Nat, i < 2 ^ k →
          (get_index_hash_function_int32 (2 ^ k) hash_func v (i : Int)).isSome) := by
  have hcap : 2 ^ k < 2147483648 := two_pow_le_30 k hk
  have hnonneg : ∀ i : Nat, 0 ≤ get_index_hash_function (2 ^ k) hash_func v (i : Int) :=
    fun i => clamp_two_pow_nonneg k _
  have hclamp : ∀ i : Nat, get_index_hash_function (2 ^ k) hash_func v (i : Int)
      = clamp (2 ^ k) (hash_func v + ((i : Int) + (i : Int) * (i : Int)) / 2) := by
    intro i
    unfold get_index_hash_function
    rw [Int.tdiv_eq_ediv (by positivity) (by decide)]
  refine ⟨?_, ?_, ?_, ?_, fun hk15 h1 h2 i hi =>
    get_index_int32_isSome k hk15 hash_func v h1 h2 i hi⟩
  · intro i h1 h2 h3 h4
    rw [get_index_int32_of_fits (2 ^ k) hcap hash_func v i h1 h2 h3 h4, get_index_two_pow]
  · intro i index he
    have hidx := get_index_int32_of_some (2 ^ k) hcap hash_func v (i : Int) index he
    refine ⟨?_, hidx.trans (get_index_two_pow k hash_func v i), ?_, ?_⟩
    · rw [clamp_int32_eq (2 ^ k) hcap, ← hclamp, hidx]
    · rw [hidx]; exact hnonneg i
    · rw [hidx, get_index_two_pow]
      exact Int.emod_lt_of_pos _ (by exact_mod_cast Nat.two_pow_pos k)
  · intro i j index hi hj hei hej
    have h1 := get_index_int32_of_some (2 ^ k) hcap hash_func v (i : Int) index hei
    have h2 := get_index_int32_of_some (2 ^ k) hcap hash_func v (j : Int) index hej
    exact get_index_inj k hash_func v i j hi hj (by rw [← h1, ← h2])
  · intro hall s hs0 hs1
    have hs2 : s.toNat < 2 ^ k := by
      rw [Int.toNat_lt hs0]; exact hs1
    obtain ⟨j, hj, hje⟩ := get_index_surj k hash_func v s.toNat hs2
    have hjs : get_index_hash_function (2 ^ k) hash_func v (j : Int) = s := by
      rw [← Int.toNat_of_nonneg (hnonneg j), hje, Int.toNat_of_nonneg hs0]
    obtain ⟨index, hindex⟩ := Option.isSome_iff_exists.1 (hall j hj)
    have hidx := get_index_int32_of_some (2 ^ k) hcap hash_func v (j : Int) index hindex
    have hjs32 : get_index_hash_function_int32 (2 ^ k) hash_func v (j : Int) = some s := by
      rw [hindex, hidx, hjs]
    refine ⟨j, ⟨hj, hjs32⟩, ?_⟩
    rintro j1 ⟨hj1, hj1s⟩
    have h1 := get_index_int32_of_some (2 ^ k) hcap hash_func v (j1 : Int) s hj1s
    exact get_index_inj k hash_func v j1 j hj1 hj (by rw [← h1, hjs])

/-- C18 (amended) at capacity 16 with the hash `-5`: there every attempt below 16 yields an
index, and attempt 3 yields `(-5 + 6) mod 16 = 1`. -/
theorem C18_probe_permutation_witness :
    (4 ≤ 30) ∧
      (∀ i : Nat, i < 2 ^ 4 →
        (get_index_hash_function_int32 (2 ^ 4) (fun x : Int => x) (-5) (i : Int)).isSome) ∧
      get_index_hash_function_int32 (2 ^ 4) (fun x : Int => x) (-5) 3 = some 1 ∧
      ((∀ i : Nat, INT_MIN ≤ (-5 : Int) → (-5 : Int) ≤ INT_MAX →
        (i : Int) + (i : Int) * (i : Int) ≤ INT_MAX →
        (-5 : Int) + ((i : Int) + (i : Int) * (i : Int)) / 2 ≤ INT_MAX →
        get_index_hash_function_int32 (2 ^ 4) (fun x : Int => x) (-5) (i : Int)
          = some (((-5 : Int) + ((i * (i + 1) / 2 : Nat) : Int)) % ((2 ^ 4 : Nat) : Int))) ∧
      (∀ (i : Nat) (index : Int),
        get_index_hash_function_int32 (2 ^ 4) (fun x : Int => x) (-5) (i : Int) = some index →
        clamp_int32 (2 ^ 4) ((-5 : Int) + ((i : Int) + (i : Int) * (i : Int)) / 2)
            = some index ∧
          index = ((-5 : Int) + ((i * (i + 1) / 2 : Nat) : Int)) % ((2 ^ 4 : Nat) : Int) ∧
          0 ≤ index ∧ index < ((2 ^ 4 : Nat) : Int)) ∧
      (∀ (i j : Nat) (index : Int), i < 2 ^ 4 → j < 2 ^ 4 →
        get_index_hash_function_int32 (2 ^ 4) (fun x : Int => x) (-5) (i : Int) = some index →
        get_index_hash_function_int32 (2 ^ 4) (fun x : Int => x) (-5) (j : Int) = some index →
        i = j) ∧
      ((∀ i : Nat, i < 2 ^ 4 →
          (get_index_hash_function_int32 (2 ^ 4) (fun x : Int => x) (-5) (i : Int)).isSome) →
        ∀ s : Int, 0 ≤ s → s < ((2 ^ 4 : Nat) : Int) →
          ∃! i : Nat, i < 2 ^ 4 ∧
            get_index_hash_function_int32 (2 ^ 4) (fun x : Int => x) (-5) (i : Int)
              = some s) ∧
      (4 ≤ 15 → INT_MIN ≤ (-5 : Int) →
        (-5 : Int) + (((2 ^ 4 - 1) * 2 ^ 4 / 2 : Nat) : Int) ≤ INT_MAX →
        ∀ i : Nat, i < 2 ^ 4 →
          (get_index_hash_function_int32 (2 ^ 4) (fun x : Int => x) (-5) (i : Int)).isSome)) :=
  ⟨by decide, by decide, by decide,
    C18_probe_permutation 4 (fun x : Int => x) (-5) (by decide)⟩

/-! ### Successful and failing `hash_set_insert` -/

/-- The first pass (`i = 0`) of the loop of `hash_set_contains_value`: the anchor is
`probeIndex 0` and the bound becomes the anchor's `hashCount`. -/
theorem contains_step_zero {α : Type} (F : Funcs α) (hs : HashSet α) (v : α) (first : Nat) :
    hash_set_contains_step F hs v 0 ONE_NODE first
      = if (nodeAt hs.NodesList (probeIndex F hs.capacity v 0)).hashCount = 0 then Sum.inl FAIL
        else if (nodeAt hs.NodesList (probeIndex F hs.capacity v 0)).data.isNone then
          Sum.inr (1,
            (nodeAt hs.NodesList (probeIndex F hs.capacity v 0)).hashCount
              + (if (nodeAt hs.NodesList (probeIndex F hs.capacity v 0)).hashCount = ONE_NODE
                  then 0 else 1),
            probeIndex F hs.capacity v 0)
        else if check_node F.value_cmp (nodeAt hs.NodesList (probeIndex F hs.capacity v 0))
            (some v) = SUCCESS then Sum.inl SUCCESS
        else
          Sum.inr (1, (nodeAt hs.NodesList (probeIndex F hs.capacity v 0)).hashCount,
            probeIndex F hs.capacity v 0) := by
  unfold hash_set_contains_step probeIndex
  simp only [Nat.cast_zero, INITIAL_IND, ↓reduceIte]
  generalize nodeAt hs.NodesList
    (get_index_hash_function hs.capacity F.hash_func v 0).toNat = nd
  rcases nd with ⟨_ | x, c⟩ <;> by_cases h1 : c = 1 <;> simp [h1]

/-- A later pass (`i ≥ 1`) of the loop of `hash_set_contains_value`. -/
theorem contains_step_pos {α : Type} (F : Funcs α) (hs : HashSet α) (v : α) (i : Nat)
    (hc : Int) (first : Nat) (hi : 1 ≤ i) :
    hash_set_contains_step F hs v i hc first
      = if (i : Int) ≤ hc then
          if (nodeAt hs.NodesList (probeIndex F hs.capacity v i)).data.isNone then
            Sum.inr (i + 1,
              hc + (if (nodeAt hs.NodesList first).hashCount = ONE_NODE then 0 else 1), first)
          else if check_node F.value_cmp (nodeAt hs.NodesList (probeIndex F hs.capacity v i))
              (some v) = SUCCESS then Sum.inl SUCCESS
          else Sum.inr (i + 1, hc, first)
        else Sum.inl FAIL := by
  have hi0 : i ≠ 0 := by omega
  unfold hash_set_contains_step probeIndex
  simp only [INITIAL_IND, hi0, ↓reduceIte]
  generalize nodeAt hs.NodesList
    (get_index_hash_function hs.capacity F.hash_func v (i : Int)).toNat = nd
  rcases nd with ⟨_ | x, c⟩ <;>
    by_cases h1 : (nodeAt hs.NodesList first).hashCount = 1 <;> simp [h1, hi0]

theorem contains_step_result {α : Type} (F : Funcs α) (hs : HashSet α) (v : α) (i : Nat)
    (hc : Int) (first : Nat) (r : Int)
    (h : hash_set_contains_step F hs v i hc first = Sum.inl r) : r = SUCCESS ∨ r = FAIL := by
  unfold hash_set_contains_step at h
  simp only [] at h
  cases hd : (nodeAt hs.NodesList
      (get_index_hash_function hs.capacity F.hash_func v (i : Int)).toNat).data with
  | none =>
    rw [hd] at h
    simp only at h
    split_ifs at h <;> exact Or.inr (Sum.inl.inj h).symm
  | some x =>
    rw [hd] at h
    simp only at h
    split_ifs at h <;>
      first
        | exact Or.inr (Sum.inl.inj h).symm
        | exact Or.inl (Sum.inl.inj h).symm

theorem contains_loop_result {α : Type} (F : Funcs α) (hs : HashSet α) (v : α) :
    ∀ (fuel i : Nat) (hc : Int) (first : Nat) (r : Int),
      hash_set_contains_loop F hs v fuel i hc first = some r → r = SUCCESS ∨ r = FAIL := by
  intro fuel
  induction fuel with
  | zero => intro i hc first r h; simp [hash_set_contains_loop] at h
  | succ n ih =>
    intro i hc first r h
    rw [hash_set_contains_loop] at h
    cases hstep : hash_set_contains_step F hs v i hc first with
    | inl res =>
      rw [hstep] at h
      have := contains_step_result F hs v i hc first res hstep
      rwa [Option.some.inj h] at this
    | inr st =>
      rw [hstep] at h
      exact ih _ _ _ _ h

/-- The function `hash_set_contains_value` returns `SUCCESS` or `FAIL`. -/
theorem contains_value_result {α : Type} (F : Funcs α) (hs : HashSet α) (value : Option α)
    (fuel : Nat) (r : Int) (h : hash_set_contains_value F fuel hs value = some r) :
    r = SUCCESS ∨ r = FAIL := by
  cases value with
  | none => exact Or.inr (Option.some.inj h).symm
  | some v => exact contains_loop_result F hs v _ _ _ _ r h

/-- On a reachable table the loop of `hash_set_insert` finds a free slot: it returns
`SUCCESS`. -/
theorem insert_loop_success {α : Type} (F : Funcs α) (hs : HashSet α) (v : α)
    (hwf : WellFormed hs) :
    (hash_set_insert_loop F hs v hs.capacity INITIAL_IND 0).2 = SUCCESS := by
  obtain ⟨⟨k, hk⟩, hlen, hsize, hload⟩ := hwf
  rcases insert_loop_cases F hs v hs.capacity INITIAL_IND 0 with ⟨_, hfull⟩ | ⟨j, _, _, _, _, h1⟩
  · exfalso
    have hlt : countOccupied hs.NodesList < hs.NodesList.length := by omega
    obtain ⟨e, he, hnone⟩ := exists_empty_of_count_lt hs.NodesList hlt
    rw [hlen, hk] at he
    obtain ⟨j, hj, hje⟩ := get_index_surj k F.hash_func v e he
    apply hfull j (Nat.zero_le _) (by rw [hk]; simpa using hj)
    unfold probeIndex
    rw [hk, hje]
    exact hnone
  · rw [h1, apply_ite Prod.snd]
    simp

/-- C17: insert fails only on a reported duplicate.  On a reachable table, when the
duplicate pre-check `hash_set_contains_value (t, v)` returns `r0`, the call
`hash_set_insert (t, v)` returns, and it returns 1 exactly when `r0 = 0`; when it returns 0
the table is unchanged.  The probe loop of `hash_set_insert` always finds a free slot: its
final `return FAIL` is not reached. -/
theorem C17_insert_fails_only_on_duplicate {α : Type} (F : Funcs α) (hs : HashSet α)
    (fuel : Nat) (v : α) (r0 : Int) (h : Reachable F hs)
    (hc : hash_set_contains_value F fuel hs (some v) = some r0) :
    (∃ hs1 r1, hash_set_insert F fuel hs (some v) = some (hs1, r1) ∧
        (r1 = SUCCESS ∨ r1 = FAIL) ∧ (r1 = SUCCESS ↔ r0 = FAIL) ∧ (r1 = FAIL → hs1 = hs)) ∧
      (hash_set_insert_loop F hs v hs.capacity INITIAL_IND 0).2 = SUCCESS := by
  have hwf := reachable_wellFormed F hs h
  have hloop := insert_loop_success F hs v hwf
  refine ⟨?_, hloop⟩
  unfold hash_set_insert
  simp only [hc]
  rcases contains_value_result F hs (some v) fuel r0 hc with hr | hr
  · subst hr
    exact ⟨hs, FAIL, by simp, Or.inr rfl, by decide, fun _ => rfl⟩
  · subst hr
    refine ⟨(hash_set_insert_loop F hs v hs.capacity INITIAL_IND 0).1, SUCCESS, ?_,
      Or.inl rfl, by decide, fun hh => absurd hh (by decide)⟩
    rw [if_neg (by decide), ← hloop]

/-- C17 at the insert of 11 into the table holding 0, …, 10 (lookup returns 0, insert
returns 1). -/
theorem C17_insert_fails_only_on_duplicate_witness :
    Reachable intFuncs table_0_to_10 ∧
      hash_set_contains_value intFuncs 8 table_0_to_10 (some 11) = some FAIL ∧
      ((∃ hs1 r1, hash_set_insert intFuncs 8 table_0_to_10 (some 11) = some (hs1, r1) ∧
          (r1 = SUCCESS ∨ r1 = FAIL) ∧ (r1 = SUCCESS ↔ FAIL = FAIL) ∧
          (r1 = FAIL → hs1 = table_0_to_10)) ∧
        (hash_set_insert_loop intFuncs table_0_to_10 11 table_0_to_10.capacity
          INITIAL_IND 0).2 = SUCCESS) :=
  ⟨reachable_table_0_to_10, by decide,
    C17_insert_fails_only_on_duplicate intFuncs table_0_to_10 8 11 FAIL
      reachable_table_0_to_10 (by decide)⟩

/-! ### Reading nodes after an update -/

theorem nodeAt_set_of_le {α : Type} (nodes : List (Node α)) (i j : Nat) (x : Node α)
    (h : nodes.length ≤ i) : nodeAt (nodes.set i x) j = nodeAt nodes j := by
  rw [List.set_eq_of_length_le h]

theorem nodeAt_bump_data {α : Type} (nodes : List (Node α)) (first : Nat) (d : Int)
    (m : Nat) : (nodeAt (bumpHashCount nodes first d) m).data = (nodeAt nodes m).data := by
  unfold bumpHashCount
  by_cases hf : first < nodes.length
  · rw [nodeAt_set _ _ _ _ hf]
    by_cases hm : first = m
    · rw [if_pos hm, hm]
    · rw [if_neg hm]
  · rw [nodeAt_set_of_le _ _ _ _ (by omega)]

theorem nodeAt_bump_hashCount {α : Type} (nodes : List (Node α)) (first : Nat) (d : Int)
    (m : Nat) (hf : first < nodes.length) :
    (nodeAt (bumpHashCount nodes first d) m).hashCount
      = (nodeAt nodes m).hashCount + (if first = m then d else 0) := by
  unfold bumpHashCount
  rw [nodeAt_set _ _ _ _ hf]
  by_cases hm : first = m
  · rw [if_pos hm, if_pos hm, hm]
  · rw [if_neg hm, if_neg hm, add_zero]

theorem insertedAt_data {α : Type} (F : Funcs α) (hs : HashSet α) (v : α)
    (index first : Nat) (hidx : index < hs.NodesList.length) (m : Nat) :
    (nodeAt (insertedAt F hs v index first).NodesList m).data
      = if index = m then some (F.value_cpy v) else (nodeAt hs.NodesList m).data := by
  simp only [insertedAt, nodeAt_bump_data, set_node_data_some]
  rw [nodeAt_set _ _ _ _ hidx]
  by_cases hm : index = m
  · rw [if_pos hm, if_pos hm]
  · rw [if_neg hm, if_neg hm]

theorem hash_set_at_of_lt {α : Type} (hs : HashSet α) (m : Nat) (hm : m < hs.capacity) :
    hash_set_at hs (m : Int) = (nodeAt hs.NodesList m).data := by
  unfold hash_set_at
  rw [if_neg]
  · simp
  · simp only [INITIAL_IND, Int.toNat_ofNat]
    omega

theorem hash_set_at_of_neg {α : Type} (hs : HashSet α) (k : Int) (hk : k < 0) :
    hash_set_at hs k = none := by
  unfold hash_set_at
  rw [if_pos (Or.inl (by simpa using hk))]

theorem hash_set_at_of_ge {α : Type} (hs : HashSet α) (k : Int)
    (hk : (hs.capacity : Int) ≤ k) : hash_set_at hs k = none := by
  unfold hash_set_at
  rw [if_pos (Or.inr (by omega))]

/-- After a successful `hash_set_insert` that keeps the capacity, the table is the one with
the value stored in a free slot `index < capacity`. -/
theorem insert_no_resize {α : Type} (F : Funcs α) (hs hs1 : HashSet α) (fuel : Nat)
    (v : α) (hwf : WellFormed hs)
    (hins : hash_set_insert F fuel hs (some v) = some (hs1, SUCCESS))
    (hcap : hs1.capacity = hs.capacity) :
    ∃ j, j < hs.capacity ∧ probeIndex F hs.capacity v j < hs.capacity ∧
      (nodeAt hs.NodesList (probeIndex F hs.capacity v j)).data = none ∧
      hs1 = insertedAt F hs v (probeIndex F hs.capacity v j) (probeIndex F hs.capacity v 0) := by
  obtain ⟨⟨k, hk⟩, hlen, _, _⟩ := hwf
  have hpos : 0 < hs.capacity := by rw [hk]; exact Nat.two_pow_pos k
  rcases insert_cases F fuel hs hs1 (some v) SUCCESS hins with
    ⟨_, h1⟩ | ⟨v1, j, hv, _, hj, hnone, h1⟩
  · exact absurd h1 (by decide)
  · obtain rfl : v = v1 := Option.some.inj hv
    refine ⟨j, hj, by rw [hk]; exact probeIndex_lt F k v j, hnone, ?_⟩
    by_cases hc : HASH_SET_MAX_LOAD_FACTOR ≤ hash_set_get_load_factor
        (insertedAt F hs v (probeIndex F hs.capacity v j) (probeIndex F hs.capacity v 0))
    · exfalso
      rw [if_pos hc] at h1
      rw [h1, resize_capacity] at hcap
      simp only [HASH_SET_GROWTH_FACTOR] at hcap
      omega
    · rw [if_neg hc] at h1
      exact h1

/-- C12: contract of `hash_set_at`.  For every table and every index `k`, `hash_set_at`
returns null when `k < 0` or `k ≥ capacity`, and otherwise the datum of slot `k` (null when
the slot is empty).  Right after a successful `hash_set_insert (t, v)` on a reachable table
that did not resize (the copy comparing equal to its original), there is exactly one index
at which `hash_set_at` was null and now is a value comparing equal to `v`, and
`hash_set_at` is unchanged at every other index. -/
theorem C12_hash_set_at {α : Type} (F : Funcs α) (hs hs1 : HashSet α) (fuel : Nat) (v : α)
    (h : Reachable F hs) (hcopy : ∀ a, F.value_cmp (F.value_cpy a) a = SUCCESS)
    (hins : hash_set_insert F fuel hs (some v) = some (hs1, SUCCESS))
    (hcap : hs1.capacity = hs.capacity) :
    (∀ (t : HashSet α) (k : Int),
        (k < 0 → hash_set_at t k = none) ∧
        ((t.capacity : Int) ≤ k → hash_set_at t k = none) ∧
        (0 ≤ k → k < (t.capacity : Int) →
          hash_set_at t k = (nodeAt t.NodesList k.toNat).data)) ∧
      (∃! k : Int, hash_set_at hs k = none ∧
        ∃ x, hash_set_at hs1 k = some x ∧ F.value_cmp x v = SUCCESS) ∧
      (∃ k : Int, 0 ≤ k ∧ k < (hs.capacity : Int) ∧ hash_set_at hs k = none ∧
        hash_set_at hs1 k = some (F.value_cpy v) ∧
        ∀ k1 : Int, k1 ≠ k → hash_set_at hs1 k1 = hash_set_at hs k1) := by
  have hwf := reachable_wellFormed F hs h
  have hlen := hwf.2.1
  obtain ⟨j, _, hidx, hnone, h1⟩ := insert_no_resize F hs hs1 fuel v hwf hins hcap
  have hframe : ∀ k1 : Int, k1 ≠ (probeIndex F hs.capacity v j : Int) →
      hash_set_at hs1 k1 = hash_set_at hs k1 := by
    intro k1 hne
    by_cases hneg : k1 < 0
    · rw [hash_set_at_of_neg _ _ hneg, hash_set_at_of_neg _ _ hneg]
    · by_cases hge : (hs.capacity : Int) ≤ k1
      · rw [hash_set_at_of_ge _ _ (by rw [hcap]; exact hge), hash_set_at_of_ge _ _ hge]
      · obtain ⟨m, rfl⟩ : ∃ m : Nat, k1 = (m : Int) := ⟨k1.toNat, by omega⟩
        have hm : m < hs.capacity := by omega
        rw [hash_set_at_of_lt hs1 m (by rw [hcap]; exact hm), hash_set_at_of_lt hs m hm, h1,
          insertedAt_data F hs v _ _ (by rw [hlen]; exact hidx), if_neg]
        intro heq
        exact hne (by rw [heq])
  have hold : hash_set_at hs (probeIndex F hs.capacity v j : Int) = none := by
    rw [hash_set_at_of_lt hs _ hidx, hnone]
  have hnew : hash_set_at hs1 (probeIndex F hs.capacity v j : Int)
      = some (F.value_cpy v) := by
    rw [hash_set_at_of_lt hs1 _ (by rw [hcap]; exact hidx), h1,
      insertedAt_data F hs v _ _ (by rw [hlen]; exact hidx), if_pos rfl]
  refine ⟨fun t k => ⟨hash_set_at_of_neg t k, hash_set_at_of_ge t k, fun h0 h1 => ?_⟩, ?_, ?_⟩
  · obtain ⟨m, rfl⟩ : ∃ m : Nat, k = (m : Int) := ⟨k.toNat, by omega⟩
    rw [hash_set_at_of_lt t m (by omega)]
    simp
  · refine ⟨(probeIndex F hs.capacity v j : Int), ⟨hold, F.value_cpy v, hnew, hcopy v⟩, ?_⟩
    rintro k1 ⟨hk1, x, hx, _⟩
    by_contra hne
    rw [hframe k1 hne, hk1] at hx
    exact absurd hx (by simp)
  · exact ⟨(probeIndex F hs.capacity v j : Int), by omega, by omega, hold, hnew, hframe⟩

/-- C12 at the insert of 4 into the table holding 3, 19, 5 (no resize). -/
theorem C12_hash_set_at_witness :
    Reachable intFuncs table_3_19_5 ∧
      (∀ a, intFuncs.value_cmp (intFuncs.value_cpy a) a = SUCCESS) ∧
      hash_set_insert intFuncs 8 table_3_19_5 (some 4) = some (table_3_19_5_4, SUCCESS) ∧
      table_3_19_5_4.capacity = table_3_19_5.capacity ∧
      ((∀ (t : HashSet Int) (k : Int),
          (k < 0 → hash_set_at t k = none) ∧
          ((t.capacity : Int) ≤ k → hash_set_at t k = none) ∧
          (0 ≤ k → k < (t.capacity : Int) →
            hash_set_at t k = (nodeAt t.NodesList k.toNat).data)) ∧
        (∃! k : Int, hash_set_at table_3_19_5 k = none ∧
          ∃ x, hash_set_at table_3_19_5_4 k = some x ∧ intFuncs.value_cmp x 4 = SUCCESS) ∧
        (∃ k : Int, 0 ≤ k ∧ k < (table_3_19_5.capacity : Int) ∧
          hash_set_at table_3_19_5 k = none ∧
          hash_set_at table_3_19_5_4 k = some (intFuncs.value_cpy 4) ∧
          ∀ k1 : Int, k1 ≠ k → hash_set_at table_3_19_5_4 k1 = hash_set_at table_3_19_5 k1)) :=
  ⟨reachable_table_3_19_5, fun a => by simp [intFuncs], by decide, rfl,
    C12_hash_set_at intFuncs table_3_19_5 table_3_19_5_4 8 4 reachable_table_3_19_5
      (fun a => by simp [intFuncs]) (by decide) rfl⟩

/-! ### The anchor counters -/

theorem countP_set_same {α : Type} (p : Node α → Bool) (nodes : List (Node α)) (i : Nat)
    (x : Node α) (h : p x = p (nodeAt nodes i)) :
    List.countP p (nodes.set i x) = List.countP p nodes := by
  by_cases hi : i < nodes.length
  · rw [List.countP_set _ _ _ _ hi, h, nodeAt_of_lt _ _ hi]
    by_cases hp : p nodes[i] = true
    · have hpos : 0 < List.countP p nodes :=
        List.countP_pos_iff.mpr ⟨nodes[i], List.getElem_mem hi, hp⟩
      simp only [hp, if_true]
      omega
    · simp [hp]
  · rw [List.set_eq_of_length_le (by omega)]

theorem anchorCount_bump {α : Type} (F : Funcs α) (c : Nat) (nodes : List (Node α))
    (first : Nat) (d : Int) (s : Nat) :
    anchorCount F c (bumpHashCount nodes first d) s = anchorCount F c nodes s := by
  unfold anchorCount bumpHashCount
  exact countP_set_same _ _ _ _ rfl

theorem anchorCount_set_fill {α : Type} (F : Funcs α) (c : Nat) (nodes : List (Node α))
    (i : Nat) (x : α) (hcount : Int) (s : Nat) (hi : i < nodes.length)
    (hempty : (nodeAt nodes i).data = none) :
    anchorCount F c (nodes.set i { data := some x, hashCount := hcount }) s
      = anchorCount F c nodes s + (if probeIndex F c x 0 = s then 1 else 0) := by
  unfold anchorCount
  rw [List.countP_set _ _ _ _ hi]
  have hold : anchoredAt F c s nodes[i] = false := by
    rw [← nodeAt_of_lt _ _ hi]
    unfold anchoredAt
    rw [hempty]
  rw [hold]
  simp [anchoredAt]

theorem anchorCount_set_clear {α : Type} (F : Funcs α) (c : Nat) (nodes : List (Node α))
    (i : Nat) (x : α) (s : Nat) (hfull : (nodeAt nodes i).data = some x) :
    anchorCount F c (nodes.set i (clear_node (nodeAt nodes i))) s
        + (if probeIndex F c x 0 = s then 1 else 0)
      = anchorCount F c nodes s := by
  have hi : i < nodes.length := by
    by_contra hge
    rw [nodeAt_of_le _ _ (by omega)] at hfull
    simp [node_alloc] at hfull
  unfold anchorCount
  rw [List.countP_set _ _ _ _ hi]
  have hnew : anchoredAt F c s (clear_node (nodeAt nodes i)) = false := by
    unfold anchoredAt clear_node
    rw [hfull]
  have hold : anchoredAt F c s nodes[i] = decide (probeIndex F c x 0 = s) := by
    rw [← nodeAt_of_lt _ _ hi]
    unfold anchoredAt
    rw [hfull]
  rw [hnew, hold]
  by_cases hp : probeIndex F c x 0 = s
  · have hpos : 0 < List.countP (anchoredAt F c s) nodes := by
      refine List.countP_pos_iff.mpr ⟨nodes[i], List.getElem_mem hi, ?_⟩
      rw [hold]
      simpa using hp
    simp only [hp, decide_True, if_true, Bool.false_eq_true, if_false]
    omega
  · simp [hp]

theorem probeIndex_congr {α : Type} (F : Funcs α) (c : Nat) (a b : α) (j : Nat)
    (h : F.hash_func a = F.hash_func b) : probeIndex F c a j = probeIndex F c b j := by
  unfold probeIndex get_index_hash_function
  rw [h]

/-- Storing a value in a free slot and counting it at its anchor keeps the anchor counters
right. -/
theorem anchorsOK_place {α : Type} (F : Funcs α) (c : Nat) (nodes : List (Node α))
    (index : Nat) (x : α) (hok : AnchorsOK F c nodes) (hidx : index < nodes.length)
    (hfirst : probeIndex F c x 0 < nodes.length)
    (hempty : (nodeAt nodes index).data = none) :
    AnchorsOK F c
      (bumpHashCount
        (nodes.set index { data := some x, hashCount := (nodeAt nodes index).hashCount })
        (probeIndex F c x 0) 1) := by
  intro s hs
  rw [nodeAt_bump_hashCount _ _ _ _ (by rw [List.length_set]; exact hfirst),
    anchorCount_bump, anchorCount_set_fill F c nodes index x _ s hidx hempty]
  have hkeep : (nodeAt (nodes.set index
      { data := some x, hashCount := (nodeAt nodes index).hashCount }) s).hashCount
      = (nodeAt nodes s).hashCount := by
    rw [nodeAt_set _ _ _ _ hidx]
    by_cases hm : index = s
    · rw [if_pos hm, hm]
    · rw [if_neg hm]
  rw [hkeep, hok s hs]
  by_cases hp : probeIndex F c x 0 = s
  · simp [hp]
  · simp [hp]

/-- Clearing the slot of a stored value and discounting it at its anchor keeps the anchor
counters right. -/
theorem anchorsOK_remove {α : Type} (F : Funcs α) (c : Nat) (nodes : List (Node α))
    (index : Nat) (x : α) (hok : AnchorsOK F c nodes)
    (hfirst : probeIndex F c x 0 < nodes.length)
    (hfull : (nodeAt nodes index).data = some x) :
    AnchorsOK F c
      (bumpHashCount (nodes.set index (clear_node (nodeAt nodes index)))
        (probeIndex F c x 0) (-1)) := by
  have hidx : index < nodes.length := by
    by_contra hge
    rw [nodeAt_of_le _ _ (by omega)] at hfull
    simp [node_alloc] at hfull
  intro s hs
  rw [nodeAt_bump_hashCount _ _ _ _ (by rw [List.length_set]; exact hfirst),
    anchorCount_bump]
  have hkeep : (nodeAt (nodes.set index (clear_node (nodeAt nodes index))) s).hashCount
      = (nodeAt nodes s).hashCount := by
    rw [nodeAt_set _ _ _ _ hidx]
    by_cases hm : index = s
    · rw [if_pos hm, hm]
      unfold clear_node
      cases (nodeAt nodes s).data <;> rfl
    · rw [if_neg hm]
  have hcnt := anchorCount_set_clear F c nodes index x s hfull
  rw [hkeep, hok s hs, ← hcnt]
  by_cases hp : probeIndex F c x 0 = s
  · simp [hp]
  · simp [hp]

theorem anchorsOK_new {α : Type} (F : Funcs α) (c n : Nat) :
    AnchorsOK F c (get_new_nodes_list n : List (Node α)) := by
  intro s _
  rw [nodeAt_new_nodes]
  have : anchorCount F c (get_new_nodes_list n : List (Node α)) s = 0 := by
    simp [anchorCount, get_new_nodes_list, List.countP_replicate, anchoredAt, node_alloc]
  rw [this]
  rfl

/-- The inner loop of `resize` either leaves the new array as it is (no free slot among the
probed ones), or stores a copy of the datum in a free probed slot and counts it at the
anchor. -/
theorem resize_place_cases {α : Type} (F : Funcs α) (c : Nat) (d : α) :
    ∀ (n j first : Nat) (nodes : List (Node α)),
      resize_place F c d n j first nodes = some nodes ∨
      ∃ j1, (nodeAt nodes (probeIndex F c d j1)).data = none ∧
        resize_place F c d n j first nodes = some
          (bumpHashCount
            (nodes.set (probeIndex F c d j1)
              { data := some (F.value_cpy d),
                hashCount := (nodeAt nodes (probeIndex F c d j1)).hashCount })
            (if j = 0 then probeIndex F c d 0 else first) 1) := by
  intro n
  induction n with
  | zero => intro j first nodes; exact Or.inl rfl
  | succ n ih =>
    intro j first nodes
    rw [resize_place]
    simp only [set_node_data_some, show ¬ (SUCCESS = FAIL) by decide, if_false]
    cases hd : (nodeAt nodes (get_index_hash_function c F.hash_func d (j : Int)).toNat).data with
    | none =>
      right
      refine ⟨j, hd, ?_⟩
      simp only [probeIndex, INITIAL_IND]
      by_cases hj : j = 0
      · subst hj; simp
      · simp [hj]
    | some x =>
      simp only
      rcases ih (j + 1) (if j = INITIAL_IND then
          (get_index_hash_function c F.hash_func d (j : Int)).toNat else first) nodes with
        h1 | ⟨j1, hnone, h1⟩
      · exact Or.inl h1
      · right
        refine ⟨j1, hnone, ?_⟩
        rw [h1]
        simp only [Nat.add_one_ne_zero, if_false, INITIAL_IND, probeIndex]
        by_cases hj : j = 0
        · subst hj; simp
        · simp [hj]

theorem resize_place_anchorsOK {α : Type} (F : Funcs α) (k : Nat) (d : α)
    (hcpy : CopyPreservesHash F) (nodes nodes1 : List (Node α))
    (hlen : nodes.length = 2 ^ k) (hok : AnchorsOK F (2 ^ k) nodes)
    (h : resize_place F (2 ^ k) d (2 ^ k) INITIAL_IND 0 nodes = some nodes1) :
    nodes1.length = 2 ^ k ∧ AnchorsOK F (2 ^ k) nodes1 := by
  rcases resize_place_cases F (2 ^ k) d (2 ^ k) INITIAL_IND 0 nodes with h1 | ⟨j1, hnone, h1⟩
  · rw [h1] at h
    rw [← Option.some.inj h]
    exact ⟨hlen, hok⟩
  · rw [h1] at h
    rw [← Option.some.inj h]
    simp only [INITIAL_IND, if_true]
    have hanchor : probeIndex F (2 ^ k) d 0 = probeIndex F (2 ^ k) (F.value_cpy d) 0 :=
      (probeIndex_congr F _ _ _ 0 (hcpy d)).symm
    rw [hanchor]
    refine ⟨by rw [length_bumpHashCount, List.length_set, hlen], ?_⟩
    exact anchorsOK_place F (2 ^ k) nodes _ (F.value_cpy d) hok
      (by rw [hlen]; exact probeIndex_lt F k d j1)
      (by rw [hlen]; exact probeIndex_lt F k _ 0) hnone

theorem resize_loop_anchorsOK {α : Type} (F : Funcs α) (k : Nat) (old : List (Node α))
    (hcpy : CopyPreservesHash F) :
    ∀ (n i : Nat) (nodes nodes1 : List (Node α)), nodes.length = 2 ^ k →
      AnchorsOK F (2 ^ k) nodes → resize_loop F old (2 ^ k) n i nodes = some nodes1 →
      nodes1.length = 2 ^ k ∧ AnchorsOK F (2 ^ k) nodes1 := by
  intro n
  induction n with
  | zero =>
    intro i nodes nodes1 hlen hok h
    rw [resize_loop] at h
    rw [← Option.some.inj h]
    exact ⟨hlen, hok⟩
  | succ n ih =>
    intro i nodes nodes1 hlen hok h
    rw [resize_loop] at h
    cases hd : (nodeAt old i).data with
    | none =>
      rw [hd] at h
      exact ih _ _ _ hlen hok h
    | some d =>
      rw [hd] at h
      simp only at h
      cases hp : resize_place F (2 ^ k) d (2 ^ k) INITIAL_IND 0 nodes with
      | none => rw [hp] at h; simp at h
      | some nodes2 =>
        rw [hp] at h
        obtain ⟨hlen2, hok2⟩ := resize_place_anchorsOK F k d hcpy nodes nodes2 hlen hok hp
        exact ih _ _ _ hlen2 hok2 h

/-- After `resize` to a power-of-two capacity the anchor counters are right, whatever they
were before. -/
theorem resize_anchorsOK {α : Type} (F : Funcs α) (k : Nat) (hs : HashSet α)
    (hcpy : CopyPreservesHash F) :
    AnchorsOK F (resize F hs (2 ^ k)).capacity (resize F hs (2 ^ k)).NodesList := by
  obtain ⟨nodes1, h1⟩ := resize_loop_isSome F hs.NodesList (2 ^ k) hs.capacity INITIAL_IND
    (get_new_nodes_list (2 ^ k))
  have := resize_loop_anchorsOK F k hs.NodesList hcpy hs.capacity INITIAL_IND
    (get_new_nodes_list (2 ^ k)) nodes1 (length_new_nodes _) (anchorsOK_new F _ _) h1
  unfold resize
  rw [h1]
  exact this.2

theorem check_node_success {α : Type} (cmp : α → α → Int) (node : Node α) (v : α)
    (h : check_node cmp node (some v) = SUCCESS) :
    ∃ d, node.data = some d ∧ cmp d v = SUCCESS := by
  unfold check_node at h
  cases hd : node.data with
  | none => rw [hd] at h; simp at h
  | some d =>
    rw [hd] at h
    simp only at h
    by_cases hc : cmp d v = SUCCESS
    · exact ⟨d, rfl, hc⟩
    · rw [if_neg hc] at h
      exact absurd h (by decide)

theorem insert_anchorsOK {α : Type} (F : Funcs α) (fuel : Nat) (hs hs1 : HashSet α)
    (value : Option α) (r : Int) (hcpy : CopyPreservesHash F) (hwf : WellFormed hs)
    (hok : AnchorsOK F hs.capacity hs.NodesList)
    (h : hash_set_insert F fuel hs value = some (hs1, r)) :
    AnchorsOK F hs1.capacity hs1.NodesList := by
  rcases insert_cases F fuel hs hs1 value r h with ⟨h1, _⟩ | ⟨v, j, _, _, _, hnone, h1⟩
  · rw [h1]; exact hok
  · obtain ⟨⟨k, hk⟩, hlen, _, _⟩ := hwf
    by_cases hc : HASH_SET_MAX_LOAD_FACTOR ≤ hash_set_get_load_factor
        (insertedAt F hs v (probeIndex F hs.capacity v j) (probeIndex F hs.capacity v 0))
    · rw [if_pos hc] at h1
      have hcap : hs.capacity * HASH_SET_GROWTH_FACTOR = 2 ^ (k + 1) := by
        rw [hk, pow_succ]
      rw [hcap] at h1
      rw [h1]
      exact resize_anchorsOK F (k + 1) _ hcpy
    · rw [if_neg hc] at h1
      rw [h1]
      have hanchor : probeIndex F hs.capacity v 0 = probeIndex F hs.capacity (F.value_cpy v) 0 :=
        (probeIndex_congr F _ _ _ 0 (hcpy v)).symm
      simp only [insertedAt, set_node_data_some]
      rw [hanchor]
      exact anchorsOK_place F hs.capacity hs.NodesList _ (F.value_cpy v) hok
        (by rw [hlen, hk]; exact probeIndex_lt F k v j)
        (by rw [hlen, hk]; exact probeIndex_lt F k _ 0) hnone

theorem erase_anchorsOK {α : Type} (F : Funcs α) (fuel : Nat) (hs hs1 : HashSet α)
    (value : Option α) (r : Int) (hcons : HashConsistent F) (hcpy : CopyPreservesHash F)
    (hwf : WellFormed hs) (hok : AnchorsOK F hs.capacity hs.NodesList)
    (h : hash_set_erase F fuel hs value = some (hs1, r)) :
    AnchorsOK F hs1.capacity hs1.NodesList := by
  rcases erase_cases F fuel hs hs1 value r h with ⟨h1, _⟩ | ⟨v, j, _, _, hchk, h1⟩
  · rw [h1]; exact hok
  · obtain ⟨⟨k, hk⟩, hlen, _, _⟩ := hwf
    by_cases hc : hash_set_get_load_factor
        (erasedAt hs (probeIndex F hs.capacity v j) (probeIndex F hs.capacity v 0))
        ≤ HASH_SET_MIN_LOAD_FACTOR ∧ hs.capacity ≠ MIN_CAPACITY
    · rw [if_pos hc] at h1
      have hk0 : k ≠ 0 := by
        intro hk0
        rw [hk0] at hk
        exact hc.2 hk
      obtain ⟨k1, rfl⟩ : ∃ k1, k = k1 + 1 := ⟨k - 1, by omega⟩
      have hcap : hs.capacity / HASH_SET_GROWTH_FACTOR = 2 ^ k1 := by
        rw [hk, pow_succ]
        simp
      rw [hcap] at h1
      rw [h1]
      exact resize_anchorsOK F k1 _ hcpy
    · rw [if_neg hc] at h1
      rw [h1]
      obtain ⟨d, hd, hcmp⟩ := check_node_success _ _ _ hchk
      have hanchor : probeIndex F hs.capacity v 0 = probeIndex F hs.capacity d 0 :=
        (probeIndex_congr F _ _ _ 0 (hcons d v hcmp)).symm
      simp only [erasedAt]
      rw [hanchor]
      exact anchorsOK_remove F hs.capacity hs.NodesList _ d hok
        (by rw [hlen, hk]; exact probeIndex_lt F k _ 0) hd

/-- On every reachable table of a caller that keeps its contract, the anchor counters are
right. -/
theorem reachable_anchorsOK {α : Type} (F : Funcs α) (hs : HashSet α)
    (hcons : HashConsistent F) (hcpy : CopyPreservesHash F) (h : Reachable F hs) :
    AnchorsOK F hs.capacity hs.NodesList := by
  induction h with
  | alloc => exact anchorsOK_new F _ _
  | insert hr hstep ih =>
    exact insert_anchorsOK F _ _ _ _ _ hcpy (reachable_wellFormed F _ hr) ih hstep
  | erase hr hstep ih =>
    exact erase_anchorsOK F _ _ _ _ _ hcons hcpy (reachable_wellFormed F _ hr) ih hstep
  | clear hr _ =>
    rw [clear_eq_new _ (reachable_wellFormed F _ hr).2.1]
    exact anchorsOK_new F _ _

/-- The anchor counts of all slots add up to the number of occupied nodes, when every
anchor is a slot of the table. -/
theorem sum_anchorCount {α : Type} (F : Funcs α) (c : Nat)
    (hlt : ∀ x : α, probeIndex F c x 0 < c) :
    ∀ nodes : List (Node α),
      Finset.sum (Finset.range c) (fun s => anchorCount F c nodes s) = countOccupied nodes := by
  intro nodes
  induction nodes with
  | nil => simp [anchorCount, countOccupied]
  | cons a l ih =>
    have hstep : ∀ s, anchorCount F c (a :: l) s
        = anchorCount F c l s + (if anchoredAt F c s a = true then 1 else 0) := by
      intro s
      unfold anchorCount
      rw [List.countP_cons]
    have hocc : countOccupied (a :: l)
        = countOccupied l + (if a.data.isSome = true then 1 else 0) := by
      unfold countOccupied
      rw [List.countP_cons]
    simp only [hstep]
    rw [Finset.sum_add_distrib, ih, hocc]
    congr 1
    cases hd : a.data with
    | none => simp [anchoredAt, hd]
    | some x =>
      simp only [anchoredAt, hd, decide_eq_true_eq, Option.isSome_some, if_true]
      rw [Finset.sum_ite_eq (Finset.range c) (probeIndex F c x 0) (fun _ => 1)]
      simp [hlt x]

/-- C14: anchor-count invariant.  For a caller whose hash is consistent with its compare
and whose copy preserves the hash, in every reachable table and for every slot `s`, the
`hashCount` of `NodesList[s]` is the number of stored values (per occupied node) whose
step-0 probe index is `s`; the counters are never negative and add up to `size`. -/
theorem C14_anchor_count_invariant {α : Type} (F : Funcs α) (hs : HashSet α)
    (hcons : HashConsistent F) (hcpy : CopyPreservesHash F) (h : Reachable F hs) :
    (∀ s, s < hs.capacity →
        (nodeAt hs.NodesList s).hashCount = (anchorCount F hs.capacity hs.NodesList s : Int) ∧
        0 ≤ (nodeAt hs.NodesList s).hashCount) ∧
      Finset.sum (Finset.range hs.capacity) (fun s => (nodeAt hs.NodesList s).hashCount)
        = (hs.size : Int) := by
  have hok := reachable_anchorsOK F hs hcons hcpy h
  obtain ⟨⟨k, hk⟩, _, hsize, _⟩ := reachable_wellFormed F hs h
  refine ⟨fun s hs1 => ⟨hok s hs1, by rw [hok s hs1]; exact Int.natCast_nonneg _⟩, ?_⟩
  have hsum := sum_anchorCount F hs.capacity
    (fun x => by rw [hk]; exact probeIndex_lt F k x 0) hs.NodesList
  rw [hsize, ← hsum, Nat.cast_sum]
  exact Finset.sum_congr rfl (fun s hs1 => hok s (Finset.mem_range.mp hs1))

/-- C14 at the reachable table holding 3, 19, 5, 4, 4, 20 (integer keys, identity hash). -/
theorem C14_anchor_count_invariant_witness :
    HashConsistent intFuncs ∧ CopyPreservesHash intFuncs ∧
      Reachable intFuncs table_3_19_5_4_4_20 ∧
      ((∀ s, s < table_3_19_5_4_4_20.capacity →
          (nodeAt table_3_19_5_4_4_20.NodesList s).hashCount
            = (anchorCount intFuncs table_3_19_5_4_4_20.capacity
                table_3_19_5_4_4_20.NodesList s : Int) ∧
          0 ≤ (nodeAt table_3_19_5_4_4_20.NodesList s).hashCount) ∧
        Finset.sum (Finset.range table_3_19_5_4_4_20.capacity)
            (fun s => (nodeAt table_3_19_5_4_4_20.NodesList s).hashCount)
          = (table_3_19_5_4_4_20.size : Int)) :=
  ⟨fun a b hab => by
      simp only [intFuncs] at hab ⊢
      by_contra hne
      rw [if_neg hne] at hab
      exact absurd hab (by decide),
    fun a => rfl, reachable_table_3_19_5_4_4_20,
    C14_anchor_count_invariant intFuncs table_3_19_5_4_4_20
      (fun a b hab => by
        simp only [intFuncs] at hab ⊢
        by_contra hne
        rw [if_neg hne] at hab
        exact absurd hab (by decide))
      (fun a => rfl) reachable_table_3_19_5_4_4_20⟩

/-! ### The probe sequence beyond the first `capacity` attempts -/

theorem tri_reflect (P j : Nat) (hj : j < P) :
    (2 * P - 1 - j) * (2 * P - 1 - j + 1) / 2 = j * (j + 1) / 2 + P * (2 * P - 1 - 2 * j) := by
  have h1 := tri_two_mul (2 * P - 1 - j)
  have h2 := tri_two_mul j
  obtain ⟨d, hd⟩ : ∃ d, 2 * P - 1 - j = j + d := ⟨2 * P - 1 - 2 * j, by omega⟩
  have hP : 2 * P = 2 * j + d + 1 := by omega
  have hd2 : 2 * P - 1 - 2 * j = d := by omega
  rw [hd2]
  rw [hd] at h1 ⊢
  have hprod : (j + d) * (j + d + 1) = j * (j + 1) + 2 * P * d := by
    rw [hP]; ring
  have : 2 * ((j + d) * (j + d + 1) / 2) = 2 * (j * (j + 1) / 2 + P * d) := by
    rw [h1, hprod, Nat.mul_add 2 (j * (j + 1) / 2) (P * d), h2]; ring
  omega

/-- The probe sequence of a power-of-two table runs backwards through the slots in its
second `capacity` attempts. -/
theorem probeIndex_reflect {α : Type} (F : Funcs α) (k : Nat) (v : α) (j : Nat)
    (hj : j < 2 ^ k) :
    probeIndex F (2 ^ k) v (2 * 2 ^ k - 1 - j) = probeIndex F (2 ^ k) v j := by
  unfold probeIndex
  rw [get_index_two_pow, get_index_two_pow, tri_reflect (2 ^ k) j hj]
  push_cast
  rw [← add_assoc, Int.add_mul_emod_self_left]

/-! ### Counting probed slots -/

theorem card_filter_range (p : Nat → Bool) (n : Nat) :
    ((Finset.range n).filter (fun j => p j = true)).card = (List.range n).countP p := by
  induction n with
  | zero => simp
  | succ n ih =>
    rw [Finset.range_succ, Finset.filter_insert, List.range_succ, List.countP_append]
    by_cases hp : p n = true
    · rw [if_pos hp, Finset.card_insert_of_not_mem (by simp), ih]
      simp [hp]
    · rw [if_neg hp, ih]
      simp [hp]

theorem countOccupied_eq_range {α : Type} (nodes : List (Node α)) :
    countOccupied nodes
      = (List.range nodes.length).countP (fun s => (nodeAt nodes s).data.isSome) := by
  have hmap : nodes = (List.range nodes.length).map (fun s => nodeAt nodes s) := by
    apply List.ext_getElem
    · simp
    · intro n h1 h2
      simp [nodeAt_of_lt _ _ h1]
  unfold countOccupied
  conv_lhs => rw [hmap]
  rw [List.countP_map]
  rfl

/-- Among the first `2 * capacity - 1` probe steps at least `2 * size - 1` land on an
occupied slot. -/
theorem occupied_probes_lower_bound {α : Type} (F : Funcs α) (k : Nat) (hs : HashSet α)
    (v : α) (hk : hs.capacity = 2 ^ k) (hlen : hs.NodesList.length = hs.capacity) :
    2 * countOccupied hs.NodesList
      ≤ ((Finset.range (2 * hs.capacity - 1)).filter (fun j =>
          (nodeAt hs.NodesList (probeIndex F hs.capacity v j)).data.isSome = true)).card + 1 := by
  have hpos : 0 < 2 ^ k := Nat.two_pow_pos k
  rw [hk]
  -- the occupied slots and the steps below `capacity` that hit them
  let occ : Nat → Bool := fun s => (nodeAt hs.NodesList s).data.isSome
  let O := (Finset.range (2 ^ k)).filter (fun s => occ s = true)
  let A := (Finset.range (2 ^ k)).filter (fun j => occ (probeIndex F (2 ^ k) v j) = true)
  have hO : O.card = countOccupied hs.NodesList := by
    rw [countOccupied_eq_range, hlen, hk]
    exact card_filter_range occ (2 ^ k)
  have hAO : A.card = O.card := by
    apply Finset.card_bij (fun j _ => probeIndex F (2 ^ k) v j)
    · intro j hj
      rw [Finset.mem_filter, Finset.mem_range] at hj ⊢
      exact ⟨probeIndex_lt F k v j, hj.2⟩
    · intro j1 hj1 j2 hj2 heq
      rw [Finset.mem_filter, Finset.mem_range] at hj1 hj2
      exact get_index_inj k F.hash_func v j1 j2 hj1.1 hj2.1 heq
    · intro s hs1
      rw [Finset.mem_filter, Finset.mem_range] at hs1
      obtain ⟨j, hj, hje⟩ := get_index_surj k F.hash_func v s hs1.1
      refine ⟨j, ?_, hje⟩
      rw [Finset.mem_filter, Finset.mem_range]
      refine ⟨hj, ?_⟩
      show occ (probeIndex F (2 ^ k) v j) = true
      unfold probeIndex
      rw [hje]
      exact hs1.2
  let B := (A.erase 0).image (fun j => 2 * 2 ^ k - 1 - j)
  have hB : B.card = (A.erase 0).card := by
    apply Finset.card_image_of_injOn
    intro j1 hj1 j2 hj2 heq
    have h1 := Finset.mem_range.mp (Finset.mem_filter.mp (Finset.mem_of_mem_erase hj1)).1
    have h2 := Finset.mem_range.mp (Finset.mem_filter.mp (Finset.mem_of_mem_erase hj2)).1
    simp only at heq
    omega
  have hAe : A.card ≤ (A.erase 0).card + 1 := by
    have := Finset.pred_card_le_card_erase (s := A) (a := 0)
    omega
  have hdisj : Disjoint A B := by
    rw [Finset.disjoint_left]
    intro j hjA hjB
    have h1 := Finset.mem_range.mp (Finset.mem_filter.mp hjA).1
    obtain ⟨j1, hj1, rfl⟩ := Finset.mem_image.mp hjB
    have h2 := Finset.mem_range.mp (Finset.mem_filter.mp (Finset.mem_of_mem_erase hj1)).1
    omega
  have hsub : A ∪ B ⊆ (Finset.range (2 * 2 ^ k - 1)).filter
      (fun j => occ (probeIndex F (2 ^ k) v j) = true) := by
    intro j hj
    rw [Finset.mem_filter, Finset.mem_range]
    rcases Finset.mem_union.mp hj with hjA | hjB
    · have h1 := Finset.mem_filter.mp hjA
      exact ⟨by have := Finset.mem_range.mp h1.1; omega, h1.2⟩
    · obtain ⟨j1, hj1, rfl⟩ := Finset.mem_image.mp hjB
      have hne : j1 ≠ 0 := Finset.ne_of_mem_erase hj1
      have h1 := Finset.mem_filter.mp (Finset.mem_of_mem_erase hj1)
      have h2 := Finset.mem_range.mp h1.1
      refine ⟨by omega, ?_⟩
      rw [probeIndex_reflect F k v j1 h2]
      exact h1.2
  have hcard := Finset.card_le_card hsub
  rw [Finset.card_union_of_disjoint hdisj] at hcard
  show 2 * countOccupied hs.NodesList
    ≤ ((Finset.range (2 * 2 ^ k - 1)).filter
        (fun j => occ (probeIndex F (2 ^ k) v j) = true)).card + 1
  omega

/-! ### The bound of the lookup loop -/

theorem emptyBefore_succ {α : Type} (F : Funcs α) (hs : HashSet α) (v : α) (i : Nat) :
    emptyBefore F hs v (i + 1)
      = emptyBefore F hs v i
        + (if (nodeAt hs.NodesList (probeIndex F hs.capacity v i)).data.isNone = true
            then 1 else 0) := by
  unfold emptyBefore
  rw [List.range_succ, List.countP_append, List.countP_singleton]

theorem emptyBefore_zero {α : Type} (F : Funcs α) (hs : HashSet α) (v : α) :
    emptyBefore F hs v 0 = 0 := rfl

theorem emptyBefore_add_occupied {α : Type} (F : Funcs α) (hs : HashSet α) (v : α)
    (n : Nat) :
    emptyBefore F hs v n
      + ((Finset.range n).filter (fun j =>
          (nodeAt hs.NodesList (probeIndex F hs.capacity v j)).data.isSome = true)).card
      = n := by
  rw [card_filter_range
    (fun j => (nodeAt hs.NodesList (probeIndex F hs.capacity v j)).data.isSome) n]
  unfold emptyBefore
  have h := List.length_eq_countP_add_countP
    (fun j => (nodeAt hs.NodesList (probeIndex F hs.capacity v j)).data.isNone) (List.range n)
  rw [List.length_range] at h
  have hnot : (fun j => decide ¬(nodeAt hs.NodesList (probeIndex F hs.capacity v j)).data.isNone
        = true)
      = (fun j => (nodeAt hs.NodesList (probeIndex F hs.capacity v j)).data.isSome) := by
    funext j
    cases (nodeAt hs.NodesList (probeIndex F hs.capacity v j)).data <;> simp
  rw [hnot] at h
  omega

theorem probeBound_succ {α : Type} (F : Funcs α) (hs : HashSet α) (v : α) (i : Nat) :
    probeBound F hs v (i + 1)
      = if (nodeAt hs.NodesList (probeIndex F hs.capacity v i)).data.isNone = true then
          probeBound F hs v i
            + (if (nodeAt hs.NodesList (probeIndex F hs.capacity v 0)).hashCount = ONE_NODE
                then 0 else 1)
        else probeBound F hs v i := by
  unfold probeBound
  rw [emptyBefore_succ]
  by_cases hc : (nodeAt hs.NodesList (probeIndex F hs.capacity v 0)).hashCount = ONE_NODE
  · simp [hc]
  · by_cases he : (nodeAt hs.NodesList (probeIndex F hs.capacity v i)).data.isNone = true
    · simp only [hc, he, if_false, if_true]
      push_cast
      ring
    · simp [hc, he]

theorem probeBound_succ_le {α : Type} (F : Funcs α) (hs : HashSet α) (v : α) (i : Nat) :
    probeBound F hs v (i + 1) ≤ probeBound F hs v i + 1 := by
  rw [probeBound_succ]
  split_ifs <;> omega

/-- When the loop test holds at step `j`, it holds at every earlier step. -/
theorem probeBound_test_mono {α : Type} (F : Funcs α) (hs : HashSet α) (v : α) :
    ∀ (d i : Nat), ((i + d : Nat) : Int) ≤ probeBound F hs v (i + d) →
      (i : Int) ≤ probeBound F hs v i := by
  intro d
  induction d with
  | zero => intro i h; exact h
  | succ d ih =>
    intro i h
    apply ih i
    have := probeBound_succ_le F hs v (i + d)
    have hcast : ((i + (d + 1) : Nat) : Int) = ((i + d : Nat) : Int) + 1 := by push_cast; ring
    rw [show i + (d + 1) = i + d + 1 by omega] at h
    push_cast at h ⊢
    omega

theorem check_node_empty {α : Type} (cmp : α → α → Int) (node : Node α) (v : α)
    (h : node.data.isNone = true) : check_node cmp node (some v) ≠ SUCCESS := by
  unfold check_node
  cases hd : node.data with
  | none => simp
  | some d => rw [hd] at h; simp at h

/-- The loop of `hash_set_contains_value` from a pass `i ≥ 1` on, when the loop test fails
at pass `i + n`: it returns within `n + 1` passes after at most `n` loop bodies, and it
returns `SUCCESS` exactly when a step `j ≥ i` within the bound holds the value. -/
theorem contains_loop_from {α : Type} (F : Funcs α) (hs : HashSet α) (v : α) :
    ∀ (n i : Nat), 1 ≤ i → ¬ ((i + n : Nat) : Int) ≤ probeBound F hs v (i + n) →
      ∃ r m,
        hash_set_contains_loop F hs v (n + 1) i (probeBound F hs v i)
          (probeIndex F hs.capacity v 0) = some r ∧
        hash_set_contains_passes F hs v (n + 1) i (probeBound F hs v i)
          (probeIndex F hs.capacity v 0) = some m ∧
        m ≤ n ∧
        (r = SUCCESS ↔ ∃ j, i ≤ j ∧ (j : Int) ≤ probeBound F hs v j ∧
          check_node F.value_cmp (nodeAt hs.NodesList (probeIndex F hs.capacity v j)) (some v)
            = SUCCESS) := by
  intro n
  induction n with
  | zero =>
    intro i hi hfail
    have hfail0 : ¬ (i : Int) ≤ probeBound F hs v i := hfail
    refine ⟨FAIL, 0, ?_, ?_, le_refl 0, ?_⟩
    · rw [hash_set_contains_loop, contains_step_pos F hs v i _ _ hi, if_neg hfail0]
    · rw [hash_set_contains_passes, if_neg hfail0]
    · constructor
      · intro h; exact absurd h (by decide)
      · rintro ⟨j, hij, hj, _⟩
        exfalso
        obtain ⟨d, rfl⟩ : ∃ d, j = i + d := ⟨j - i, by omega⟩
        exact hfail0 (probeBound_test_mono F hs v d i hj)
  | succ n ih =>
    intro i hi hfail
    by_cases htest : (i : Int) ≤ probeBound F hs v i
    · -- the body of pass `i` is executed
      have hnext : ¬ ((i + 1 + n : Nat) : Int) ≤ probeBound F hs v (i + 1 + n) := by
        rw [show i + 1 + n = i + (n + 1) by omega]; exact hfail
      obtain ⟨r, m, hloop, hpass, hm, hiff⟩ := ih (i + 1) (by omega) hnext
      by_cases hempty : (nodeAt hs.NodesList (probeIndex F hs.capacity v i)).data.isNone = true
      · have hstep : hash_set_contains_step F hs v i (probeBound F hs v i)
            (probeIndex F hs.capacity v 0)
            = Sum.inr (i + 1, probeBound F hs v (i + 1), probeIndex F hs.capacity v 0) := by
          rw [contains_step_pos F hs v i _ _ hi, if_pos htest, if_pos hempty,
            probeBound_succ, if_pos hempty]
        refine ⟨r, m + 1, ?_, ?_, by omega, ?_⟩
        · rw [hash_set_contains_loop, hstep]
          exact hloop
        · rw [hash_set_contains_passes, if_pos htest, hstep]
          simp only
          rw [hpass]
          rfl
        · rw [hiff]
          constructor
          · rintro ⟨j, hj1, hj2, hj3⟩
            exact ⟨j, by omega, hj2, hj3⟩
          · rintro ⟨j, hj1, hj2, hj3⟩
            refine ⟨j, ?_, hj2, hj3⟩
            rcases Nat.eq_or_lt_of_le hj1 with heq | hlt
            · subst heq
              exact absurd hj3 (check_node_empty _ _ _ hempty)
            · exact hlt
      · by_cases hchk : check_node F.value_cmp
            (nodeAt hs.NodesList (probeIndex F hs.capacity v i)) (some v) = SUCCESS
        · have hstep : hash_set_contains_step F hs v i (probeBound F hs v i)
              (probeIndex F hs.capacity v 0) = Sum.inl SUCCESS := by
            rw [contains_step_pos F hs v i _ _ hi, if_pos htest, if_neg hempty, if_pos hchk]
          refine ⟨SUCCESS, 1, ?_, ?_, by omega, ?_⟩
          · rw [hash_set_contains_loop, hstep]
          · rw [hash_set_contains_passes, if_pos htest, hstep]
          · exact ⟨fun _ => ⟨i, le_refl i, htest, hchk⟩, fun _ => rfl⟩
        · have hstep : hash_set_contains_step F hs v i (probeBound F hs v i)
              (probeIndex F hs.capacity v 0)
              = Sum.inr (i + 1, probeBound F hs v (i + 1), probeIndex F hs.capacity v 0) := by
            rw [contains_step_pos F hs v i _ _ hi, if_pos htest, if_neg hempty, if_neg hchk,
              probeBound_succ, if_neg hempty]
          refine ⟨r, m + 1, ?_, ?_, by omega, ?_⟩
          · rw [hash_set_contains_loop, hstep]
            exact hloop
          · rw [hash_set_contains_passes, if_pos htest, hstep]
            simp only
            rw [hpass]
            rfl
          · rw [hiff]
            constructor
            · rintro ⟨j, hj1, hj2, hj3⟩
              exact ⟨j, by omega, hj2, hj3⟩
            · rintro ⟨j, hj1, hj2, hj3⟩
              refine ⟨j, ?_, hj2, hj3⟩
              rcases Nat.eq_or_lt_of_le hj1 with heq | hlt
              · subst heq
                exact absurd hj3 hchk
              · exact hlt
    · -- the loop test fails at pass `i`
      refine ⟨FAIL, 0, ?_, ?_, Nat.zero_le _, ?_⟩
      · rw [hash_set_contains_loop, contains_step_pos F hs v i _ _ hi, if_neg htest]
      · rw [hash_set_contains_passes, if_neg htest]
      · constructor
        · intro h; exact absurd h (by decide)
        · rintro ⟨j, hij, hj, _⟩
          exfalso
          obtain ⟨d, rfl⟩ : ∃ d, j = i + d := ⟨j - i, by omega⟩
          exact htest (probeBound_test_mono F hs v d i hj)

/-! ### The whole lookup -/

theorem contains_passes_succ {α : Type} (F : Funcs α) (hs : HashSet α) (v : α) :
    ∀ (fuel i : Nat) (hc : Int) (first : Nat) (m : Nat),
      hash_set_contains_passes F hs v fuel i hc first = some m →
      hash_set_contains_passes F hs v (fuel + 1) i hc first = some m := by
  intro fuel
  induction fuel with
  | zero => intro i hc first m h; simp [hash_set_contains_passes] at h
  | succ n ih =>
    intro i hc first m h
    rw [hash_set_contains_passes] at h ⊢
    by_cases htest : (i : Int) ≤ hc
    · rw [if_pos htest] at h ⊢
      cases hstep : hash_set_contains_step F hs v i hc first with
      | inl res => rw [hstep] at h; exact h
      | inr st =>
        rw [hstep] at h
        simp only at h ⊢
        cases hrec : hash_set_contains_passes F hs v n st.1 st.2.1 st.2.2 with
        | none => rw [hrec] at h; simp at h
        | some m1 =>
          rw [hrec] at h
          rw [ih _ _ _ _ hrec]
          exact h
    · rw [if_neg htest] at h ⊢
      exact h

theorem contains_passes_mono {α : Type} (F : Funcs α) (hs : HashSet α) (v : α)
    (fuel fuel1 i : Nat) (hc : Int) (first : Nat) (m : Nat) (hle : fuel ≤ fuel1)
    (h : hash_set_contains_passes F hs v fuel i hc first = some m) :
    hash_set_contains_passes F hs v fuel1 i hc first = some m := by
  induction hle with
  | refl => exact h
  | step _ ih => exact contains_passes_succ F hs v _ i hc first m ih

theorem probeBound_zero {α : Type} (F : Funcs α) (hs : HashSet α) (v : α) :
    probeBound F hs v 0 = (nodeAt hs.NodesList (probeIndex F hs.capacity v 0)).hashCount := by
  unfold probeBound
  rw [emptyBefore_zero]
  split_ifs <;> simp

/-- The lookup when the anchor's `hashCount` is 0: it returns `FAIL` in its first pass. -/
theorem contains_value_anchor_zero {α : Type} (F : Funcs α) (hs : HashSet α) (v : α)
    (fuel : Nat)
    (hc : (nodeAt hs.NodesList (probeIndex F hs.capacity v 0)).hashCount = 0) :
    hash_set_contains_value F (fuel + 1) hs (some v) = some FAIL ∧
      hash_set_contains_passes F hs v (fuel + 1) INITIAL_IND ONE_NODE 0 = some 1 := by
  have hstep : hash_set_contains_step F hs v 0 ONE_NODE 0 = Sum.inl FAIL := by
    rw [contains_step_zero, if_pos hc]
  constructor
  · unfold hash_set_contains_value
    simp only
    rw [hash_set_contains_loop, hstep]
  · rw [hash_set_contains_passes, if_pos (by decide), hstep]

/-- The lookup when the anchor's `hashCount` is positive and the loop test fails at pass
`1 + n`. -/
theorem contains_value_anchor_pos {α : Type} (F : Funcs α) (hs : HashSet α) (v : α)
    (n : Nat)
    (hc : 1 ≤ (nodeAt hs.NodesList (probeIndex F hs.capacity v 0)).hashCount)
    (hfail : ¬ ((1 + n : Nat) : Int) ≤ probeBound F hs v (1 + n)) :
    ∃ r m, hash_set_contains_value F (n + 2) hs (some v) = some r ∧
      hash_set_contains_passes F hs v (n + 2) INITIAL_IND ONE_NODE 0 = some m ∧
      m ≤ n + 1 ∧
      (r = SUCCESS ↔ ∃ j : Nat, (j : Int) ≤ probeBound F hs v j ∧
        check_node F.value_cmp (nodeAt hs.NodesList (probeIndex F hs.capacity v j)) (some v)
          = SUCCESS) := by
  have hc0 : ¬ (nodeAt hs.NodesList (probeIndex F hs.capacity v 0)).hashCount = 0 := by omega
  obtain ⟨r, m, hloop, hpass, hm, hiff⟩ := contains_loop_from F hs v n 1 (le_refl 1) hfail
  have hb1 := probeBound_succ F hs v 0
  rw [probeBound_zero] at hb1
  by_cases hempty : (nodeAt hs.NodesList (probeIndex F hs.capacity v 0)).data.isNone = true
  · have hstep : hash_set_contains_step F hs v 0 ONE_NODE 0
        = Sum.inr (1, probeBound F hs v 1, probeIndex F hs.capacity v 0) := by
      rw [contains_step_zero, if_neg hc0, if_pos hempty, hb1, if_pos hempty]
    refine ⟨r, m + 1, ?_, ?_, by omega, ?_⟩
    · unfold hash_set_contains_value
      simp only
      rw [hash_set_contains_loop, hstep]
      exact hloop
    · rw [hash_set_contains_passes, if_pos (by decide), hstep]
      simp only
      rw [hpass]
      rfl
    · rw [hiff]
      constructor
      · rintro ⟨j, _, hj2, hj3⟩
        exact ⟨j, hj2, hj3⟩
      · rintro ⟨j, hj2, hj3⟩
        refine ⟨j, ?_, hj2, hj3⟩
        rcases Nat.eq_zero_or_pos j with heq | hpos
        · subst heq
          exact absurd hj3 (check_node_empty _ _ _ hempty)
        · exact hpos
  · by_cases hchk : check_node F.value_cmp
        (nodeAt hs.NodesList (probeIndex F hs.capacity v 0)) (some v) = SUCCESS
    · have hstep : hash_set_contains_step F hs v 0 ONE_NODE 0 = Sum.inl SUCCESS := by
        rw [contains_step_zero, if_neg hc0, if_neg hempty, if_pos hchk]
      refine ⟨SUCCESS, 1, ?_, ?_, by omega, ?_⟩
      · unfold hash_set_contains_value
        simp only
        rw [hash_set_contains_loop, hstep]
      · rw [hash_set_contains_passes, if_pos (by decide), hstep]
      · refine ⟨fun _ => ⟨0, ?_, hchk⟩, fun _ => rfl⟩
        rw [probeBound_zero]
        push_cast
        omega
    · have hstep : hash_set_contains_step F hs v 0 ONE_NODE 0
          = Sum.inr (1, probeBound F hs v 1, probeIndex F hs.capacity v 0) := by
        rw [contains_step_zero, if_neg hc0, if_neg hempty, if_neg hchk, hb1, if_neg hempty]
      refine ⟨r, m + 1, ?_, ?_, by omega, ?_⟩
      · unfold hash_set_contains_value
        simp only
        rw [hash_set_contains_loop, hstep]
        exact hloop
      · rw [hash_set_contains_passes, if_pos (by decide), hstep]
        simp only
        rw [hpass]
        rfl
      · rw [hiff]
        constructor
        · rintro ⟨j, _, hj2, hj3⟩
          exact ⟨j, hj2, hj3⟩
        · rintro ⟨j, hj2, hj3⟩
          refine ⟨j, ?_, hj2, hj3⟩
          rcases Nat.eq_zero_or_pos j with heq | hpos
          · subst heq
            exact absurd hj3 hchk
          · exact hpos

theorem anchorCount_le_countOccupied {α : Type} (F : Funcs α) (c : Nat)
    (nodes : List (Node α)) (s : Nat) : anchorCount F c nodes s ≤ countOccupied nodes := by
  unfold anchorCount countOccupied
  apply List.countP_mono_left
  intro x _ hx
  unfold anchoredAt at hx
  cases hd : x.data with
  | none => rw [hd] at hx; simp at hx
  | some d => rfl

/-- On a table with the structural invariant and right anchor counters the lookup returns
within `2 * capacity` passes, after fewer than `2 * capacity` loop bodies, and it returns
`SUCCESS` exactly when the anchor's `hashCount` is not 0 and a probe step within the bound
holds the value. -/
theorem contains_value_spec {α : Type} (F : Funcs α) (hs : HashSet α) (v : α)
    (hwf : WellFormed hs) (hok : AnchorsOK F hs.capacity hs.NodesList) :
    ∃ r m, hash_set_contains_value F (2 * hs.capacity) hs (some v) = some r ∧
      hash_set_contains_passes F hs v (2 * hs.capacity) INITIAL_IND ONE_NODE 0 = some m ∧
      m < 2 * hs.capacity ∧
      (r = SUCCESS ↔
        (nodeAt hs.NodesList (probeIndex F hs.capacity v 0)).hashCount ≠ 0 ∧
        ∃ j : Nat, (j : Int) ≤ probeBound F hs v j ∧
          check_node F.value_cmp (nodeAt hs.NodesList (probeIndex F hs.capacity v j)) (some v)
            = SUCCESS) := by
  obtain ⟨⟨k, hk⟩, hlen, hsize, hload⟩ := hwf
  have hpos : 0 < hs.capacity := by rw [hk]; exact Nat.two_pow_pos k
  have ha : probeIndex F hs.capacity v 0 < hs.capacity := by
    rw [hk]; exact probeIndex_lt F k v 0
  have hcount := hok _ ha
  have hle := anchorCount_le_countOccupied F hs.capacity hs.NodesList
    (probeIndex F hs.capacity v 0)
  rcases Nat.eq_zero_or_pos (anchorCount F hs.capacity hs.NodesList
    (probeIndex F hs.capacity v 0)) with hz | hp
  · -- anchor counter 0
    have hc0 : (nodeAt hs.NodesList (probeIndex F hs.capacity v 0)).hashCount = 0 := by
      rw [hcount, hz]; rfl
    obtain ⟨h1, h2⟩ := contains_value_anchor_zero F hs v (2 * hs.capacity - 1) hc0
    rw [show 2 * hs.capacity - 1 + 1 = 2 * hs.capacity by omega] at h1 h2
    refine ⟨FAIL, 1, h1, h2, by omega, ?_⟩
    constructor
    · intro h; exact absurd h (by decide)
    · rintro ⟨hne, _⟩; exact absurd hc0 hne
  · have hc1 : 1 ≤ (nodeAt hs.NodesList (probeIndex F hs.capacity v 0)).hashCount := by
      rw [hcount]; exact_mod_cast hp
    have hne : (nodeAt hs.NodesList (probeIndex F hs.capacity v 0)).hashCount ≠ 0 := by omega
    by_cases hone : (nodeAt hs.NodesList (probeIndex F hs.capacity v 0)).hashCount = ONE_NODE
    · -- anchor counter 1: the bound stays 1
      have hfail : ¬ ((1 + 1 : Nat) : Int) ≤ probeBound F hs v (1 + 1) := by
        unfold probeBound
        rw [if_pos hone, hone]
        decide
      obtain ⟨r, m, h1, h2, hm, hiff⟩ := contains_value_anchor_pos F hs v 1 hc1 hfail
      have hfuel : 1 + 2 ≤ 2 * hs.capacity := by omega
      refine ⟨r, m, contains_value_mono F hs (some v) _ _ r hfuel h1,
        contains_passes_mono F hs v _ _ _ _ _ m hfuel h2, by omega, ?_⟩
      rw [hiff]
      exact ⟨fun h => ⟨hne, h⟩, fun h => h.2⟩
    · -- anchor counter at least 2: enough occupied slots are probed
      have hocc := occupied_probes_lower_bound F k hs v hk hlen
      clear hk ha
      have hsum := emptyBefore_add_occupied F hs v (2 * hs.capacity - 1)
      have hc2 : (2 : Int) ≤ (nodeAt hs.NodesList (probeIndex F hs.capacity v 0)).hashCount := by
        simp only [ONE_NODE] at hone
        omega
      rw [hcount] at hc2
      have hcap2 : 2 ≤ hs.capacity := by omega
      have hfuel : 2 * hs.capacity - 2 + 2 = 2 * hs.capacity := by omega
      have hfail : ¬ ((1 + (2 * hs.capacity - 2) : Nat) : Int)
          ≤ probeBound F hs v (1 + (2 * hs.capacity - 2)) := by
        rw [show 1 + (2 * hs.capacity - 2) = 2 * hs.capacity - 1 by omega]
        unfold probeBound
        rw [if_neg hone, hcount]
        omega
      obtain ⟨r, m, h1, h2, hm, hiff⟩ :=
        contains_value_anchor_pos F hs v (2 * hs.capacity - 2) hc1 hfail
      rw [hfuel] at h1 h2
      have hm2 : m < 2 * hs.capacity := by
        clear hiff hfail
        omega
      refine ⟨r, m, h1, h2, hm2, ?_⟩
      rw [hiff]
      exact ⟨fun h => ⟨hne, h⟩, fun h => h.2⟩

theorem hashConsistent_intFuncs : HashConsistent intFuncs := by
  intro a b hab
  simp only [intFuncs] at hab ⊢
  by_contra hne
  rw [if_neg hne] at hab
  exact absurd hab (by decide)

theorem copyPreservesHash_intFuncs : CopyPreservesHash intFuncs := fun _ => rfl

theorem reachable_table_0_16 : Reachable intFuncs table_0_16 :=
  runOps_reachable intFuncs 8 [Op.insert 0, Op.insert 16] _ _ Reachable.alloc (by decide)

theorem nodeAt_data_of_count_zero {α : Type} (nodes : List (Node α))
    (h : countOccupied nodes = 0) (i : Nat) : (nodeAt nodes i).data = none := by
  cases hd : (nodeAt nodes i).data with
  | none => rfl
  | some d =>
    have hpos := countOccupied_pos_of_some nodes i (by rw [hd]; rfl)
    omega

theorem resize_loop_of_empty {α : Type} (F : Funcs α) (old : List (Node α)) (c : Nat)
    (hempty : ∀ i, (nodeAt old i).data = none) :
    ∀ (n i : Nat) (nodes : List (Node α)), resize_loop F old c n i nodes = some nodes := by
  intro n
  induction n with
  | zero => intro i nodes; rfl
  | succ n ih =>
    intro i nodes
    rw [resize_loop, hempty i]
    exact ih _ _

theorem resize_of_empty {α : Type} (F : Funcs α) (hs : HashSet α) (c : Nat)
    (h : countOccupied hs.NodesList = 0) :
    (resize F hs c).NodesList = get_new_nodes_list c := by
  unfold resize
  rw [resize_loop_of_empty F _ c (nodeAt_data_of_count_zero _ h)]

/-- A reachable table with `size = 0` has only fresh nodes: the calls that empty a table
(`hash_set_clear`, and `hash_set_erase` of the last value, which shrinks the table) rebuild
or reset every node. -/
theorem reachable_size_zero {α : Type} (F : Funcs α) (hs : HashSet α) (h : Reachable F hs) :
    hs.size = 0 → ∀ s, nodeAt hs.NodesList s = node_alloc := by
  induction h with
  | alloc => intro _ s; exact nodeAt_new_nodes _ s
  | @insert hs0 hs1 fuel value r hr hstep ih =>
    intro hsize s
    rcases insert_cases F fuel hs0 hs1 value r hstep with ⟨h1, _⟩ | ⟨v, j, _, _, _, _, h1⟩
    · rw [h1] at hsize ⊢
      exact ih hsize s
    · exfalso
      rw [h1] at hsize
      split_ifs at hsize
      · rw [resize_size] at hsize
        exact absurd hsize (Nat.succ_ne_zero _)
      · exact absurd hsize (Nat.succ_ne_zero _)
  | @erase hs0 hs1 fuel value r hr hstep ih =>
    intro hsize s
    rcases erase_cases F fuel hs0 hs1 value r hstep with ⟨h1, _⟩ | ⟨v, j, _, _, hchk, h1⟩
    · rw [h1] at hsize ⊢
      exact ih hsize s
    · obtain ⟨⟨k, hk⟩, hlen, hsz, hload⟩ := reachable_wellFormed F hs0 hr
      have hsome := check_node_success_isSome _ _ _ hchk
      have hcnt := erasedAt_count hs0 (probeIndex F hs0.capacity v j)
        (probeIndex F hs0.capacity v 0) hsome
      have hpos : 0 < hs0.capacity := by rw [hk]; exact Nat.two_pow_pos k
      have hpos1 : 0 < (erasedAt hs0 (probeIndex F hs0.capacity v j)
          (probeIndex F hs0.capacity v 0)).capacity := hpos
      have hposc := countOccupied_pos_of_some _ _ hsome
      by_cases hc : hash_set_get_load_factor
          (erasedAt hs0 (probeIndex F hs0.capacity v j) (probeIndex F hs0.capacity v 0))
          ≤ HASH_SET_MIN_LOAD_FACTOR ∧ hs0.capacity ≠ MIN_CAPACITY
      · rw [if_pos hc] at h1
        rw [h1, resize_size] at hsize
        have hsize1 : hs0.size - 1 = 0 := hsize
        rw [h1, resize_of_empty F _ _ (by omega)]
        exact nodeAt_new_nodes _ s
      · rw [if_neg hc] at h1
        rw [h1] at hsize
        have hsize1 : hs0.size - 1 = 0 := hsize
        exfalso
        apply hc
        rw [load_le_min_iff _ hpos1]
        have hE : (erasedAt hs0 (probeIndex F hs0.capacity v j)
            (probeIndex F hs0.capacity v 0)).size = 0 := hsize1
        refine ⟨by rw [hE]; omega, ?_⟩
        intro hcap
        simp only [MIN_CAPACITY] at hcap
        omega
  | @clear hs0 hr ih =>
    intro _ s
    obtain ⟨_, hlen, _, _⟩ := reachable_wellFormed F hs0 hr
    rw [clear_eq_new hs0 hlen]
    exact nodeAt_new_nodes _ s

/-- The probe sequence of a power-of-two table has period `2 * capacity`. -/
theorem probeIndex_period {α : Type} (F : Funcs α) (k : Nat) (v : α) (j : Nat) :
    probeIndex F (2 ^ k) v (j + 2 * 2 ^ k) = probeIndex F (2 ^ k) v j := by
  have h1 := tri_two_mul (j + 2 * 2 ^ k)
  have h2 := tri_two_mul j
  have hprod : (j + 2 * 2 ^ k) * (j + 2 * 2 ^ k + 1)
      = j * (j + 1) + 2 * (2 ^ k * (2 * j + 2 * 2 ^ k + 1)) := by ring
  have htri : (j + 2 * 2 ^ k) * (j + 2 * 2 ^ k + 1) / 2
      = j * (j + 1) / 2 + 2 ^ k * (2 * j + 2 * 2 ^ k + 1) := by
    rw [hprod] at h1
    omega
  unfold probeIndex
  rw [get_index_two_pow, get_index_two_pow, htri]
  push_cast
  rw [← add_assoc, Int.add_mul_emod_self_left]

theorem probeIndex_periods {α : Type} (F : Funcs α) (k : Nat) (v : α) (j t : Nat) :
    probeIndex F (2 ^ k) v (j + 2 * 2 ^ k * t) = probeIndex F (2 ^ k) v j := by
  induction t with
  | zero => rfl
  | succ t ih =>
    rw [show j + 2 * 2 ^ k * (t + 1) = j + 2 * 2 ^ k * t + 2 * 2 ^ k by ring,
      probeIndex_period, ih]

theorem emptyBefore_add_le {α : Type} (F : Funcs α) (hs : HashSet α) (v : α) (a b : Nat) :
    emptyBefore F hs v (a + b) ≤ emptyBefore F hs v a + b := by
  induction b with
  | zero => exact le_refl _
  | succ b ih =>
    rw [show a + (b + 1) = a + b + 1 by omega, emptyBefore_succ]
    split_ifs <;> omega

theorem emptyBefore_le {α : Type} (F : Funcs α) (hs : HashSet α) (v : α) (n : Nat) :
    emptyBefore F hs v n ≤ n := by
  have := emptyBefore_add_occupied F hs v n
  omega

/-- When step `j0` of the probe sequence lands on an occupied slot, at least `t + 1` of the
steps up to `j0 + 2 * capacity * t` do. -/
theorem emptyBefore_periods {α : Type} (F : Funcs α) (k : Nat) (hs : HashSet α) (v : α)
    (hk : hs.capacity = 2 ^ k) (j0 : Nat)
    (hocc : (nodeAt hs.NodesList (probeIndex F hs.capacity v j0)).data.isNone = false) :
    ∀ t, emptyBefore F hs v (j0 + 2 * 2 ^ k * t + 1) + (t + 1) ≤ j0 + 2 * 2 ^ k * t + 1 := by
  have hstep : ∀ t, emptyBefore F hs v (j0 + 2 * 2 ^ k * t + 1)
      = emptyBefore F hs v (j0 + 2 * 2 ^ k * t) := by
    intro t
    rw [emptyBefore_succ, hk, probeIndex_periods, ← hk, hocc]
    simp
  have hpos : 0 < 2 ^ k := Nat.two_pow_pos k
  intro t
  induction t with
  | zero =>
    have := hstep 0
    have hle := emptyBefore_le F hs v (j0 + 2 * 2 ^ k * 0)
    omega
  | succ t ih =>
    have h1 := hstep (t + 1)
    have h2 := emptyBefore_add_le F hs v (j0 + 2 * 2 ^ k * t + 1) (2 * 2 ^ k - 1)
    have h3 : j0 + 2 * 2 ^ k * t + 1 + (2 * 2 ^ k - 1) = j0 + 2 * 2 ^ k * (t + 1) := by
      rw [Nat.mul_add]; omega
    rw [h3] at h2
    have h4 : 2 * 2 ^ k * (t + 1) = 2 * 2 ^ k * t + 2 * 2 ^ k := by rw [Nat.mul_add]; omega
    rw [h4] at h1 h2 ⊢
    omega

/-- The lookup when the anchor's `hashCount` is not 0 and the loop test fails at pass
`1 + n`: it returns within `n + 2` passes. -/
theorem contains_value_anchor_ne_zero {α : Type} (F : Funcs α) (hs : HashSet α) (v : α)
    (n : Nat)
    (hc0 : (nodeAt hs.NodesList (probeIndex F hs.capacity v 0)).hashCount ≠ 0)
    (hfail : ¬ ((1 + n : Nat) : Int) ≤ probeBound F hs v (1 + n)) :
    ∃ r m, hash_set_contains_value F (n + 2) hs (some v) = some r ∧
      hash_set_contains_passes F hs v (n + 2) INITIAL_IND ONE_NODE 0 = some m ∧
      m ≤ n + 1 := by
  obtain ⟨r, m, hloop, hpass, hm, _⟩ := contains_loop_from F hs v n 1 (le_refl 1) hfail
  have hb1 := probeBound_succ F hs v 0
  rw [probeBound_zero] at hb1
  by_cases hempty : (nodeAt hs.NodesList (probeIndex F hs.capacity v 0)).data.isNone = true
  · have hstep : hash_set_contains_step F hs v 0 ONE_NODE 0
        = Sum.inr (1, probeBound F hs v 1, probeIndex F hs.capacity v 0) := by
      rw [contains_step_zero, if_neg hc0, if_pos hempty, hb1, if_pos hempty]
    refine ⟨r, m + 1, ?_, ?_, by omega⟩
    · unfold hash_set_contains_value
      simp only
      rw [hash_set_contains_loop, hstep]
      exact hloop
    · rw [hash_set_contains_passes, if_pos (by decide), hstep]
      simp only
      rw [hpass]
      rfl
  · by_cases hchk : check_node F.value_cmp
        (nodeAt hs.NodesList (probeIndex F hs.capacity v 0)) (some v) = SUCCESS
    · have hstep : hash_set_contains_step F hs v 0 ONE_NODE 0 = Sum.inl SUCCESS := by
        rw [contains_step_zero, if_neg hc0, if_neg hempty, if_pos hchk]
      refine ⟨SUCCESS, 1, ?_, ?_, by omega⟩
      · unfold hash_set_contains_value
        simp only
        rw [hash_set_contains_loop, hstep]
      · rw [hash_set_contains_passes, if_pos (by decide), hstep]
    · have hstep : hash_set_contains_step F hs v 0 ONE_NODE 0
          = Sum.inr (1, probeBound F hs v 1, probeIndex F hs.capacity v 0) := by
        rw [contains_step_zero, if_neg hc0, if_neg hempty, if_neg hchk, hb1, if_neg hempty]
      refine ⟨r, m + 1, ?_, ?_, by omega⟩
      · unfold hash_set_contains_value
        simp only
        rw [hash_set_contains_loop, hstep]
        exact hloop
      · rw [hash_set_contains_passes, if_pos (by decide), hstep]
        simp only
        rw [hpass]
        rfl

/-- On every reachable table, whatever the caller's functions are, the lookup of a non-null
value returns. -/
theorem contains_value_terminates {α : Type} (F : Funcs α) (hs : HashSet α) (v : α)
    (h : Reachable F hs) :
    ∃ fuel r m, hash_set_contains_value F fuel hs (some v) = some r ∧
      hash_set_contains_passes F hs v fuel INITIAL_IND ONE_NODE 0 = some m ∧ m < fuel := by
  by_cases hc0 : (nodeAt hs.NodesList (probeIndex F hs.capacity v 0)).hashCount = 0
  · obtain ⟨h1, h2⟩ := contains_value_anchor_zero F hs v 1 hc0
    exact ⟨2, FAIL, 1, h1, h2, by decide⟩
  · obtain ⟨⟨k, hk⟩, hlen, hsz, _⟩ := reachable_wellFormed F hs h
    -- the table holds a value, and some step below `capacity` probes its slot
    have hsize : hs.size ≠ 0 := by
      intro hz
      apply hc0
      rw [reachable_size_zero F hs h hz]
      rfl
    obtain ⟨j0, hocc⟩ : ∃ j0,
        (nodeAt hs.NodesList (probeIndex F hs.capacity v j0)).data.isNone = false := by
      by_contra hno
      have hall : ∀ s, (nodeAt hs.NodesList s).data = none := by
        intro s
        by_cases hs1 : s < 2 ^ k
        · obtain ⟨j, _, hj⟩ := get_index_surj k F.hash_func v s hs1
          have hj1 : probeIndex F hs.capacity v j = s := by rw [hk]; exact hj
          cases hd : (nodeAt hs.NodesList s).data with
          | none => rfl
          | some d =>
            exfalso
            apply hno
            refine ⟨j, ?_⟩
            rw [hj1, hd]
            rfl
        · rw [nodeAt_of_le _ _ (by omega)]
          rfl
      have hzero : countOccupied hs.NodesList = 0 := by
        unfold countOccupied
        rw [List.countP_eq_zero]
        intro a ha
        obtain ⟨n, hn, rfl⟩ := List.mem_iff_getElem.mp ha
        have := hall n
        rw [nodeAt_of_lt _ _ hn] at this
        simp [this]
      omega
    have hpos : 0 < 2 ^ k := Nat.two_pow_pos k
    have hper := emptyBefore_periods F k hs v hk j0 hocc
      (nodeAt hs.NodesList (probeIndex F hs.capacity v 0)).hashCount.toNat
    have htn := Int.self_le_toNat
      (nodeAt hs.NodesList (probeIndex F hs.capacity v 0)).hashCount
    have hfail : ¬ ((1 + (j0 + 2 * 2 ^ k *
          (nodeAt hs.NodesList (probeIndex F hs.capacity v 0)).hashCount.toNat) : Nat) : Int)
        ≤ probeBound F hs v (1 + (j0 + 2 * 2 ^ k *
          (nodeAt hs.NodesList (probeIndex F hs.capacity v 0)).hashCount.toNat)) := by
      rw [show 1 + (j0 + 2 * 2 ^ k *
          (nodeAt hs.NodesList (probeIndex F hs.capacity v 0)).hashCount.toNat)
        = j0 + 2 * 2 ^ k *
          (nodeAt hs.NodesList (probeIndex F hs.capacity v 0)).hashCount.toNat + 1 by omega]
      unfold probeBound
      by_cases hone : (nodeAt hs.NodesList (probeIndex F hs.capacity v 0)).hashCount = ONE_NODE
      · rw [if_pos hone, hone]
        have h1 : 1 < j0 + 2 * 2 ^ k * Int.toNat ONE_NODE + 1 := by
          simp only [ONE_NODE, Int.toNat_one]
          omega
        rw [not_le]
        exact_mod_cast h1
      · rw [if_neg hone]
        generalize emptyBefore F hs v (j0 + 2 * 2 ^ k *
          (nodeAt hs.NodesList (probeIndex F hs.capacity v 0)).hashCount.toNat + 1) = e
          at hper ⊢
        generalize (nodeAt hs.NodesList (probeIndex F hs.capacity v 0)).hashCount = c
          at hper htn ⊢
        generalize 2 * 2 ^ k * c.toNat = P at hper ⊢
        push_cast
        omega
    obtain ⟨r, m, h1, h2, hm⟩ := contains_value_anchor_ne_zero F hs v _ hc0 hfail
    exact ⟨_, r, m, h1, h2, by omega⟩

/-! ### A caller whose hash is not consistent with its comparison -/

theorem not_hashConsistent_blockFuncs : ¬ HashConsistent blockFuncs := by
  intro h
  exact absurd (h 32 33 (by decide)) (by decide)

theorem runOps_table_blocks :
    runOps blockFuncs 32 (get_new_hashset HASH_SET_INITIAL_CAP)
      [Op.insert 16, Op.insert 32, Op.insert 48, Op.insert 64, Op.insert 80, Op.insert 96,
        Op.insert 112, Op.insert 128, Op.insert 144, Op.insert 160, Op.insert 176,
        Op.erase 33, Op.erase 51, Op.erase 70, Op.erase 90, Op.erase 111, Op.erase 117]
      = some table_blocks := by
  decide

theorem reachable_table_blocks : Reachable blockFuncs table_blocks :=
  runOps_reachable blockFuncs 32 _ _ _ Reachable.alloc runOps_table_blocks

/-- C19 as stated fails: the claim does not restrict the caller's functions.  With keys
compared by their block of 16 (`blockFuncs`, identity hash), eleven calls of
`hash_set_insert` (16, 32, ..., 176) and six calls of `hash_set_erase` (33, 51, 70, 90, 111,
117) on the fresh table leave a table of capacity 16 with five values, whose slot 0 has
`hashCount = 11`.  The lookup of 320 in it does not return within `2 * capacity = 32`
passes: it returns 0 after 40 loop bodies. -/
theorem C19_counterexample :
    runOps blockFuncs 32 (get_new_hashset HASH_SET_INITIAL_CAP)
        [Op.insert 16, Op.insert 32, Op.insert 48, Op.insert 64, Op.insert 80, Op.insert 96,
          Op.insert 112, Op.insert 128, Op.insert 144, Op.insert 160, Op.insert 176,
          Op.erase 33, Op.erase 51, Op.erase 70, Op.erase 90, Op.erase 111, Op.erase 117]
        = some table_blocks ∧
      Reachable blockFuncs table_blocks ∧
      table_blocks.capacity = 16 ∧
      (nodeAt table_blocks.NodesList (probeIndex blockFuncs 16 320 0)).hashCount = 11 ∧
      hash_set_contains_value blockFuncs (2 * table_blocks.capacity) table_blocks (some 320)
        = none ∧
      hash_set_contains_passes blockFuncs table_blocks 320 (2 * table_blocks.capacity)
        INITIAL_IND ONE_NODE 0 = none ∧
      hash_set_contains_value blockFuncs 41 table_blocks (some 320) = some FAIL ∧
      hash_set_contains_passes blockFuncs table_blocks 320 41 INITIAL_IND ONE_NODE 0
        = some 40 ∧
      ¬ (40 < 2 * table_blocks.capacity) :=
  ⟨runOps_table_blocks, reachable_table_blocks, rfl, by decide, by decide, by decide,
    by decide, by decide, by decide⟩

/-- C19 (amended): termination of lookup.  On every reachable table and for every non-null
value the probe loop of `hash_set_contains_value` terminates, whatever the caller's
functions are: with enough passes allowed the function returns.  For a caller whose hash is
consistent with its comparison and whose copy preserves the hash, the function returns
within `2 * capacity` passes, and the loop executes fewer than `2 * capacity` loop bodies. -/
theorem C19_lookup_terminates {α : Type} (F : Funcs α) (hs : HashSet α) (v : α)
    (h : Reachable F hs) :
    (∃ fuel r m, hash_set_contains_value F fuel hs (some v) = some r ∧
        hash_set_contains_passes F hs v fuel INITIAL_IND ONE_NODE 0 = some m) ∧
      (HashConsistent F → CopyPreservesHash F →
        ∃ r m, hash_set_contains_value F (2 * hs.capacity) hs (some v) = some r ∧
          hash_set_contains_passes F hs v (2 * hs.capacity) INITIAL_IND ONE_NODE 0 = some m ∧
          m < 2 * hs.capacity) := by
  constructor
  · obtain ⟨fuel, r, m, h1, h2, _⟩ := contains_value_terminates F hs v h
    exact ⟨fuel, r, m, h1, h2⟩
  · intro hcons hcpy
    obtain ⟨r, m, h1, h2, hm, _⟩ := contains_value_spec F hs v (reachable_wellFormed F hs h)
      (reachable_anchorsOK F hs hcons hcpy h)
    exact ⟨r, m, h1, h2, hm⟩

/-- C19 (amended) at the lookup of 32 in the table holding 0 and 16, which takes 31 loop
bodies at capacity 16. -/
theorem C19_lookup_terminates_witness :
    HashConsistent intFuncs ∧ CopyPreservesHash intFuncs ∧ Reachable intFuncs table_0_16 ∧
      ((∃ fuel r m, hash_set_contains_value intFuncs fuel table_0_16 (some 32) = some r ∧
          hash_set_contains_passes intFuncs table_0_16 32 fuel INITIAL_IND ONE_NODE 0
            = some m) ∧
        (HashConsistent intFuncs → CopyPreservesHash intFuncs →
          ∃ r m, hash_set_contains_value intFuncs (2 * table_0_16.capacity) table_0_16
              (some 32) = some r ∧
            hash_set_contains_passes intFuncs table_0_16 32 (2 * table_0_16.capacity)
              INITIAL_IND ONE_NODE 0 = some m ∧
            m < 2 * table_0_16.capacity)) :=
  ⟨hashConsistent_intFuncs, copyPreservesHash_intFuncs, reachable_table_0_16,
    C19_lookup_terminates intFuncs table_0_16 32 reachable_table_0_16⟩

end HashSetC
